import Mathlib

set_option maxRecDepth 10000

/-!
Verification of the Azul game engine (danielsihyun/azul).

This file gives a shallow embedding of the two rule engines of the repository:

* the local engine, `src/lib/types.ts` + `src/lib/constants.ts` +
  `src/lib/scoring.ts` + `src/lib/gameEngine.ts`, and
* the networked room engine (the PartyKit server file), which duplicates the
  scoring/constants code verbatim and adds the two-step pickup/placement
  protocol.

Modelling conventions:
* JavaScript arrays become `List`s; in-place mutation becomes explicit state
  passing; `array.pop()` becomes `getLast?`/`dropLast`.
* JavaScript numbers used as scores become `Int`; indices become `Nat`
  (the `targetLine` field, which ranges over -1..4, stays `Int`).
* A thrown exception or a `null` return becomes `Option.none`; all rejection
  paths in the source precede every mutation, so a `none` result models
  "state unchanged".
* `Math.random`-driven shuffling is injected as a parameter
  `rng : Nat -> Nat`; step `i` of the Fisher-Yates loop uses `rng i % (i+1)`,
  matching `Math.floor(Math.random() * (i + 1))`.
* Cosmetic fields that never hold tiles and that no claim mentions
  (`gameLog`, the `id` strings generated from `Date.now()`, timestamps) are
  elided.  The local `PlayerState` and the room `PlayerState` differ only by
  the room's `connected : Bool` flag; we use a single structure carrying that
  flag, which the local engine neither reads nor writes.
-/

/-- The five tile colors of `types.ts` (`TileColor`). -/
inductive TileColor where
  | blue
  | yellow
  | red
  | black
  | cyan
deriving DecidableEq

/-- The fixed color list `ALL_COLORS` of `types.ts`. -/
def ALL_COLORS : List TileColor :=
  [TileColor.blue, TileColor.yellow, TileColor.red, TileColor.black, TileColor.cyan]

/-- Phases of the local engine (`GamePhase` in `types.ts`). -/
inductive GamePhase where
  | setup
  | factoryOffer
  | wallTiling
  | scoring
  | preparing
  | gameOver
deriving DecidableEq

/-- Phases of the networked room (`GamePhase` in the server file). -/
inductive RoomPhase where
  | lobby
  | factoryOffer
  | wallTiling
  | gameOver
deriving DecidableEq

/-- An entry of a floor line: a color tile or the special starting marker
(the TS type `(TileColor | "starter")[]`). -/
inductive FloorEntry where
  | tile (c : TileColor)
  | starter
deriving DecidableEq

/-- A pattern line (`PatternLine` in `types.ts`). -/
structure PatternLine where
  size : Nat
  tiles : List TileColor
  color : Option TileColor
deriving DecidableEq

/-- A 5x5 wall grid; `none` is an empty cell (`WallGrid` in `types.ts`). -/
abbrev Wall : Type := List (List (Option TileColor))

/-- A player board (`PlayerState`).  `connected` is the extra flag of the
room engine's player record; the local engine ignores it. -/
structure PlayerState where
  id : String
  name : String
  score : Int
  patternLines : List PatternLine
  wall : Wall
  floorLine : List FloorEntry
  hasStartingMarker : Bool
  connected : Bool
deriving DecidableEq

/-- A factory display (`FactoryDisplay`). -/
structure FactoryDisplay where
  id : Nat
  tiles : List TileColor
deriving DecidableEq

/-- The local game state (`GameState` in `types.ts`), without the elided
cosmetic fields (`id`, `gameLog`). -/
structure GameState where
  phase : GamePhase
  round : Nat
  currentPlayerIndex : Nat
  players : List PlayerState
  factories : List FactoryDisplay
  centerPool : List TileColor
  centerHasStartingMarker : Bool
  bag : List TileColor
  discardLid : List TileColor
  startingPlayerIndex : Nat
  useVariantWall : Bool
  winner : Option String
  tieBreaker : Option String
deriving DecidableEq

/-- A move of the local engine (`GameMove` in `types.ts`). -/
inductive GameMove where
  | factoryPick (factoryId : Nat) (color : TileColor) (targetLine : Int)
  | centerPick (color : TileColor) (targetLine : Int)
deriving DecidableEq

/-- The color a move requests. -/
def GameMove.color : GameMove → TileColor
  | .factoryPick _ c _ => c
  | .centerPick c _ => c

/-- The target line of a move (-1 = floor line). -/
def GameMove.targetLine : GameMove → Int
  | .factoryPick _ _ t => t
  | .centerPick _ t => t

/-- The result of `validateMove` (`ValidationResult` in `types.ts`). -/
structure ValidationResult where
  valid : Bool
  error : Option String
deriving DecidableEq

/-- The endgame scoring breakdown (`EndgameScoring` in `types.ts`). -/
structure EndgameScoring where
  playerId : String
  playerName : String
  baseScore : Int
  horizontalRows : Nat
  horizontalBonus : Int
  verticalColumns : Nat
  verticalBonus : Int
  completeColors : Nat
  colorBonus : Int
  totalScore : Int
deriving DecidableEq

/-- The room state of the networked engine (`RoomState` in the server file),
without the elided `id`. -/
structure RoomState where
  phase : RoomPhase
  round : Nat
  currentPlayerIndex : Nat
  players : List PlayerState
  factories : List FactoryDisplay
  centerPool : List TileColor
  centerHasStartingMarker : Bool
  bag : List TileColor
  discardLid : List TileColor
  startingPlayerIndex : Nat
  hostId : String
  maxPlayers : Nat
  pendingTiles : List TileColor
  pendingColor : Option TileColor
  pendingPlayerId : Option String
deriving DecidableEq

/-- The source of a networked pickup message. -/
inductive PickSource where
  | factory (factoryId : Nat)
  | center
deriving DecidableEq

/-! ## Constants (`constants.ts`, duplicated in the server file) -/

/-- The fixed 5x5 wall template `WALL_PATTERN`. -/
def WALL_PATTERN : List (List TileColor) :=
  [[.blue, .yellow, .red, .black, .cyan],
   [.cyan, .blue, .yellow, .red, .black],
   [.black, .cyan, .blue, .yellow, .red],
   [.red, .black, .cyan, .blue, .yellow],
   [.yellow, .red, .black, .cyan, .blue]]

/-- The floor penalty schedule `FLOOR_PENALTIES`. -/
def FLOOR_PENALTIES : List Int := [-1, -1, -2, -2, -2, -3, -3]

/-- The floor line capacity `FLOOR_LINE_SIZE`. -/
def FLOOR_LINE_SIZE : Nat := 7

/-- Tiles of each color in the supply, `TILES_PER_COLOR`. -/
def TILES_PER_COLOR : Nat := 20

/-- Tiles drawn per factory each round, `TILES_PER_FACTORY`. -/
def TILES_PER_FACTORY : Nat := 4

/-- The factory count table `FACTORY_COUNT` (a record keyed by 2, 3, 4). -/
def FACTORY_COUNT : Nat → Option Nat
  | 2 => some 5
  | 3 => some 7
  | 4 => some 9
  | _ => none

/-- Endgame bonus per complete row, `HORIZONTAL_ROW_BONUS`. -/
def HORIZONTAL_ROW_BONUS : Int := 2

/-- Endgame bonus per complete column, `VERTICAL_COLUMN_BONUS`. -/
def VERTICAL_COLUMN_BONUS : Int := 7

/-- Endgame bonus per completed color, `COMPLETE_COLOR_BONUS`. -/
def COMPLETE_COLOR_BONUS : Int := 10

/-- Template column of a color on a row, `getWallColumnForColor`
(`indexOf`; the colors always occur, so the -1 case never arises). -/
def getWallColumnForColor (row : Nat) (color : TileColor) : Nat :=
  ((WALL_PATTERN.get? row).getD []).indexOf color

/-- The template color at a wall position, `getWallColorAt` (total variant:
`none` when out of range, which no in-range caller hits). -/
def getWallColorAt (row col : Nat) : Option TileColor :=
  (WALL_PATTERN.get? row).bind fun r => r.get? col

/-! ## List utilities shared by both engines -/

/-- Reading a wall cell `wall[row][col]`; `none` both for an empty cell and
for an out-of-range access (in-range in every reachable use). -/
def wallCell (w : Wall) (row col : Nat) : Option TileColor :=
  ((w.get? row).bind fun r => r.get? col).join

/-- Writing a wall cell `wall[row][col] = v` (no-op out of range; every
source call site is in range). -/
def setWallCell (w : Wall) (row col : Nat) (v : Option TileColor) : Wall :=
  match w.get? row with
  | some r => w.set row (r.set col v)
  | none => w

/-- One Fisher-Yates swap `[arr[i], arr[j]] = [arr[j], arr[i]]` (no-op if an
index is out of range, which the loop bounds prevent). -/
def listSwap (l : List TileColor) (i j : Nat) : List TileColor :=
  match l.get? i, l.get? j with
  | some a, some b => (l.set i b).set j a
  | _, _ => l

/-- The Fisher-Yates loop of `shuffle`, from index `i` down to 1. -/
def shuffleGo (rng : Nat → Nat) (l : List TileColor) : Nat → List TileColor
  | 0 => l
  | i + 1 => shuffleGo rng (listSwap l (i + 1) (rng (i + 1) % (i + 2))) i

/-- The `shuffle` of `gameEngine.ts` / the server file, with the random
source injected. -/
def shuffle (rng : Nat → Nat) (l : List TileColor) : List TileColor :=
  shuffleGo rng l (l.length - 1)

/-- `isColorOnWallRow` of `constants.ts`. -/
def isColorOnWallRow (w : Wall) (row : Nat) (color : TileColor) : Bool :=
  (wallCell w row (getWallColumnForColor row color)).isSome

/-! ## Scoring (`scoring.ts`; duplicated verbatim in the server file) -/

/-- Whether a wall cell holds a tile (`wall[r][c] !== null`). -/
def filledCell (w : Wall) (r c : Nat) : Bool :=
  (wallCell w r c).isSome

/-- The leftward scan of `scoreTilePlacement`: contiguous filled cells at
columns `c, c-1, ...`, stopping at the first empty cell. -/
def countLeft (w : Wall) (row : Nat) : Nat → Nat
  | 0 => if filledCell w row 0 then 1 else 0
  | c + 1 => if filledCell w row (c + 1) then 1 + countLeft w row c else 0

/-- The rightward scan of `scoreTilePlacement` (`for c = col+1; c < 5`),
with fuel bounding the loop. -/
def countRightFrom (w : Wall) (row : Nat) : Nat → Nat → Nat
  | 0, _ => 0
  | fuel + 1, c =>
    if c < 5 then
      if filledCell w row c then 1 + countRightFrom w row fuel (c + 1) else 0
    else 0

/-- The upward scan of `scoreTilePlacement`: contiguous filled cells at rows
`r, r-1, ...`, stopping at the first empty cell. -/
def countUp (w : Wall) (col : Nat) : Nat → Nat
  | 0 => if filledCell w 0 col then 1 else 0
  | r + 1 => if filledCell w (r + 1) col then 1 + countUp w col r else 0

/-- The downward scan of `scoreTilePlacement` (`for r = row+1; r < 5`). -/
def countDownFrom (w : Wall) (col : Nat) : Nat → Nat → Nat
  | 0, _ => 0
  | fuel + 1, r =>
    if r < 5 then
      if filledCell w r col then 1 + countDownFrom w col fuel (r + 1) else 0
    else 0

/-- The `horizontalCount` of `scoreTilePlacement`: filled neighbors scanned
left from `col-1` plus right from `col+1`. -/
def horizontalCount (w : Wall) (row col : Nat) : Nat :=
  (match col with
   | 0 => 0
   | c + 1 => countLeft w row c) + countRightFrom w row 5 (col + 1)

/-- The `verticalCount` of `scoreTilePlacement`. -/
def verticalCount (w : Wall) (row col : Nat) : Nat :=
  (match row with
   | 0 => 0
   | r + 1 => countUp w col r) + countDownFrom w col 5 (row + 1)

/-- `scoreTilePlacement` of `scoring.ts` (the server file holds an identical
copy): points for a tile just placed at `(row, col)`. -/
def scoreTilePlacement (w : Wall) (row col : Nat) : Int :=
  let h := horizontalCount w row col
  let v := verticalCount w row col
  if h = 0 ∧ v = 0 then 1
  else (if h > 0 then (h : Int) + 1 else 0) + (if v > 0 then (v : Int) + 1 else 0)

/-- `calculateFloorPenalty`: the accumulation loop over the first
`min(n, FLOOR_PENALTIES.length)` schedule entries. -/
def calculateFloorPenalty (n : Nat) : Int :=
  ((FLOOR_PENALTIES.take (min n FLOOR_PENALTIES.length)).sum)

/-- Count of complete horizontal rows of a wall (the first loop of
`calculateEndgameScoring`). -/
def countCompleteRows (w : Wall) : Nat :=
  w.countP (fun row => row.all (fun cell => cell.isSome))

/-- Count of complete vertical columns (the second loop of
`calculateEndgameScoring`). -/
def countCompleteCols (w : Wall) : Nat :=
  ((List.range 5).filter
    (fun col => (List.range 5).all (fun row => (wallCell w row col).isSome))).length

/-- Number of wall cells holding color `c` (the per-color 5x5 loop of
`calculateEndgameScoring`, per-row for the well-formed 5x5 walls the
engine builds). -/
def wallColorCount (c : TileColor) (w : Wall) : Nat :=
  (w.map (fun row => row.count (some c))).sum

/-- Count of colors with all five wall cells placed. -/
def countCompleteColors (w : Wall) : Nat :=
  (ALL_COLORS.filter (fun c => wallColorCount c w = 5)).length

/-- `calculateEndgameScoring` of `scoring.ts`. -/
def calculateEndgameScoring (p : PlayerState) : EndgameScoring :=
  let horizontalRows := countCompleteRows p.wall
  let verticalColumns := countCompleteCols p.wall
  let completeColors := countCompleteColors p.wall
  let horizontalBonus := (horizontalRows : Int) * HORIZONTAL_ROW_BONUS
  let verticalBonus := (verticalColumns : Int) * VERTICAL_COLUMN_BONUS
  let colorBonus := (completeColors : Int) * COMPLETE_COLOR_BONUS
  { playerId := p.id
    playerName := p.name
    baseScore := p.score
    horizontalRows := horizontalRows
    horizontalBonus := horizontalBonus
    verticalColumns := verticalColumns
    verticalBonus := verticalBonus
    completeColors := completeColors
    colorBonus := colorBonus
    totalScore := p.score + horizontalBonus + verticalBonus + colorBonus }

/-- `hasCompletedHorizontalRow` of `scoring.ts`. -/
def hasCompletedHorizontalRow (w : Wall) : Bool :=
  w.any (fun row => row.all (fun cell => cell.isSome))

/-! ## Pattern line placement checks -/

/-- Whether `wall[lineIndex]` contains `color` anywhere
(`player.wall[lineIndex].includes(color)`, the gray-variant check). -/
def rowContainsColor (w : Wall) (row : Nat) (color : TileColor) : Bool :=
  ((w.get? row).getD []).contains (some color)

/-- The local `canPlaceOnPatternLine` of `gameEngine.ts`, with the
`useVariant` parameter.  Out-of-range `lineIndex` (a TS crash) is `false`;
every caller passes 0..4. -/
def canPlaceOnPatternLine (player : PlayerState) (lineIndex : Nat)
    (color : TileColor) (useVariant : Bool) : Bool :=
  match player.patternLines.get? lineIndex with
  | none => false
  | some line =>
    if line.size ≤ line.tiles.length then false
    else if line.color.isSome ∧ line.color ≠ some color then false
    else if useVariant = false then ! isColorOnWallRow player.wall lineIndex color
    else ! rowContainsColor player.wall lineIndex color

/-! ## Local engine: game creation -/

/-- The pre-shuffle 100-tile bag of `createBag` (20 tiles per color, pushed
in `ALL_COLORS` order). -/
def baseBag : List TileColor :=
  (ALL_COLORS.map (fun c => List.replicate TILES_PER_COLOR c)).flatten

/-- `createBag`: 100 tiles, shuffled. -/
def createBag (rng : Nat → Nat) : List TileColor :=
  shuffle rng baseBag

/-- `createPatternLines`: five empty lines of sizes 1..5. -/
def createPatternLines : List PatternLine :=
  (List.range 5).map (fun i => { size := i + 1, tiles := [], color := none })

/-- `createEmptyWall`: a 5x5 grid of empty cells. -/
def createEmptyWall : Wall :=
  List.replicate 5 (List.replicate 5 none)

/-- `createPlayer` of `gameEngine.ts` (the local engine never reads
`connected`; the room engine creates players with `connected := true`). -/
def createPlayer (id name : String) : PlayerState :=
  { id := id
    name := name
    score := 0
    patternLines := createPatternLines
    wall := createEmptyWall
    floorLine := []
    hasStartingMarker := false
    connected := true }

/-- Drawing up to `n` tiles by popping the bag's end (`remainingBag.pop()`),
skipping silently once the bag is empty. -/
def takeFromBag : Nat → List TileColor → List TileColor × List TileColor
  | 0, bag => ([], bag)
  | n + 1, bag =>
    match bag.getLast? with
    | some x =>
      let r := takeFromBag n bag.dropLast
      (x :: r.1, r.2)
    | none => ([], bag)

/-- The factory-building loop of `createGame` / `initializeGame`: `n`
factories with ids from `i`, each taking `TILES_PER_FACTORY` tiles. -/
def fillFactories : Nat → Nat → List TileColor → List FactoryDisplay × List TileColor
  | 0, _, bag => ([], bag)
  | n + 1, i, bag =>
    let t := takeFromBag TILES_PER_FACTORY bag
    let r := fillFactories n (i + 1) t.2
    ({ id := i, tiles := t.1 } :: r.1, r.2)

/-- `createGame` of `gameEngine.ts`; `none` models the thrown error for a
player count outside 2..4. -/
def createGame (playerNames : List String) (useVariant : Bool)
    (rng : Nat → Nat) : Option GameState :=
  let playerCount := playerNames.length
  if playerCount < 2 ∨ playerCount > 4 then none
  else
    match FACTORY_COUNT playerCount with
    | none => none
    | some factoryCount =>
      let fr := fillFactories factoryCount 0 (createBag rng)
      some
        { phase := .factoryOffer
          round := 1
          currentPlayerIndex := 0
          players := playerNames.enum.map
            (fun p => createPlayer ("player-" ++ toString p.1) p.2)
          factories := fr.1
          centerPool := []
          centerHasStartingMarker := true
          bag := fr.2
          discardLid := []
          startingPlayerIndex := 0
          useVariantWall := useVariant
          winner := none
          tieBreaker := none }

/-! ## Local engine: move validation and execution -/

/-- `validateMove` of `gameEngine.ts`.  The overall `none` marks the one
path where TS would throw a TypeError (current player index out of range
with a pattern-line target); every `some` is a returned result object. -/
def validateMove (s : GameState) (m : GameMove) : Option ValidationResult :=
  if s.phase ≠ GamePhase.factoryOffer then
    some ⟨false, some "Not in factory offer phase"⟩
  else
    let sourceCheck : Option ValidationResult :=
      match m with
      | .factoryPick fid color _ =>
        match s.factories.find? (fun f => f.id = fid) with
        | none => some ⟨false, some "Invalid factory"⟩
        | some f =>
          if f.tiles.length = 0 then some ⟨false, some "Factory is empty"⟩
          else if ¬ f.tiles.contains color then
            some ⟨false, some "Color not in factory"⟩
          else none
      | .centerPick color _ =>
        if s.centerPool.length = 0 then some ⟨false, some "Center is empty"⟩
        else if ¬ s.centerPool.contains color then
          some ⟨false, some "Color not in center"⟩
        else none
    match sourceCheck with
    | some r => some r
    | none =>
      if 0 ≤ m.targetLine ∧ m.targetLine < 5 then
        match s.players.get? s.currentPlayerIndex with
        | none => none
        | some player =>
          if ¬ canPlaceOnPatternLine player m.targetLine.toNat m.color
              s.useVariantWall then
            some ⟨false, some "Cannot place on this pattern line"⟩
          else some ⟨true, none⟩
      else if m.targetLine ≠ -1 then some ⟨false, some "Invalid target line"⟩
      else some ⟨true, none⟩

/-- Extraction of a color from the factory list: the first factory with the
given id loses all its tiles; returns (picked, moved-to-center, factories).
`none` when no factory matches, the factory is empty, or the color is
absent (the guarded paths of both engines). -/
def pickFactory (fs : List FactoryDisplay) (fid : Nat) (c : TileColor) :
    Option (List TileColor × List TileColor × List FactoryDisplay) :=
  match fs with
  | [] => none
  | f :: rest =>
    if f.id = fid then
      if f.tiles.length = 0 then none
      else if ¬ f.tiles.contains c then none
      else some (f.tiles.filter (fun t => t = c),
                 f.tiles.filter (fun t => ¬ t = c),
                 { f with tiles := [] } :: rest)
    else
      (pickFactory rest fid c).map (fun r => (r.1, r.2.1, f :: r.2.2))

/-- The pick half of `executeMove`: removes the chosen color from its
source, moves a picked factory's remainder to the center, and handles the
starting marker on a first center pick.  Returns the picked tiles and the
updated state. -/
def applyPick (s : GameState) (m : GameMove) :
    Option (List TileColor × GameState) :=
  match m with
  | .factoryPick fid color _ =>
    (pickFactory s.factories fid color).map
      (fun r =>
        (r.1, { s with factories := r.2.2, centerPool := s.centerPool ++ r.2.1 }))
  | .centerPick color _ =>
    let picked := s.centerPool.filter (fun t => t = color)
    let rest := s.centerPool.filter (fun t => ¬ t = color)
    if s.centerHasStartingMarker then
      match s.players.get? s.currentPlayerIndex with
      | none => none
      | some p =>
        let p2 :=
          { p with
            hasStartingMarker := true
            floorLine :=
              if p.floorLine.length < FLOOR_LINE_SIZE then
                p.floorLine ++ [.starter]
              else p.floorLine }
        some (picked,
          { s with
            centerPool := rest
            centerHasStartingMarker := false
            players := s.players.set s.currentPlayerIndex p2
            startingPlayerIndex := s.currentPlayerIndex })
    else some (picked, { s with centerPool := rest })

/-- The floor-routing loop of `executeMove` (`targetLine = -1` and
overflow): each tile goes to the floor line while it has room, else to the
discard lid. -/
def placeOnFloor (ts : List TileColor) (fl : List FloorEntry)
    (dl : List TileColor) : List FloorEntry × List TileColor :=
  match ts with
  | [] => (fl, dl)
  | t :: rest =>
    if fl.length < FLOOR_LINE_SIZE then placeOnFloor rest (fl ++ [.tile t]) dl
    else placeOnFloor rest fl (dl ++ [t])

/-- The pattern-line placement loop of `executeMove`: tiles append to the
line while it has room, overflow to the floor line, then to the discard
lid. -/
def placeTiles (ts : List TileColor) (line : PatternLine)
    (fl : List FloorEntry) (dl : List TileColor) :
    PatternLine × List FloorEntry × List TileColor :=
  match ts with
  | [] => (line, fl, dl)
  | t :: rest =>
    if line.tiles.length < line.size then
      placeTiles rest { line with tiles := line.tiles ++ [t] } fl dl
    else if fl.length < FLOOR_LINE_SIZE then
      placeTiles rest line (fl ++ [.tile t]) dl
    else
      placeTiles rest line fl (dl ++ [t])

/-- The pick plus placement core of `executeMove`, before the end-of-phase
check: everything between the deep clone and the phase transition. -/
def pickPlaceState (s : GameState) (m : GameMove) : Option GameState :=
  match applyPick s m with
  | none => none
  | some (picked, s1) =>
    match s1.players.get? s1.currentPlayerIndex with
    | none => none
    | some p =>
      if 0 ≤ m.targetLine ∧ m.targetLine < 5 then
        match p.patternLines.get? m.targetLine.toNat with
        | none => none
        | some ln =>
          let r := placeTiles picked { ln with color := some m.color }
            p.floorLine s1.discardLid
          let p2 := { p with
            patternLines := p.patternLines.set m.targetLine.toNat r.1
            floorLine := r.2.1 }
          some { s1 with
            players := s1.players.set s1.currentPlayerIndex p2
            discardLid := r.2.2 }
      else
        let r := placeOnFloor picked p.floorLine s1.discardLid
        some { s1 with
          players := s1.players.set s1.currentPlayerIndex { p with floorLine := r.1 }
          discardLid := r.2 }

/-- Whether every factory is empty (`factories.every(f => f.tiles.length
=== 0)`). -/
def allFactoriesEmpty (fs : List FactoryDisplay) : Bool :=
  fs.all (fun f => f.tiles.length = 0)

/-! ## Local engine: wall tiling, round preparation, endgame -/

/-- Whether a wall column already holds color `c` somewhere (the vertical
constraint scan of the variant branch). -/
def colorInColumn (w : Wall) (col : Nat) (c : TileColor) : Bool :=
  (List.range 5).any (fun r => wallCell w r col = some c)

/-- The variant branch's column search: the first column of the row that is
empty and whose column does not contain the color. -/
def findVariantCol (w : Wall) (row : Nat) (c : TileColor) : Option Nat :=
  (List.range 5).find?
    (fun col => (wallCell w row col).isNone && ! colorInColumn w col c)

/-- Clearing a completed pattern line: `size - 1` leftover copies of the
locked color go to the discard lid, the line empties and unlocks. -/
def finishLine (row : Nat) (ln : PatternLine) (lc : TileColor)
    (p : PlayerState) (dl : List TileColor) : PlayerState × List TileColor :=
  ({ p with patternLines := p.patternLines.set row { ln with tiles := [], color := none } },
   dl ++ List.replicate (ln.tiles.length - 1) lc)

/-- One row of the wall-tiling loop of the local `executeWallTiling`
(`useVar` selects the standard or gray-variant branch). -/
def tileRow (useVar : Bool) (row : Nat) (p : PlayerState)
    (dl : List TileColor) : PlayerState × List TileColor :=
  match p.patternLines.get? row with
  | none => (p, dl)
  | some ln =>
    match ln.color with
    | none => (p, dl)
    | some lc =>
      if ln.tiles.length = ln.size then
        if useVar = false then
          let col := getWallColumnForColor row lc
          if wallCell p.wall row col = none then
            let w2 := setWallCell p.wall row col (some lc)
            finishLine row ln lc
              { p with wall := w2, score := p.score + scoreTilePlacement w2 row col } dl
          else
            finishLine row ln lc p dl
        else
          match findVariantCol p.wall row lc with
          | some col =>
            let w2 := setWallCell p.wall row col (some lc)
            finishLine row ln lc
              { p with wall := w2, score := p.score + scoreTilePlacement w2 row col } dl
          | none =>
            let r := placeOnFloor ln.tiles p.floorLine dl
            ({ p with
                floorLine := r.1
                patternLines := p.patternLines.set row { ln with tiles := [], color := none } },
             r.2)
      else (p, dl)

/-- The floor-penalty step at the end of a player's wall-tiling pass:
penalty applied with a clamp at zero, floor tiles (except the starting
marker) swept to the discard lid, floor cleared. -/
def applyFloorPenalty (p : PlayerState) (dl : List TileColor) :
    PlayerState × List TileColor :=
  if p.floorLine.length = 0 then (p, dl)
  else
    ({ p with
        score := max 0 (p.score + calculateFloorPenalty p.floorLine.length)
        floorLine := [] },
     dl ++ p.floorLine.filterMap
       (fun e => match e with | .tile t => some t | .starter => none))

/-- The per-player wall-tiling pass: rows 0..4 in order, then the floor
penalty. -/
def tilePlayer (useVar : Bool) (p : PlayerState) (dl : List TileColor) :
    PlayerState × List TileColor :=
  let r := [0, 1, 2, 3, 4].foldl (fun pr row => tileRow useVar row pr.1 pr.2) (p, dl)
  applyFloorPenalty r.1 r.2

/-- Wall tiling over the player list in order, threading the discard lid. -/
def tileAllPlayers (useVar : Bool) :
    List PlayerState → List TileColor → List PlayerState × List TileColor
  | [], dl => ([], dl)
  | p :: ps, dl =>
    let r := tilePlayer useVar p dl
    let rest := tileAllPlayers useVar ps r.2
    (r.1 :: rest.1, rest.2)

/-- The refill loop body of `prepareNextRound` for one factory: up to
`TILES_PER_FACTORY` draws, shuffling the discard lid into the bag when the
bag runs out, breaking when both are empty. -/
def drawTiles (rng : Nat → Nat) :
    Nat → List TileColor → List TileColor → List TileColor →
    List TileColor × List TileColor × List TileColor
  | 0, acc, bag, dl => (acc, bag, dl)
  | t + 1, acc, bag, dl =>
    if bag.isEmpty ∧ dl.isEmpty then (acc, bag, dl)
    else
      let bag1 := if bag.isEmpty then shuffle rng dl else bag
      let dl1 := if bag.isEmpty then [] else dl
      match bag1.getLast? with
      | some x => drawTiles rng t (acc ++ [x]) bag1.dropLast dl1
      | none => drawTiles rng t acc bag1 dl1

/-- The factory refill loop of `prepareNextRound`. -/
def refillFactories (rng : Nat → Nat) :
    List FactoryDisplay → List TileColor → List TileColor →
    List FactoryDisplay × List TileColor × List TileColor
  | [], bag, dl => ([], bag, dl)
  | f :: fs, bag, dl =>
    let d := drawTiles rng TILES_PER_FACTORY [] bag dl
    let r := refillFactories rng fs d.2.1 d.2.2
    ({ f with tiles := d.1 } :: r.1, r.2.1, r.2.2)

/-- `prepareNextRound` of `gameEngine.ts`. -/
def prepareNextRound (rng : Nat → Nat) (s : GameState) : GameState :=
  let r := refillFactories rng s.factories s.bag s.discardLid
  { s with
    round := s.round + 1
    phase := .factoryOffer
    currentPlayerIndex := s.startingPlayerIndex
    players := s.players.map (fun p => { p with hasStartingMarker := false })
    centerHasStartingMarker := true
    factories := r.1
    bag := r.2.1
    discardLid := r.2.2 }

/-- Descending order on total score, the comparator
`(a, b) => b.totalScore - a.totalScore` of the winner sort. -/
def scoreDescOrder (a b : EndgameScoring) : Prop :=
  b.totalScore ≤ a.totalScore

instance : DecidableRel scoreDescOrder := fun a b => Int.decLe b.totalScore a.totalScore

instance : IsTotal EndgameScoring scoreDescOrder :=
  ⟨fun a b => le_total b.totalScore a.totalScore⟩

instance : IsTrans EndgameScoring scoreDescOrder :=
  ⟨fun _ _ _ h1 h2 => le_trans h2 h1⟩

/-- Descending order on completed-row count, the tie-break comparator. -/
def rowsDescOrder (a b : EndgameScoring) : Prop :=
  b.horizontalRows ≤ a.horizontalRows

instance : DecidableRel rowsDescOrder := fun a b => Nat.decLe b.horizontalRows a.horizontalRows

instance : IsTotal EndgameScoring rowsDescOrder :=
  ⟨fun a b => le_total b.horizontalRows a.horizontalRows⟩

instance : IsTrans EndgameScoring rowsDescOrder :=
  ⟨fun _ _ _ h1 h2 => le_trans h2 h1⟩

/-- The bonus application of `executeEndgame`: `players.find(p => p.id ===
scoring.playerId)` gets `score = scoring.totalScore` (first match; a
missing id, impossible for scorings built from the roster, is a no-op). -/
def setScoreById (players : List PlayerState) (pid : String) (sc : Int) :
    List PlayerState :=
  match players with
  | [] => []
  | p :: ps =>
    if p.id = pid then { p with score := sc } :: ps
    else p :: setScoreById ps pid sc

/-- Applying every scoring record to the roster, in order. -/
def applyScorings (scorings : List EndgameScoring)
    (players : List PlayerState) : List PlayerState :=
  scorings.foldl (fun acc sc => setScoreById acc sc.playerId sc.totalScore) players

/-- `executeEndgame` of `gameEngine.ts`: bonuses, then winner and
tie-break resolution.  JavaScript's `Array.prototype.sort` is stable and
sorts by the comparator; `List.insertionSort` with the corresponding
total preorder is exactly such a stable sort.  The empty-roster fallbacks
mirror paths where TS would throw on `sorted[0]`/`tied[1]`. -/
def decideWinner (s1 : GameState) (sorted : List EndgameScoring) : GameState :=
  match sorted with
  | [] => s1
  | top :: restSorted =>
    if ((top :: restSorted).filter
        (fun x => x.totalScore = top.totalScore)).length = 1 then
      { s1 with
        winner := (((top :: restSorted).filter
          (fun x => x.totalScore = top.totalScore)).head?).map
            (fun t => t.playerId) }
    else
      match List.insertionSort rowsDescOrder
          ((top :: restSorted).filter
            (fun x => x.totalScore = top.totalScore)) with
      | t0 :: t1 :: rest2 =>
        if t1.horizontalRows < t0.horizontalRows then
          { s1 with winner := some t0.playerId, tieBreaker := some "horizontal rows" }
        else
          { s1 with
            winner := some (String.intercalate ","
              ((t0 :: t1 :: rest2).map (fun t => t.playerId)))
            tieBreaker := some "shared" }
      | _ => s1

/-- The `executeEndgame` of `gameEngine.ts`: apply bonuses, then resolve
the winner from the score-sorted scorings. -/
def executeEndgame (s : GameState) : GameState :=
  decideWinner
    { s with
      phase := .gameOver
      players := applyScorings (s.players.map calculateEndgameScoring) s.players }
    (List.insertionSort scoreDescOrder (s.players.map calculateEndgameScoring))

/-- `executeWallTiling` of `gameEngine.ts`, including the cascade into
endgame scoring or next-round preparation. -/
def executeWallTiling (rng : Nat → Nat) (s : GameState) : GameState :=
  let r := tileAllPlayers s.useVariantWall s.players s.discardLid
  let s1 := { s with players := r.1, discardLid := r.2 }
  if s1.players.any (fun p => hasCompletedHorizontalRow p.wall) then
    executeEndgame s1
  else prepareNextRound rng s1

/-- `executeMove` of `gameEngine.ts`: validate, pick, place, then either
enter wall tiling (when factories and center are empty) or pass the turn.
`none` models the thrown `Invalid move` error (and the TypeError paths);
the input state is never mutated in those cases. -/
def executeMove (rng : Nat → Nat) (s : GameState) (m : GameMove) :
    Option GameState :=
  match validateMove s m with
  | none => none
  | some r =>
    if r.valid then
      match pickPlaceState s m with
      | none => none
      | some t =>
        if allFactoriesEmpty t.factories ∧ t.centerPool.length = 0 then
          some (executeWallTiling rng { t with phase := .wallTiling })
        else
          some { t with
            currentPlayerIndex := (t.currentPlayerIndex + 1) % t.players.length }
    else none

/-! ## Networked room engine (the PartyKit server file)

The server file duplicates `shuffle`, `createBag`, `createPatternLines`,
`createEmptyWall`, `getWallColumnForColor`, `isColorOnWallRow`,
`scoreTilePlacement`, `calculateFloorPenalty` and
`hasCompletedHorizontalRow` verbatim; those shared definitions above stand
for both copies.  Everything the room engine defines differently lives in
the `Room` namespace. -/

namespace Room

/-- The room's `canPlaceOnPatternLine`: the local standard-wall check with
no variant parameter. -/
def canPlaceOnPatternLine (player : PlayerState) (lineIndex : Nat)
    (color : TileColor) : Bool :=
  match player.patternLines.get? lineIndex with
  | none => false
  | some line =>
    if line.size ≤ line.tiles.length then false
    else if line.color.isSome ∧ line.color ≠ some color then false
    else ! isColorOnWallRow player.wall lineIndex color

/-- The board reset of `initializeGame` applied to each joined player. -/
def resetPlayer (p : PlayerState) : PlayerState :=
  { p with
    score := 0
    patternLines := createPatternLines
    wall := createEmptyWall
    floorLine := []
    hasStartingMarker := false }

/-- The room's `initializeGame`: fresh bag and factories
(`FACTORY_COUNT[n] || 5`), all boards reset, no pending pick. -/
def initializeGame (rng : Nat → Nat) (s : RoomState) : RoomState :=
  let factoryCount := (FACTORY_COUNT s.players.length).getD 5
  let fr := fillFactories factoryCount 0 (createBag rng)
  { s with
    phase := .factoryOffer
    round := 1
    currentPlayerIndex := 0
    players := s.players.map resetPlayer
    factories := fr.1
    centerPool := []
    centerHasStartingMarker := true
    bag := fr.2
    discardLid := []
    startingPlayerIndex := 0
    pendingTiles := []
    pendingColor := none
    pendingPlayerId := none }

/-- The room's `executePickup`.  `none` models the `null` returns (wrong
turn — including an unknown player id, whose TS `findIndex` of -1 fails
the turn check — a pending pick outstanding, or a bad source); every
rejection precedes all mutation in the source. -/
def executePickup (s : RoomState) (playerId : String) (source : PickSource)
    (color : TileColor) : Option RoomState :=
  match s.players.findIdx? (fun p => p.id = playerId) with
  | none => none
  | some playerIndex =>
    if playerIndex ≠ s.currentPlayerIndex then none
    else if s.pendingTiles.length > 0 then none
    else
      match source with
      | .factory fid =>
        (pickFactory s.factories fid color).map
          (fun r =>
            { s with
              factories := r.2.2
              centerPool := s.centerPool ++ r.2.1
              pendingTiles := r.1
              pendingColor := some color
              pendingPlayerId := some playerId })
      | .center =>
        if s.centerPool.length = 0 then none
        else if ¬ s.centerPool.contains color then none
        else
          let picked := s.centerPool.filter (fun t => t = color)
          let rest := s.centerPool.filter (fun t => ¬ t = color)
          let s1 :=
            if s.centerHasStartingMarker then
              match s.players.get? playerIndex with
              | none => { s with centerPool := rest }
              | some p =>
                { s with
                  centerPool := rest
                  centerHasStartingMarker := false
                  players := s.players.set playerIndex
                    { p with
                      hasStartingMarker := true
                      floorLine :=
                        if p.floorLine.length < FLOOR_LINE_SIZE then
                          p.floorLine ++ [.starter]
                        else p.floorLine }
                  startingPlayerIndex := playerIndex }
            else { s with centerPool := rest }
          some { s1 with
            pendingTiles := picked
            pendingColor := some color
            pendingPlayerId := some playerId }

/-- The line-filling loop of the room's `executePlacement`: pending tiles
append while the line has room; the overflow becomes the `remaining`
list. -/
def fillLine (ts : List TileColor) (line : PatternLine) :
    PatternLine × List TileColor :=
  match ts with
  | [] => (line, [])
  | t :: rest =>
    if line.tiles.length < line.size then
      fillLine rest { line with tiles := line.tiles ++ [t] }
    else (line, t :: rest)

/-- One row of the room's wall-tiling loop before the incomplete-line
clearing: identical to the local standard branch. -/
def tileRowStd (row : Nat) (p : PlayerState) (dl : List TileColor) :
    PlayerState × List TileColor :=
  tileRow false row p dl

/-- The `Clear incomplete lines too` block of the room's wall tiling. -/
def clearIncomplete (row : Nat) (p : PlayerState) (dl : List TileColor) :
    PlayerState × List TileColor :=
  match p.patternLines.get? row with
  | none => (p, dl)
  | some ln =>
    if ln.tiles.length > 0 then
      ({ p with patternLines := p.patternLines.set row { ln with tiles := [], color := none } },
       dl ++ ln.tiles)
    else (p, dl)

/-- One full row of the room's wall-tiling loop. -/
def tileRowRoom (row : Nat) (p : PlayerState) (dl : List TileColor) :
    PlayerState × List TileColor :=
  let r := tileRowStd row p dl
  clearIncomplete row r.1 r.2

/-- The room's per-player wall-tiling pass. -/
def tilePlayerRoom (p : PlayerState) (dl : List TileColor) :
    PlayerState × List TileColor :=
  let r := [0, 1, 2, 3, 4].foldl (fun pr row => tileRowRoom row pr.1 pr.2) (p, dl)
  applyFloorPenalty r.1 r.2

/-- The room's wall tiling over all players. -/
def tileAllPlayersRoom :
    List PlayerState → List TileColor → List PlayerState × List TileColor
  | [], dl => ([], dl)
  | p :: ps, dl =>
    let r := tilePlayerRoom p dl
    let rest := tileAllPlayersRoom ps r.2
    (r.1 :: rest.1, rest.2)

/-- The room's `prepareNextRound` (identical to the local one except that
the room file writes no log entry). -/
def prepareNextRound (rng : Nat → Nat) (s : RoomState) : RoomState :=
  let r := refillFactories rng s.factories s.bag s.discardLid
  { s with
    round := s.round + 1
    phase := .factoryOffer
    currentPlayerIndex := s.startingPlayerIndex
    players := s.players.map (fun p => { p with hasStartingMarker := false })
    centerHasStartingMarker := true
    factories := r.1
    bag := r.2.1
    discardLid := r.2.2 }

/-- The room's `executeEndgame`: bonuses added directly to each score, no
winner field. -/
def executeEndgame (s : RoomState) : RoomState :=
  { s with
    phase := .gameOver
    players := s.players.map
      (fun p =>
        let sc := calculateEndgameScoring p
        { p with score := p.score + sc.horizontalBonus + sc.verticalBonus + sc.colorBonus }) }

/-- The room's `executeWallTiling`, cascading into endgame or round
preparation (the room never sets a `wallTiling` phase value). -/
def executeWallTiling (rng : Nat → Nat) (s : RoomState) : RoomState :=
  let r := tileAllPlayersRoom s.players s.discardLid
  let s1 := { s with players := r.1, discardLid := r.2 }
  if s1.players.any (fun p => hasCompletedHorizontalRow p.wall) then
    executeEndgame s1
  else prepareNextRound rng s1

/-- The tail of the room's `executePlacement` once the target has absorbed
what it can: keep the remainder pending, or clear the pending pick and
either run wall tiling (empty factories and center) or pass the turn. -/
def placeResolve (rng : Nat → Nat) (s1 : RoomState) (remaining : List TileColor) :
    Option RoomState :=
  if remaining.length > 0 then some { s1 with pendingTiles := remaining }
  else
    let s2 := { s1 with pendingTiles := [], pendingColor := none, pendingPlayerId := none }
    if allFactoriesEmpty s2.factories ∧ s2.centerPool.length = 0 then
      some (executeWallTiling rng s2)
    else
      some { s2 with currentPlayerIndex := (s2.currentPlayerIndex + 1) % s2.players.length }

/-- The room's `executePlacement`.  `none` models the `null` returns (not
the pending player, no pending pick, an invalid target); every rejection
precedes all mutation in the source. -/
def executePlacement (rng : Nat → Nat) (s : RoomState) (playerId : String)
    (targetLine : Int) : Option RoomState :=
  if s.pendingPlayerId ≠ some playerId then none
  else if s.pendingTiles.length = 0 then none
  else
    match s.pendingColor with
    | none => none
    | some pc =>
      match s.players.findIdx? (fun p => p.id = playerId) with
      | none => none
      | some playerIndex =>
        match s.players.get? playerIndex with
        | none => none
        | some p =>
          if 0 ≤ targetLine ∧ targetLine < 5 then
            if ¬ canPlaceOnPatternLine p targetLine.toNat pc then none
            else
              match p.patternLines.get? targetLine.toNat with
              | none => none
              | some ln =>
                let r := fillLine s.pendingTiles { ln with color := some pc }
                let p2 := { p with patternLines := p.patternLines.set targetLine.toNat r.1 }
                placeResolve rng { s with players := s.players.set playerIndex p2 } r.2
          else if targetLine = -1 then
            let r := placeOnFloor s.pendingTiles p.floorLine s.discardLid
            placeResolve rng
              { s with
                players := s.players.set playerIndex { p with floorLine := r.1 }
                discardLid := r.2 }
              []
          else none

/-- `getValidPlacementLines` of the server file. -/
def getValidPlacementLines (s : RoomState) (playerId : String) : List Int :=
  if s.pendingPlayerId ≠ some playerId ∨ s.pendingColor.isNone then []
  else
    match s.pendingColor with
    | none => []
    | some pc =>
      match s.players.findIdx? (fun p => p.id = playerId) with
      | none => []
      | some playerIndex =>
        match s.players.get? playerIndex with
        | none => []
        | some p =>
          ((List.range 5).filter
            (fun line => canPlaceOnPatternLine p line pc)).map (fun n => (n : Int))
            ++ [-1]

/-- The state-level behavior of `handlePickup`: on success the room state
is replaced and a broadcast goes out; on rejection the state is untouched,
no broadcast happens, and an error reply is sent. -/
def handlePickupState (s : RoomState) (playerId : String) (source : PickSource)
    (color : TileColor) : RoomState × Bool × Option String :=
  match executePickup s playerId source color with
  | some s2 => (s2, true, none)
  | none => (s, false, some "Invalid pickup")

/-- The state-level behavior of `handlePlace`, as for `handlePickupState`. -/
def handlePlaceState (rng : Nat → Nat) (s : RoomState) (playerId : String)
    (targetLine : Int) : RoomState × Bool × Option String :=
  match executePlacement rng s playerId targetLine with
  | some s2 => (s2, true, none)
  | none => (s, false, some "Invalid placement")

end Room

/-! ## Verification layer: tile counting, invariants, reachability -/

/-- Tiles of color `c` on a player's board: pattern lines, wall, floor
line (the starting marker is not a tile). -/
def playerTilesCount (c : TileColor) (p : PlayerState) : Nat :=
  (p.patternLines.map (fun ln => ln.tiles.count c)).sum
    + wallColorCount c p.wall
    + p.floorLine.count (.tile c)

/-- The conserved sum for the local engine: bag, discard lid, factories,
center pool, and every player's board. -/
def stateTileCount (c : TileColor) (s : GameState) : Nat :=
  s.bag.count c + s.discardLid.count c
    + (s.factories.map (fun f => f.tiles.count c)).sum
    + s.centerPool.count c
    + (s.players.map (playerTilesCount c)).sum

/-- The sum named by the specification for the networked room, over bag,
discard lid, factories, center pool, and boards only — the pending pick
excluded. -/
def roomTileCount (c : TileColor) (s : RoomState) : Nat :=
  s.bag.count c + s.discardLid.count c
    + (s.factories.map (fun f => f.tiles.count c)).sum
    + s.centerPool.count c
    + (s.players.map (playerTilesCount c)).sum

/-- The actually conserved sum for the networked room: the specification's
sum plus the tiles of the pending pick. -/
def roomTileCountPending (c : TileColor) (s : RoomState) : Nat :=
  roomTileCount c s + s.pendingTiles.count c

/-- Structural well-formedness of a player's pattern lines: five lines of
sizes 1..5, never overfull, all tiles matching the locked color. -/
def LinesOk (p : PlayerState) : Prop :=
  p.patternLines.length = 5 ∧
    ∀ i ln, p.patternLines.get? i = some ln →
      ln.size = i + 1 ∧ ln.tiles.length ≤ ln.size ∧ ∀ t ∈ ln.tiles, ln.color = some t

/-- Structural well-formedness of a wall: a 5x5 grid. -/
def WallOk (p : PlayerState) : Prop :=
  p.wall.length = 5 ∧ ∀ row ∈ p.wall, row.length = 5

/-- The standard-wall compatibility invariant: a non-empty pattern line's
template wall cell is still free (otherwise wall tiling would drop a
tile). -/
def CompatOk (p : PlayerState) : Prop :=
  ∀ i ln lc, p.patternLines.get? i = some ln → ln.color = some lc →
    ln.tiles ≠ [] → wallCell p.wall i (getWallColumnForColor i lc) = none

/-- The per-player invariant; the compatibility part is only needed (and
only maintained) for the standard wall. -/
def PlayerInv (useVar : Bool) (p : PlayerState) : Prop :=
  LinesOk p ∧ WallOk p ∧ (useVar = false → CompatOk p)

/-- The inductive invariant of the local engine. -/
def InvL (s : GameState) : Prop :=
  (∀ c, stateTileCount c s = TILES_PER_COLOR)
    ∧ ∀ p ∈ s.players, PlayerInv s.useVariantWall p

/-- The inductive invariant of the networked room (standard wall only;
pending tiles all carry the pending color). -/
def InvR (s : RoomState) : Prop :=
  (∀ c, roomTileCountPending c s = TILES_PER_COLOR)
    ∧ (∀ p ∈ s.players, PlayerInv false p)
    ∧ ∀ t ∈ s.pendingTiles, s.pendingColor = some t

/-- A state produced by `createGame` (for some roster, variant flag and
randomness). -/
def IsInitialLocal (s : GameState) : Prop :=
  ∃ names useVariant rng, createGame names useVariant rng = some s

/-- A transition of the local engine: some successful `executeMove`. -/
def LocalStep (s s2 : GameState) : Prop :=
  ∃ m rng, executeMove rng s m = some s2

/-- States of the local engine reachable from `createGame` by `executeMove`
(with arbitrary injected randomness at every step). -/
inductive ReachableLocal : GameState → Prop where
  | init (s : GameState) (h : IsInitialLocal s) : ReachableLocal s
  | step (s s2 : GameState) (hs : ReachableLocal s) (h : LocalStep s s2) :
      ReachableLocal s2

/-- A room state produced by `initializeGame` (from an arbitrary pre-game
roster state, as `handleStart` does). -/
def IsInitialRoom (s : RoomState) : Prop :=
  ∃ s0 rng, s = Room.initializeGame rng s0

/-- A transition of the networked room: a successful pickup or
placement. -/
def RoomStep (s s2 : RoomState) : Prop :=
  (∃ pid src c, Room.executePickup s pid src c = some s2)
    ∨ ∃ pid t rng, Room.executePlacement rng s pid t = some s2

/-- States of the networked room reachable from `initializeGame` by
`executePickup` and `executePlacement`. -/
inductive ReachableRoom : RoomState → Prop where
  | init (s : RoomState) (h : IsInitialRoom s) : ReachableRoom s
  | step (s s2 : RoomState) (hs : ReachableRoom s) (h : RoomStep s s2) :
      ReachableRoom s2

/-! ## Verification layer: declarative run-length predicates (wall scoring)

These restate, independently of the scanning loops, what "count contiguous
filled cells, stopping at the first empty cell" means. -/

/-- `k` is the length of the contiguous filled run immediately left of
`col`: cells `col-1 .. col-k` are filled, and the run ends at the wall
edge or at an empty cell. -/
def IsLeftRun (w : Wall) (row col k : Nat) : Prop :=
  (∀ j, 1 ≤ j → j ≤ k → filledCell w row (col - j) = true)
    ∧ k ≤ col ∧ (k = col ∨ filledCell w row (col - k - 1) = false)

/-- `k` is the length of the contiguous filled run immediately right of
`col` (within columns `< 5`). -/
def IsRightRun (w : Wall) (row col k : Nat) : Prop :=
  (∀ j, 1 ≤ j → j ≤ k → filledCell w row (col + j) = true)
    ∧ col + k < 5 ∧ (col + k + 1 = 5 ∨ filledCell w row (col + k + 1) = false)

/-- `k` is the length of the contiguous filled run immediately above
`row`. -/
def IsUpRun (w : Wall) (row col k : Nat) : Prop :=
  (∀ j, 1 ≤ j → j ≤ k → filledCell w (row - j) col = true)
    ∧ k ≤ row ∧ (k = row ∨ filledCell w (row - k - 1) col = false)

/-- `k` is the length of the contiguous filled run immediately below
`row` (within rows `< 5`). -/
def IsDownRun (w : Wall) (row col k : Nat) : Prop :=
  (∀ j, 1 ≤ j → j ≤ k → filledCell w (row + j) col = true)
    ∧ row + k < 5 ∧ (row + k + 1 = 5 ∨ filledCell w (row + k + 1) col = false)

/-- Every filled cell of a wall agrees with the fixed template (the
standard-wall discipline; the gray variant breaks it, the room never
does). -/
def wallMatchesTemplate (w : Wall) : Prop :=
  ∀ r c col, wallCell w r c = some col → getWallColorAt r c = some col

/-- The left-neighbor count used by `scoreTilePlacement` at `(row, col)`
(the code's first loop). -/
def hLeft (w : Wall) (row col : Nat) : Nat :=
  match col with
  | 0 => 0
  | c + 1 => countLeft w row c

/-- The right-neighbor count (the second loop). -/
def hRight (w : Wall) (row col : Nat) : Nat :=
  countRightFrom w row 5 (col + 1)

/-- The up-neighbor count (the third loop). -/
def vUp (w : Wall) (row col : Nat) : Nat :=
  match row with
  | 0 => 0
  | r + 1 => countUp w col r

/-- The down-neighbor count (the fourth loop). -/
def vDown (w : Wall) (row col : Nat) : Nat :=
  countDownFrom w col 5 (row + 1)

/-- A concrete player for the floor-penalty example: score 3, three floor
tiles. -/
def c3Player : PlayerState :=
  { id := "w"
    name := "w"
    score := 3
    patternLines := createPatternLines
    wall := createEmptyWall
    floorLine := [.tile .blue, .tile .red, .tile .blue]
    hasStartingMarker := false
    connected := true }

/-- A concrete wall for the scoring example: two filled cells left of
`(1,2)` and one above. -/
def wExC4 : Wall :=
  [[none, none, some .red, none, none],
   [some .black, some .cyan, none, none, none],
   [none, none, none, none, none],
   [none, none, none, none, none],
   [none, none, none, none, none]]

/-- The endgame scorings of the roster that achieve the top total score
`M` (the claim's set of score-tied players). -/
def scoreTied (s : GameState) (M : Int) : List EndgameScoring :=
  (s.players.map calculateEndgameScoring).filter (fun x => x.totalScore = M)

/-- A wall with the first two rows complete (2 completed rows, no complete
columns or colors). -/
def wallTwoRows : Wall :=
  [[some .blue, some .yellow, some .red, some .black, some .cyan],
   [some .cyan, some .blue, some .yellow, some .red, some .black],
   [none, none, none, none, none],
   [none, none, none, none, none],
   [none, none, none, none, none]]

/-- A wall with only the first row complete. -/
def wallOneRow : Wall :=
  [[some .blue, some .yellow, some .red, some .black, some .cyan],
   [none, none, none, none, none],
   [none, none, none, none, none],
   [none, none, none, none, none],
   [none, none, none, none, none]]

/-- A bare player record with a given id, score and wall. -/
def mkEndPlayer (id : String) (score : Int) (w : Wall) : PlayerState :=
  { id := id
    name := id
    score := score
    patternLines := createPatternLines
    wall := w
    floorLine := []
    hasStartingMarker := false
    connected := true }

/-- Three players all totalling 42 at endgame with 2, 2 and 1 completed
rows: the shared-victory counterexample roster. -/
def sC2 : GameState :=
  { phase := .wallTiling
    round := 5
    currentPlayerIndex := 0
    players := [mkEndPlayer "pa" 38 wallTwoRows, mkEndPlayer "pb" 38 wallTwoRows,
                mkEndPlayer "pc" 40 wallOneRow]
    factories := []
    centerPool := []
    centerHasStartingMarker := false
    bag := []
    discardLid := []
    startingPlayerIndex := 0
    useVariantWall := false
    winner := none
    tieBreaker := none }

/-- Two players tied at 42 with 2 and 1 completed rows: the spec's own
tie-break example. -/
def sC2b : GameState :=
  { sC2 with
    players := [mkEndPlayer "pa" 38 wallTwoRows, mkEndPlayer "pb" 40 wallOneRow] }

/-- A fixed injected random source (always 0) for concrete executions. -/
def rngZero : Nat → Nat := fun _ => 0

/-- A fallback game state (only used to extract from `Option`s that are
provably `some`). -/
def emptyGameState : GameState :=
  { phase := .setup
    round := 0
    currentPlayerIndex := 0
    players := []
    factories := []
    centerPool := []
    centerHasStartingMarker := false
    bag := []
    discardLid := []
    startingPlayerIndex := 0
    useVariantWall := false
    winner := none
    tieBreaker := none }

/-- A concrete two-player local game created with the zero random
source. -/
def gInit : GameState :=
  (createGame ["alice", "bob"] false rngZero).getD emptyGameState

/-- A concrete pre-game room roster with two joined players. -/
def lobbyR : RoomState :=
  { phase := .lobby
    round := 0
    currentPlayerIndex := 0
    players := [createPlayer "p0" "alice", createPlayer "p1" "bob"]
    factories := []
    centerPool := []
    centerHasStartingMarker := true
    bag := []
    discardLid := []
    startingPlayerIndex := 0
    hostId := "p0"
    maxPlayers := 4
    pendingTiles := []
    pendingColor := none
    pendingPlayerId := none }

/-- The concrete room state right after the host starts the game. -/
def rInit : RoomState := Room.initializeGame rngZero lobbyR

/-- The first color of `rInit`'s factory 0 (a color that is certainly
available to pick). -/
def rInitColor : TileColor :=
  ((rInit.factories.headD { id := 0, tiles := [] }).tiles.headD .blue)

/-- The concrete room state after player p0 picks that color from
factory 0. -/
def rPicked : RoomState :=
  (Room.executePickup rInit "p0" (.factory 0) rInitColor).getD rInit

/-- The first color of `gInit`'s factory 0. -/
def gInitColor : TileColor :=
  ((gInit.factories.headD { id := 0, tiles := [] }).tiles.headD .blue)

/-- A concrete valid first move for `gInit`: pick that color from factory
0 straight to the floor line. -/
def mvW : GameMove := .factoryPick 0 gInitColor (-1)

/-- The state after `mvW`'s pick and placement, before the phase check. -/
def c6t : GameState := (pickPlaceState gInit mvW).getD emptyGameState

/-- The result of a first center pick on `gInit` (claims the marker even
though the center holds no tiles; validation is not part of the pick
stage). -/
def c7res : List TileColor × GameState :=
  (applyPick gInit (.centerPick .blue (-1))).getD ([], emptyGameState)

/-- A well-formedness predicate on a player's pattern lines: five lines,
and a line holding no tiles has no locked color (true of every state the
engines produce). -/
def LinesWF (p : PlayerState) : Prop :=
  p.patternLines.length = 5 ∧
  ∀ ln ∈ p.patternLines, ln.tiles = [] → ln.color = none

instance : DecidablePred LinesWF := fun p =>
  inferInstanceAs (Decidable (p.patternLines.length = 5 ∧
    ∀ ln ∈ p.patternLines, ln.tiles = [] → ln.color = none))

/-- A pattern line that is non-empty but incomplete (size 3, one blue
tile). -/
def c9Line : PatternLine := { size := 3, tiles := [.blue], color := some .blue }

/-- A player holding the non-empty incomplete line `c9Line` on row 1. -/
def c9P : PlayerState :=
  { createPlayer "p0" "alice" with
    patternLines := createPatternLines.set 1 c9Line }

/-- A local game state whose only player carries `c9Line`. -/
def c9G : GameState := { emptyGameState with players := [c9P] }

/-- A room state with the same roster as `c9G`. -/
def c9R : RoomState := { lobbyR with players := [c9P] }

/-! ## Theorems.  Generic counting lemmas first. -/

theorem get?_some_lt {α : Type} {l : List α} {i : Nat} {a : α}
    (h : l.get? i = some a) : i < l.length := by
  by_contra hc
  rw [List.get?_eq_none.mpr (by omega)] at h
  exact Option.noConfusion h

theorem count_set {α : Type} [BEq α] [LawfulBEq α] [DecidableEq α]
    (l : List α) (i : Nat) (a b c : α) (h : l.get? i = some a) :
    (l.set i b).count c + (if a = c then 1 else 0)
      = l.count c + (if b = c then 1 else 0) := by
  induction l generalizing i with
  | nil => simp at h
  | cons x xs ih =>
    cases i with
    | zero =>
      simp only [List.get?] at h
      cases h
      simp [List.set, List.count_cons, beq_iff_eq]
      omega
    | succ n =>
      simp only [List.get?] at h
      simp only [List.set, List.count_cons, beq_iff_eq]
      have := ih n h
      omega

theorem count_listSwap (l : List TileColor) (i j : Nat) (c : TileColor) :
    (listSwap l i j).count c = l.count c := by
  unfold listSwap
  cases hi : l.get? i with
  | none => simp
  | some a =>
    cases hj : l.get? j with
    | none => simp
    | some b =>
      simp only
      have hj2 : (l.set i b).get? j = some b := by
        rw [List.get?_set_of_lt' b l (get?_some_lt hi)]
        by_cases hij : i = j
        · rw [if_pos hij]
        · rw [if_neg hij, hj]
      have e1 := count_set l i a b c hi
      have e2 := count_set (l.set i b) j b a c hj2
      omega

theorem count_shuffleGo (rng : Nat → Nat) (l : List TileColor) (n : Nat)
    (c : TileColor) : (shuffleGo rng l n).count c = l.count c := by
  induction n generalizing l with
  | zero => rfl
  | succ m ih => rw [shuffleGo, ih, count_listSwap]

theorem count_shuffle (rng : Nat → Nat) (l : List TileColor) (c : TileColor) :
    (shuffle rng l).count c = l.count c :=
  count_shuffleGo rng l (l.length - 1) c

theorem sum_map_set {α : Type} (f : α → Nat) (l : List α) (i : Nat) (a b : α)
    (h : l.get? i = some a) :
    ((l.set i b).map f).sum + f a = (l.map f).sum + f b := by
  induction l generalizing i with
  | nil => simp at h
  | cons x xs ih =>
    cases i with
    | zero =>
      simp only [List.get?] at h
      cases h
      simp [List.set]
      omega
    | succ n =>
      simp only [List.get?] at h
      simp only [List.set, List.map_cons, List.sum_cons]
      have := ih n h
      omega

theorem count_take_drop (l : List TileColor) (n : Nat) (c : TileColor) :
    (l.take n).count c + (l.drop n).count c = l.count c := by
  rw [← List.count_append, List.take_append_drop]

theorem count_filter_split (l : List TileColor) (p : TileColor → Bool)
    (c : TileColor) :
    (l.filter p).count c + (l.filter (fun x => ! p x)).count c = l.count c := by
  have := (List.filter_append_perm p l).count_eq c
  rw [← this, List.count_append]

theorem count_eq_of_all {l : List TileColor} {a : TileColor}
    (h : ∀ t ∈ l, a = t) (c : TileColor) :
    l.count c = if a = c then l.length else 0 := by
  induction l with
  | nil => simp
  | cons x xs ih =>
    have hx := h x (by simp)
    have ih2 := ih (fun t ht => h t (by simp [ht]))
    rw [List.count_cons, ih2, ← hx]
    by_cases hc : a = c
    · simp [hc]
    · simp [hc]

theorem count_tile_filterMap (fl : List FloorEntry) (c : TileColor) :
    (fl.filterMap
      (fun e => match e with | .tile t => some t | .starter => none)).count c
      = fl.count (.tile c) := by
  induction fl with
  | nil => rfl
  | cons e rest ih =>
    cases e with
    | tile t =>
      by_cases h : t = c
      · subst h
        simp [List.filterMap_cons, List.count_cons, ih]
      · simp [List.filterMap_cons, List.count_cons, ih, h]
    | starter =>
      simp [List.filterMap_cons, List.count_cons, ih]

theorem count_mem_filter_all (l : List TileColor) (c : TileColor) :
    ∀ t ∈ l.filter (fun x => x = c), c = t := by
  intro t ht
  have h := List.of_mem_filter ht
  simp only [decide_eq_true_eq] at h
  exact h.symm

theorem placeOnFloor_eq (ts : List TileColor) (fl : List FloorEntry)
    (dl : List TileColor) :
    placeOnFloor ts fl dl =
      (fl ++ (ts.take (FLOOR_LINE_SIZE - fl.length)).map FloorEntry.tile,
       dl ++ ts.drop (FLOOR_LINE_SIZE - fl.length)) := by
  induction ts generalizing fl dl with
  | nil => simp [placeOnFloor]
  | cons t rest ih =>
    rw [placeOnFloor]
    by_cases h : fl.length < FLOOR_LINE_SIZE
    · rw [if_pos h, ih]
      have h7 : FLOOR_LINE_SIZE - fl.length = (FLOOR_LINE_SIZE - (fl.length + 1)) + 1 := by
        omega
      rw [h7, List.take_succ_cons, List.drop_succ_cons, List.map_cons]
      simp
    · rw [if_neg h]
      have h0 : FLOOR_LINE_SIZE - fl.length = 0 := by omega
      rw [ih, h0]
      simp

theorem placeTiles_eq (ts : List TileColor) (line : PatternLine)
    (fl : List FloorEntry) (dl : List TileColor) :
    placeTiles ts line fl dl =
      ({ line with
          tiles := line.tiles ++ ts.take (line.size - line.tiles.length) },
       fl ++ (((ts.drop (line.size - line.tiles.length)).take
         (FLOOR_LINE_SIZE - fl.length)).map FloorEntry.tile),
       dl ++ ((ts.drop (line.size - line.tiles.length)).drop
         (FLOOR_LINE_SIZE - fl.length))) := by
  induction ts generalizing line fl dl with
  | nil => simp [placeTiles]
  | cons t rest ih =>
    rw [placeTiles]
    by_cases h : line.tiles.length < line.size
    · rw [if_pos h, ih]
      have hr : line.size - line.tiles.length
          = (line.size - (line.tiles.length + 1)) + 1 := by omega
      rw [hr, List.take_succ_cons, List.drop_succ_cons]
      simp
    · rw [if_neg h]
      have h0 : line.size - line.tiles.length = 0 := by omega
      by_cases hf : fl.length < FLOOR_LINE_SIZE
      · rw [if_pos hf, ih, h0]
        have h7 : FLOOR_LINE_SIZE - fl.length
            = (FLOOR_LINE_SIZE - (fl.length + 1)) + 1 := by omega
        rw [h7]
        simp [List.take_succ_cons, List.drop_succ_cons]
      · rw [if_neg hf, ih, h0]
        have h70 : FLOOR_LINE_SIZE - fl.length = 0 := by omega
        rw [h70]
        simp

theorem fillLine_eq (ts : List TileColor) (line : PatternLine) :
    Room.fillLine ts line =
      ({ line with
          tiles := line.tiles ++ ts.take (line.size - line.tiles.length) },
       ts.drop (line.size - line.tiles.length)) := by
  induction ts generalizing line with
  | nil => simp [Room.fillLine]
  | cons t rest ih =>
    rw [Room.fillLine]
    by_cases h : line.tiles.length < line.size
    · rw [if_pos h, ih]
      have hr : line.size - line.tiles.length
          = (line.size - (line.tiles.length + 1)) + 1 := by omega
      rw [hr, List.take_succ_cons, List.drop_succ_cons]
      simp
    · rw [if_neg h]
      have h0 : line.size - line.tiles.length = 0 := by omega
      rw [h0]
      simp

theorem count_filter_eq_split (l : List TileColor) (a c : TileColor) :
    (l.filter (fun t => t = a)).count c + (l.filter (fun t => ¬ t = a)).count c
      = l.count c := by
  induction l with
  | nil => simp
  | cons x xs ih =>
    simp only [List.filter_cons]
    by_cases h : x = a
    · rw [if_pos (by simp [h]), if_neg (by simp [h])]
      simp only [List.count_cons]
      omega
    · rw [if_neg (by simp [h]), if_pos (by simp [h])]
      simp only [List.count_cons]
      omega

theorem takeFromBag_count (n : Nat) (bag : List TileColor) (c : TileColor) :
    (takeFromBag n bag).1.count c + (takeFromBag n bag).2.count c
      = bag.count c := by
  induction n generalizing bag with
  | zero => simp [takeFromBag]
  | succ m ih =>
    rw [takeFromBag]
    cases h : bag.getLast? with
    | none => simp
    | some x =>
      have hb : bag.dropLast ++ [x] = bag := List.dropLast_append_getLast? x h
      have := ih bag.dropLast
      simp only [List.count_cons]
      conv_rhs => rw [← hb]
      rw [List.count_append]
      simp [List.count_cons]
      omega

theorem fillFactories_count (n i : Nat) (bag : List TileColor) (c : TileColor) :
    ((fillFactories n i bag).1.map (fun f => f.tiles.count c)).sum
      + (fillFactories n i bag).2.count c = bag.count c := by
  induction n generalizing i bag with
  | zero => simp [fillFactories]
  | succ m ih =>
    rw [fillFactories]
    simp only [List.map_cons, List.sum_cons]
    have h1 := takeFromBag_count TILES_PER_FACTORY bag c
    have h2 := ih (i + 1) (takeFromBag TILES_PER_FACTORY bag).2
    omega

theorem drawTiles_count (rng : Nat → Nat) (n : Nat) (acc bag dl : List TileColor)
    (c : TileColor) :
    (drawTiles rng n acc bag dl).1.count c
      + (drawTiles rng n acc bag dl).2.1.count c
      + (drawTiles rng n acc bag dl).2.2.count c
      = acc.count c + bag.count c + dl.count c := by
  induction n generalizing acc bag dl with
  | zero => simp [drawTiles]
  | succ m ih =>
    rw [drawTiles]
    by_cases h : bag.isEmpty ∧ dl.isEmpty
    · rw [if_pos h]
    · rw [if_neg h]
      simp only
      have hsum : (if bag.isEmpty then shuffle rng dl else bag).count c
          + (if bag.isEmpty then ([] : List TileColor) else dl).count c
          = bag.count c + dl.count c := by
        by_cases hb : bag.isEmpty
        · have hb2 : bag = [] := List.isEmpty_iff.mp hb
          subst hb2
          simp [count_shuffle]
        · simp [hb]
      cases hl : (if bag.isEmpty then shuffle rng dl else bag).getLast? with
      | none =>
        rw [ih]
        omega
      | some x =>
        have hb2 : (if bag.isEmpty then shuffle rng dl else bag).dropLast ++ [x]
            = (if bag.isEmpty then shuffle rng dl else bag) :=
          List.dropLast_append_getLast? x hl
        rw [ih]
        have hc2 : (acc ++ [x]).count c = acc.count c + (if x = c then 1 else 0) := by
          rw [List.count_append]
          simp [List.count_cons]
        have hc3 : (if bag.isEmpty then shuffle rng dl else bag).count c
            = (if bag.isEmpty then shuffle rng dl else bag).dropLast.count c
              + (if x = c then 1 else 0) := by
          conv_lhs => rw [← hb2]
          rw [List.count_append]
          simp [List.count_cons]
        omega

theorem refillFactories_count (rng : Nat → Nat) (fs : List FactoryDisplay)
    (bag dl : List TileColor) (c : TileColor) :
    ((refillFactories rng fs bag dl).1.map (fun f => f.tiles.count c)).sum
      + (refillFactories rng fs bag dl).2.1.count c
      + (refillFactories rng fs bag dl).2.2.count c
      = bag.count c + dl.count c := by
  induction fs generalizing bag dl with
  | nil => simp [refillFactories]
  | cons f rest ih =>
    rw [refillFactories]
    simp only [List.map_cons, List.sum_cons]
    have h1 := drawTiles_count rng TILES_PER_FACTORY [] bag dl c
    have h2 := ih (drawTiles rng TILES_PER_FACTORY [] bag dl).2.1
      (drawTiles rng TILES_PER_FACTORY [] bag dl).2.2
    simp only [List.count_nil] at h1
    omega

theorem pickFactory_count (fs : List FactoryDisplay) (fid : Nat) (col c : TileColor)
    (picked moved : List TileColor) (fs2 : List FactoryDisplay)
    (h : pickFactory fs fid col = some (picked, moved, fs2)) :
    picked.count c + moved.count c + (fs2.map (fun f => f.tiles.count c)).sum
      = (fs.map (fun f => f.tiles.count c)).sum := by
  induction fs generalizing fs2 with
  | nil => simp [pickFactory] at h
  | cons f rest ih =>
    rw [pickFactory] at h
    by_cases hid : f.id = fid
    · rw [if_pos hid] at h
      by_cases h0 : f.tiles.length = 0
      · simp [h0] at h
      · rw [if_neg h0] at h
        by_cases hc : f.tiles.contains col
        · rw [if_neg (not_not_intro hc)] at h
          simp only [Option.some.injEq, Prod.mk.injEq] at h
          obtain ⟨h1, h2, h3⟩ := h
          subst h1
          subst h2
          subst h3
          simp only [List.map_cons, List.sum_cons]
          have := count_filter_eq_split f.tiles col c
          simp only [List.count_nil]
          omega
        · rw [if_pos hc] at h
          simp at h
    · rw [if_neg hid] at h
      cases hr : pickFactory rest fid col with
      | none =>
        rw [hr] at h
        simp at h
      | some r =>
        rw [hr] at h
        simp only [Option.map_some', Option.some.injEq, Prod.mk.injEq] at h
        obtain ⟨h1, h2, h3⟩ := h
        subst h1
        subst h2
        subst h3
        simp only [List.map_cons, List.sum_cons]
        have hrec := ih r.2.2 (by rw [hr])
        omega

theorem get?_set_same {α : Type} (l : List α) (i : Nat) (a : α)
    (h : i < l.length) : (l.set i a).get? i = some a := by
  rw [List.get?_set_of_lt' a l h, if_pos rfl]

theorem get?_set_other {α : Type} (l : List α) (i j : Nat) (a : α)
    (h : i ≠ j) : (l.set i a).get? j = l.get? j := by
  by_cases hj : i < l.length
  · rw [List.get?_set_of_lt' a l hj, if_neg h]
  · rw [List.set_eq_of_length_le (by omega)]

theorem wallCell_eq_row (w : Wall) (row col : Nat) (rowl : List (Option TileColor))
    (hr : w.get? row = some rowl) :
    wallCell w row col = (rowl.get? col).join := by
  unfold wallCell
  rw [hr]
  rfl

theorem wallCell_set_same (w : Wall) (row col : Nat) (v : Option TileColor)
    (rowl : List (Option TileColor)) (hr : w.get? row = some rowl)
    (hc : col < rowl.length) :
    wallCell (setWallCell w row col v) row col = v := by
  unfold setWallCell
  rw [hr]
  rw [wallCell_eq_row _ _ _ (rowl.set col v) (get?_set_same _ _ _ (get?_some_lt hr))]
  rw [get?_set_same _ _ _ hc]
  rfl

theorem wallCell_set_ne_row (w : Wall) (row col : Nat) (v : Option TileColor)
    (r2 c2 : Nat) (h : r2 ≠ row) :
    wallCell (setWallCell w row col v) r2 c2 = wallCell w r2 c2 := by
  unfold setWallCell
  cases hr : w.get? row with
  | none => rfl
  | some rowl =>
    unfold wallCell
    rw [get?_set_other _ _ _ _ (fun he => h he.symm)]

theorem wallCell_set_ne_col (w : Wall) (row col : Nat) (v : Option TileColor)
    (c2 : Nat) (h : c2 ≠ col) :
    wallCell (setWallCell w row col v) row c2 = wallCell w row c2 := by
  unfold setWallCell
  cases hr : w.get? row with
  | none => rfl
  | some rowl =>
    rw [wallCell_eq_row _ _ _ (rowl.set col v) (get?_set_same _ _ _ (get?_some_lt hr))]
    rw [wallCell_eq_row _ _ _ rowl hr]
    rw [get?_set_other _ _ _ _ (fun he => h he.symm)]

theorem setWallCell_length (w : Wall) (row col : Nat) (v : Option TileColor) :
    (setWallCell w row col v).length = w.length := by
  unfold setWallCell
  cases w.get? row with
  | none => rfl
  | some rowl => simp

theorem setWallCell_get? (w : Wall) (row col : Nat) (v : Option TileColor)
    (i : Nat) (rowl2 : List (Option TileColor))
    (h : (setWallCell w row col v).get? i = some rowl2) :
    ∃ rowl, w.get? i = some rowl ∧ rowl2.length = rowl.length := by
  unfold setWallCell at h
  cases hr : w.get? row with
  | none =>
    rw [hr] at h
    exact ⟨rowl2, h, rfl⟩
  | some rowl =>
    rw [hr] at h
    by_cases hi : row = i
    · subst hi
      rw [get?_set_same _ _ _ (get?_some_lt hr)] at h
      cases h
      exact ⟨rowl, hr, by simp⟩
    · rw [get?_set_other _ _ _ _ hi] at h
      exact ⟨rowl2, h, rfl⟩

theorem wallColorCount_set (w : Wall) (row col : Nat) (x c : TileColor)
    (rowl : List (Option TileColor)) (hr : w.get? row = some rowl)
    (hc : col < rowl.length) (hempty : wallCell w row col = none) :
    wallColorCount c (setWallCell w row col (some x))
      = wallColorCount c w + (if x = c then 1 else 0) := by
  have hcell : rowl.get? col = some none := by
    rw [wallCell_eq_row _ _ _ rowl hr] at hempty
    cases hcol : rowl.get? col with
    | none => exact absurd (List.get?_eq_none.mp hcol) (by omega)
    | some a =>
      rw [hcol] at hempty
      cases a with
      | none => rfl
      | some t => simp [Option.join] at hempty
  have hset : setWallCell w row col (some x) = w.set row (rowl.set col (some x)) := by
    unfold setWallCell
    rw [hr]
  rw [hset]
  unfold wallColorCount
  have hs := sum_map_set (fun rl => rl.count (some c)) w row rowl
    (rowl.set col (some x)) hr
  simp only at hs
  have hcnt := count_set rowl col none (some x) (some c) hcell
  rw [if_neg (by simp : ¬ (none : Option TileColor) = some c)] at hcnt
  by_cases hx : x = c
  · subst hx
    rw [if_pos rfl] at hcnt
    rw [if_pos rfl]
    omega
  · rw [if_neg (by simp [hx] : ¬ (some x : Option TileColor) = some c)] at hcnt
    rw [if_neg hx]
    omega

theorem wallColumn_lt (row : Nat) (h : row < 5) (c : TileColor) :
    getWallColumnForColor row c < 5 := by
  interval_cases row <;> cases c <;> decide

theorem wallColumn_template (row : Nat) (h : row < 5) (c : TileColor) :
    getWallColorAt row (getWallColumnForColor row c) = some c := by
  interval_cases row <;> cases c <;> decide

/-! ## Claim C3 (floor penalty values and clamping) -/

theorem int_sum_nonpos : ∀ (l : List Int), (∀ x ∈ l, x ≤ 0) → l.sum ≤ 0
  | [], _ => by simp
  | x :: xs, h => by
    simp only [List.sum_cons]
    have h1 := h x (by simp)
    have h2 := int_sum_nonpos xs (fun y hy => h y (by simp [hy]))
    omega

theorem floorPenalty_nonpos (n : Nat) : calculateFloorPenalty n ≤ 0 := by
  unfold calculateFloorPenalty
  refine int_sum_nonpos _ (fun x hx => ?_)
  have hm : x ∈ FLOOR_PENALTIES := List.take_subset _ _ hx
  simp only [FLOOR_PENALTIES, List.mem_cons, List.not_mem_nil, or_false] at hm
  rcases hm with h | h | h | h | h | h | h <;> rw [h] <;> norm_num

/-- C3, amended: `calculateFloorPenalty n` is the sum of the first
`min(n,7)` schedule entries and is never positive, `calculateFloorPenalty 3
= -4`, `calculateFloorPenalty 7 = -14` (the claim's `-12` is wrong: the
schedule `[-1,-1,-2,-2,-2,-3,-3]` sums to `-14`), and the wall-tiling floor
step clamps the adjusted score at zero, so it never goes negative. -/
theorem claim_C3 :
    (∀ n : Nat,
      calculateFloorPenalty n = (FLOOR_PENALTIES.take (min n 7)).sum
        ∧ calculateFloorPenalty n ≤ 0)
    ∧ calculateFloorPenalty 3 = -4
    ∧ calculateFloorPenalty 7 = -14
    ∧ (∀ p dl, (applyFloorPenalty p dl).1.score
        = if p.floorLine.length = 0 then p.score
          else max 0 (p.score + calculateFloorPenalty p.floorLine.length))
    ∧ (∀ p dl, p.floorLine.length ≠ 0 → 0 ≤ (applyFloorPenalty p dl).1.score) := by
  refine ⟨fun n => ⟨rfl, floorPenalty_nonpos n⟩, by decide, by decide, ?_, ?_⟩
  · intro p dl
    unfold applyFloorPenalty
    by_cases h : p.floorLine.length = 0
    · rw [if_pos h, if_pos h]
    · rw [if_neg h, if_neg h]
  · intro p dl h
    unfold applyFloorPenalty
    rw [if_neg h]
    simp

/-- The claim's stated value at 7 floor tiles is wrong on the code: the
penalty is -14, not -12. -/
theorem claim_C3_counterexample : calculateFloorPenalty 7 ≠ -12 := by decide

theorem claim_C3_witness :
    calculateFloorPenalty 3 = -4
    ∧ (applyFloorPenalty c3Player []).1.score = 0
    ∧ c3Player.floorLine.length ≠ 0
    ∧ (0 : Int) ≤ (applyFloorPenalty c3Player []).1.score :=
  ⟨claim_C3.2.1,
   by rw [claim_C3.2.2.2.1 c3Player []]; decide,
   by decide,
   claim_C3.2.2.2.2 c3Player [] (by decide)⟩

/-! ## Claim C5 (overflow placement) -/

/-- C5: placing a pick of `k` tiles on a pattern line with remaining
capacity `r` appends exactly `min(k,r)` tiles to the line; the excess goes
to the floor line up to its 7-slot capacity and beyond that to the discard
lid.  Stated as the full characterization of the placement loop shared by
`executeMove` (via `pickPlaceState`), together with the `min` count and
the claim's 3-tiles-into-capacity-1 example. -/
theorem claim_C5 :
    (∀ ts line fl dl,
      placeTiles ts line fl dl =
        ({ line with
            tiles := line.tiles ++ ts.take (line.size - line.tiles.length) },
         fl ++ (((ts.drop (line.size - line.tiles.length)).take
           (FLOOR_LINE_SIZE - fl.length)).map FloorEntry.tile),
         dl ++ ((ts.drop (line.size - line.tiles.length)).drop
           (FLOOR_LINE_SIZE - fl.length))))
    ∧ (∀ ts line fl dl,
      (placeTiles ts line fl dl).1.tiles.length
        = line.tiles.length + min ts.length (line.size - line.tiles.length))
    ∧ placeTiles [.red, .red, .red]
        { size := 2, tiles := [.red], color := some .red } [] []
        = ({ size := 2, tiles := [.red, .red], color := some .red },
           [.tile .red, .tile .red], []) := by
  refine ⟨placeTiles_eq, ?_, by decide⟩
  intro ts line fl dl
  rw [placeTiles_eq]
  simp [List.length_take, Nat.min_comm]

/-! ## Claim C4 (wall placement scoring) -/

theorem countLeft_le (w : Wall) (row : Nat) :
    ∀ c, countLeft w row c ≤ c + 1 := by
  intro c
  induction c with
  | zero =>
    unfold countLeft
    split <;> omega
  | succ m ih =>
    unfold countLeft
    split <;> omega

theorem countLeft_filled (w : Wall) (row : Nat) :
    ∀ c, ∀ j < countLeft w row c, filledCell w row (c - j) = true := by
  intro c
  induction c with
  | zero =>
    unfold countLeft
    split
    · intro j hj
      interval_cases j
      simpa
    · omega
  | succ m ih =>
    unfold countLeft
    split
    · intro j hj
      cases j with
      | zero => simpa
      | succ j2 =>
        have := ih j2 (by omega)
        simpa [Nat.succ_sub_succ] using this
    · omega

theorem countLeft_stop (w : Wall) (row : Nat) :
    ∀ c, countLeft w row c = c + 1
      ∨ filledCell w row (c - countLeft w row c) = false := by
  intro c
  induction c with
  | zero =>
    unfold countLeft
    by_cases hf : filledCell w row 0
    · rw [if_pos hf]
      left
      rfl
    · rw [if_neg hf]
      right
      simpa using hf
  | succ m ih =>
    unfold countLeft
    by_cases hf : filledCell w row (m + 1)
    · rw [if_pos hf]
      rcases ih with h | h
      · left
        omega
      · right
        rw [show m + 1 - (1 + countLeft w row m) = m - countLeft w row m by omega]
        exact h
    · rw [if_neg hf]
      right
      simpa using hf

theorem countRightFrom_spec (w : Wall) (row : Nat) :
    ∀ fuel c, 5 ≤ c + fuel → c ≤ 5 →
      (∀ j < countRightFrom w row fuel c, filledCell w row (c + j) = true)
      ∧ c + countRightFrom w row fuel c ≤ 5
      ∧ (c + countRightFrom w row fuel c = 5
          ∨ filledCell w row (c + countRightFrom w row fuel c) = false) := by
  intro fuel
  induction fuel with
  | zero =>
    intro c h5 hc
    have : c = 5 := by omega
    subst this
    exact ⟨fun j hj => absurd hj (by simp [countRightFrom]),
      by simp [countRightFrom], by simp [countRightFrom]⟩
  | succ m ih =>
    intro c h5 hc
    unfold countRightFrom
    by_cases hlt : c < 5
    · rw [if_pos hlt]
      by_cases hf : filledCell w row c
      · rw [if_pos hf]
        obtain ⟨ih1, ih2, ih3⟩ := ih (c + 1) (by omega) (by omega)
        refine ⟨?_, by omega, ?_⟩
        · intro j hj
          cases j with
          | zero => simpa using hf
          | succ j2 =>
            have := ih1 j2 (by omega)
            rw [show c + (j2 + 1) = c + 1 + j2 by omega]
            exact this
        · rcases ih3 with h | h
          · left
            omega
          · right
            rw [show c + (1 + countRightFrom w row m (c + 1))
              = c + 1 + countRightFrom w row m (c + 1) by omega]
            exact h
      · rw [if_neg hf]
        refine ⟨by omega, by omega, Or.inr ?_⟩
        simpa using hf
    · rw [if_neg hlt]
      refine ⟨by omega, by omega, Or.inl (by omega)⟩

theorem countUp_le (w : Wall) (col : Nat) :
    ∀ r, countUp w col r ≤ r + 1 := by
  intro r
  induction r with
  | zero =>
    unfold countUp
    split <;> omega
  | succ m ih =>
    unfold countUp
    split <;> omega

theorem countUp_filled (w : Wall) (col : Nat) :
    ∀ r, ∀ j < countUp w col r, filledCell w (r - j) col = true := by
  intro r
  induction r with
  | zero =>
    unfold countUp
    split
    · intro j hj
      interval_cases j
      simpa
    · omega
  | succ m ih =>
    unfold countUp
    split
    · intro j hj
      cases j with
      | zero => simpa
      | succ j2 =>
        have := ih j2 (by omega)
        simpa [Nat.succ_sub_succ] using this
    · omega

theorem countUp_stop (w : Wall) (col : Nat) :
    ∀ r, countUp w col r = r + 1
      ∨ filledCell w (r - countUp w col r) col = false := by
  intro r
  induction r with
  | zero =>
    unfold countUp
    by_cases hf : filledCell w 0 col
    · rw [if_pos hf]
      left
      rfl
    · rw [if_neg hf]
      right
      simpa using hf
  | succ m ih =>
    unfold countUp
    by_cases hf : filledCell w (m + 1) col
    · rw [if_pos hf]
      rcases ih with h | h
      · left
        omega
      · right
        rw [show m + 1 - (1 + countUp w col m) = m - countUp w col m by omega]
        exact h
    · rw [if_neg hf]
      right
      simpa using hf

theorem countDownFrom_spec (w : Wall) (col : Nat) :
    ∀ fuel r, 5 ≤ r + fuel → r ≤ 5 →
      (∀ j < countDownFrom w col fuel r, filledCell w (r + j) col = true)
      ∧ r + countDownFrom w col fuel r ≤ 5
      ∧ (r + countDownFrom w col fuel r = 5
          ∨ filledCell w (r + countDownFrom w col fuel r) col = false) := by
  intro fuel
  induction fuel with
  | zero =>
    intro r h5 hr
    have : r = 5 := by omega
    subst this
    exact ⟨fun j hj => absurd hj (by simp [countDownFrom]),
      by simp [countDownFrom], by simp [countDownFrom]⟩
  | succ m ih =>
    intro r h5 hr
    unfold countDownFrom
    by_cases hlt : r < 5
    · rw [if_pos hlt]
      by_cases hf : filledCell w r col
      · rw [if_pos hf]
        obtain ⟨ih1, ih2, ih3⟩ := ih (r + 1) (by omega) (by omega)
        refine ⟨?_, by omega, ?_⟩
        · intro j hj
          cases j with
          | zero => simpa using hf
          | succ j2 =>
            have := ih1 j2 (by omega)
            rw [show r + (j2 + 1) = r + 1 + j2 by omega]
            exact this
        · rcases ih3 with h | h
          · left
            omega
          · right
            rw [show r + (1 + countDownFrom w col m (r + 1))
              = r + 1 + countDownFrom w col m (r + 1) by omega]
            exact h
      · rw [if_neg hf]
        refine ⟨by omega, by omega, Or.inr ?_⟩
        simpa using hf
    · rw [if_neg hlt]
      refine ⟨by omega, by omega, Or.inl (by omega)⟩

/-- C4: for every wall and in-range cell, the neighbor counts computed by
`scoreTilePlacement` are exactly the contiguous filled runs left, right,
above and below the cell (stopping at the first empty cell), and the score
is 1 for an isolated tile and otherwise `(h>0 ? h+1 : 0) + (v>0 ? v+1 :
0)`. -/
theorem claim_C4 (w : Wall) (row col : Nat) (hrow : row < 5) (hcol : col < 5) :
    IsLeftRun w row col (hLeft w row col)
    ∧ IsRightRun w row col (hRight w row col)
    ∧ IsUpRun w row col (vUp w row col)
    ∧ IsDownRun w row col (vDown w row col)
    ∧ horizontalCount w row col = hLeft w row col + hRight w row col
    ∧ verticalCount w row col = vUp w row col + vDown w row col
    ∧ scoreTilePlacement w row col =
        (if horizontalCount w row col = 0 ∧ verticalCount w row col = 0 then 1
         else (if horizontalCount w row col > 0
                then (horizontalCount w row col : Int) + 1 else 0)
           + (if verticalCount w row col > 0
                then (verticalCount w row col : Int) + 1 else 0)) := by
  refine ⟨?_, ?_, ?_, ?_, rfl, rfl, rfl⟩
  · cases col with
    | zero =>
      refine ⟨fun j h1 h2 => ?_, ?_, Or.inl rfl⟩
      · exact absurd h2 (by rw [show hLeft w row 0 = 0 from rfl]; omega)
      · rw [show hLeft w row 0 = 0 from rfl]
    | succ c =>
      have he : hLeft w row (c + 1) = countLeft w row c := rfl
      refine ⟨fun j h1 h2 => ?_, ?_, ?_⟩
      · rw [he] at h2
        have := countLeft_filled w row c (j - 1) (by omega)
        rw [show c + 1 - j = c - (j - 1) by omega]
        exact this
      · rw [he]
        exact countLeft_le w row c
      · rcases countLeft_stop w row c with h | h
        · exact Or.inl (by rw [he]; omega)
        · refine Or.inr ?_
          rw [he, show c + 1 - countLeft w row c - 1 = c - countLeft w row c by omega]
          exact h
  · have he : hRight w row col = countRightFrom w row 5 (col + 1) := rfl
    obtain ⟨h1, h2, h3⟩ := countRightFrom_spec w row 5 (col + 1) (by omega) (by omega)
    refine ⟨fun j hj1 hj2 => ?_, by rw [he]; omega, ?_⟩
    · rw [he] at hj2
      have := h1 (j - 1) (by omega)
      rw [show col + j = col + 1 + (j - 1) by omega]
      exact this
    · rcases h3 with h | h
      · exact Or.inl (by rw [he]; omega)
      · refine Or.inr ?_
        rw [he, show col + countRightFrom w row 5 (col + 1) + 1
          = col + 1 + countRightFrom w row 5 (col + 1) by omega]
        exact h
  · cases row with
    | zero =>
      refine ⟨fun j h1 h2 => ?_, ?_, Or.inl rfl⟩
      · exact absurd h2 (by rw [show vUp w 0 col = 0 from rfl]; omega)
      · rw [show vUp w 0 col = 0 from rfl]
    | succ r =>
      have he : vUp w (r + 1) col = countUp w col r := rfl
      refine ⟨fun j h1 h2 => ?_, ?_, ?_⟩
      · rw [he] at h2
        have := countUp_filled w col r (j - 1) (by omega)
        rw [show r + 1 - j = r - (j - 1) by omega]
        exact this
      · rw [he]
        exact countUp_le w col r
      · rcases countUp_stop w col r with h | h
        · exact Or.inl (by rw [he]; omega)
        · refine Or.inr ?_
          rw [he, show r + 1 - countUp w col r - 1 = r - countUp w col r by omega]
          exact h
  · have he : vDown w row col = countDownFrom w col 5 (row + 1) := rfl
    obtain ⟨h1, h2, h3⟩ := countDownFrom_spec w col 5 (row + 1) (by omega) (by omega)
    refine ⟨fun j hj1 hj2 => ?_, by rw [he]; omega, ?_⟩
    · rw [he] at hj2
      have := h1 (j - 1) (by omega)
      rw [show row + j = row + 1 + (j - 1) by omega]
      exact this
    · rcases h3 with h | h
      · exact Or.inl (by rw [he]; omega)
      · refine Or.inr ?_
        rw [he, show row + countDownFrom w col 5 (row + 1) + 1
          = row + 1 + countDownFrom w col 5 (row + 1) by omega]
        exact h

theorem claim_C4_witness :
    (1 : Nat) < 5 ∧ (2 : Nat) < 5
    ∧ IsLeftRun wExC4 1 2 (hLeft wExC4 1 2)
    ∧ scoreTilePlacement wExC4 1 2 = 5 :=
  ⟨by decide, by decide, (claim_C4 wExC4 1 2 (by decide) (by decide)).1,
   by rw [(claim_C4 wExC4 1 2 (by decide) (by decide)).2.2.2.2.2.2]; decide⟩

/-! ## Claim C2 (endgame tie-break) -/

theorem sortedScore_head_ge (l : List EndgameScoring) (top : EndgameScoring)
    (rest : List EndgameScoring)
    (h : List.insertionSort scoreDescOrder l = top :: rest) :
    ∀ x ∈ l, x.totalScore ≤ top.totalScore := by
  intro x hx
  have hs := List.sorted_insertionSort scoreDescOrder l
  rw [h] at hs
  have hmem : x ∈ top :: rest := by
    rw [← h]
    exact (List.mem_insertionSort _).mpr hx
  rcases List.mem_cons.mp hmem with he | hm
  · rw [he]
  · exact List.rel_of_sorted_cons hs x hm

theorem sortedRows_head_ge (l : List EndgameScoring) (top : EndgameScoring)
    (rest : List EndgameScoring)
    (h : List.insertionSort rowsDescOrder l = top :: rest) :
    ∀ x ∈ l, x.horizontalRows ≤ top.horizontalRows := by
  intro x hx
  have hs := List.sorted_insertionSort rowsDescOrder l
  rw [h] at hs
  have hmem : x ∈ top :: rest := by
    rw [← h]
    exact (List.mem_insertionSort _).mpr hx
  rcases List.mem_cons.mp hmem with he | hm
  · rw [he]
  · exact List.rel_of_sorted_cons hs x hm

theorem sortedRows_second_ge (l : List EndgameScoring) (t0 t1 : EndgameScoring)
    (rest2 : List EndgameScoring)
    (h : List.insertionSort rowsDescOrder l = t0 :: t1 :: rest2) :
    ∀ x ∈ rest2, x.horizontalRows ≤ t1.horizontalRows := by
  intro x hx
  have hs := List.sorted_insertionSort rowsDescOrder l
  rw [h] at hs
  exact List.rel_of_sorted_cons (List.Sorted.of_cons hs) x hx

theorem decideWinner_cons (s1 : GameState) (top : EndgameScoring)
    (restSorted : List EndgameScoring) :
    decideWinner s1 (top :: restSorted)
      = (if ((top :: restSorted).filter
            (fun x => x.totalScore = top.totalScore)).length = 1 then
          { s1 with
            winner := (((top :: restSorted).filter
              (fun x => x.totalScore = top.totalScore)).head?).map
                (fun t => t.playerId) }
        else
          match List.insertionSort rowsDescOrder
              ((top :: restSorted).filter
                (fun x => x.totalScore = top.totalScore)) with
          | t0 :: t1 :: rest2 =>
            if t1.horizontalRows < t0.horizontalRows then
              { s1 with winner := some t0.playerId, tieBreaker := some "horizontal rows" }
            else
              { s1 with
                winner := some (String.intercalate ","
                  ((t0 :: t1 :: rest2).map (fun t => t.playerId)))
                tieBreaker := some "shared" }
          | _ => s1) := rfl

theorem decideWinner_strict (s1 : GameState) (top t0 t1 : EndgameScoring)
    (restSorted rest2 : List EndgameScoring)
    (hnot1 : ¬ ((top :: restSorted).filter
      (fun x => x.totalScore = top.totalScore)).length = 1)
    (hs2 : List.insertionSort rowsDescOrder
      ((top :: restSorted).filter (fun x => x.totalScore = top.totalScore))
      = t0 :: t1 :: rest2)
    (hlt : t1.horizontalRows < t0.horizontalRows) :
    decideWinner s1 (top :: restSorted)
      = { s1 with winner := some t0.playerId, tieBreaker := some "horizontal rows" } := by
  rw [decideWinner_cons, if_neg hnot1]
  split
  case _ ta tb tc heq =>
    rw [hs2] at heq
    injection heq with e1 etail
    injection etail with e2 e3
    subst e1
    subst e2
    rw [if_pos hlt]
  case _ h2 =>
    exact absurd (hs2 ▸ h2 t0 t1 rest2) (by simp)

theorem decideWinner_shared (s1 : GameState) (top t0 t1 : EndgameScoring)
    (restSorted rest2 : List EndgameScoring)
    (hnot1 : ¬ ((top :: restSorted).filter
      (fun x => x.totalScore = top.totalScore)).length = 1)
    (hs2 : List.insertionSort rowsDescOrder
      ((top :: restSorted).filter (fun x => x.totalScore = top.totalScore))
      = t0 :: t1 :: rest2)
    (hnlt : ¬ t1.horizontalRows < t0.horizontalRows) :
    decideWinner s1 (top :: restSorted)
      = { s1 with
          winner := some (String.intercalate ","
            ((t0 :: t1 :: rest2).map (fun t => t.playerId)))
          tieBreaker := some "shared" } := by
  rw [decideWinner_cons, if_neg hnot1]
  split
  case _ ta tb tc heq =>
    rw [hs2] at heq
    injection heq with e1 etail
    injection etail with e2 e3
    subst e1
    subst e2
    subst e3
    rw [if_neg hnlt]
  case _ h2 =>
    exact absurd (hs2 ▸ h2 t0 t1 rest2) (by simp)

/-- C2, amended: the sole top scorer wins outright; among several top
scorers, a strict maximum of completed rows wins with tieBreaker
"horizontal rows"; if the top two row counts among them are equal, the
result is a shared victory listing all score-tied players — not only those
still tied on rows. -/
theorem claim_C2 (s : GameState) (M : Int)
    (hM : ((s.players.map calculateEndgameScoring).map
      (fun x => x.totalScore)).maximum = some M) :
    (∀ t, scoreTied s M = [t] → (executeEndgame s).winner = some t.playerId)
    ∧ (∀ R : Nat, 2 ≤ (scoreTied s M).length →
        (((scoreTied s M).map (fun x => x.horizontalRows)).maximum = some R) →
        (((scoreTied s M).filter (fun x => x.horizontalRows = R)).length = 1 →
          ∃ t, t ∈ scoreTied s M ∧ t.horizontalRows = R
            ∧ (executeEndgame s).winner = some t.playerId
            ∧ (executeEndgame s).tieBreaker = some "horizontal rows")
        ∧ (2 ≤ ((scoreTied s M).filter (fun x => x.horizontalRows = R)).length →
          ∃ ids : List String,
            (executeEndgame s).winner = some (String.intercalate "," ids)
            ∧ ids.Perm ((scoreTied s M).map (fun x => x.playerId))
            ∧ (executeEndgame s).tieBreaker = some "shared")) := by
  have hne : s.players.map calculateEndgameScoring ≠ [] := by
    intro h0
    rw [h0] at hM
    simp at hM
  obtain ⟨top, rest, hsort⟩ :
      ∃ top rest, List.insertionSort scoreDescOrder
        (s.players.map calculateEndgameScoring) = top :: rest := by
    cases hs : List.insertionSort scoreDescOrder
        (s.players.map calculateEndgameScoring) with
    | nil =>
      exfalso
      have hl := List.length_insertionSort scoreDescOrder
        (s.players.map calculateEndgameScoring)
      rw [hs] at hl
      exact hne (List.length_eq_zero.mp hl.symm)
    | cons a b => exact ⟨a, b, rfl⟩
  have htopmem : top ∈ s.players.map calculateEndgameScoring := by
    refine (List.mem_insertionSort scoreDescOrder).mp ?_
    rw [hsort]
    simp
  have htople : top.totalScore ≤ M := by
    have := List.le_maximum_of_mem
      (List.mem_map_of_mem (fun x => x.totalScore) htopmem) hM
    exact_mod_cast this
  obtain ⟨tm, htmmem, htmval⟩ :=
    List.mem_map.mp (List.maximum_mem hM)
  have htopge : M ≤ top.totalScore := by
    rw [← htmval]
    exact sortedScore_head_ge _ top rest hsort tm htmmem
  have htopM : top.totalScore = M := le_antisymm htople htopge
  have hpermBase : (top :: rest).Perm (s.players.map calculateEndgameScoring) := by
    rw [← hsort]
    exact List.perm_insertionSort _ _
  have hperm : ((top :: rest).filter
      (fun x => x.totalScore = top.totalScore)).Perm (scoreTied s M) := by
    unfold scoreTied
    simpa only [htopM] using hpermBase.filter (fun x => decide (x.totalScore = M))
  have hexe : executeEndgame s
      = decideWinner
          { s with
            phase := .gameOver
            players := applyScorings (s.players.map calculateEndgameScoring) s.players }
          (top :: rest) := by
    unfold executeEndgame
    rw [hsort]
  constructor
  · intro t ht
    have htied : (top :: rest).filter (fun x => x.totalScore = top.totalScore) = [t] :=
      List.perm_singleton.mp (ht ▸ hperm)
    rw [hexe, decideWinner_cons, htied]
    simp
  · intro R hlen2 hR
    have htiedlen : ((top :: rest).filter
        (fun x => x.totalScore = top.totalScore)).length = (scoreTied s M).length :=
      hperm.length_eq
    have hnot1 : ¬ ((top :: rest).filter
        (fun x => x.totalScore = top.totalScore)).length = 1 := by omega
    obtain ⟨t0, t1, rest2, hsort2⟩ :
        ∃ t0 t1 rest2, List.insertionSort rowsDescOrder
          ((top :: rest).filter (fun x => x.totalScore = top.totalScore))
          = t0 :: t1 :: rest2 := by
      have hl2 := List.length_insertionSort rowsDescOrder
        ((top :: rest).filter (fun x => x.totalScore = top.totalScore))
      cases hs2 : List.insertionSort rowsDescOrder
          ((top :: rest).filter (fun x => x.totalScore = top.totalScore)) with
      | nil =>
        rw [hs2] at hl2
        simp only [List.length_nil] at hl2
        omega
      | cons a b =>
        cases b with
        | nil =>
          rw [hs2] at hl2
          simp only [List.length_cons, List.length_nil] at hl2
          omega
        | cons a2 b2 => exact ⟨a, a2, b2, rfl⟩
    have hpermT2 : (t0 :: t1 :: rest2).Perm (scoreTied s M) := by
      refine List.Perm.trans ?_ hperm
      rw [← hsort2]
      exact List.perm_insertionSort _ _
    have ht0mem : t0 ∈ scoreTied s M := hpermT2.mem_iff.mp (by simp)
    have ht1mem : t1 ∈ scoreTied s M := hpermT2.mem_iff.mp (by simp)
    have ht0le : t0.horizontalRows ≤ R := by
      have := List.le_maximum_of_mem
        (List.mem_map_of_mem (fun x => x.horizontalRows) ht0mem) hR
      exact_mod_cast this
    obtain ⟨tr, htrmem, htrval⟩ := List.mem_map.mp (List.maximum_mem hR)
    have ht0ge : R ≤ t0.horizontalRows := by
      rw [← htrval]
      refine sortedRows_head_ge _ t0 (t1 :: rest2) hsort2 tr ?_
      exact hperm.mem_iff.mpr htrmem
    have ht0R : t0.horizontalRows = R := le_antisymm ht0le ht0ge
    have ht1le : t1.horizontalRows ≤ t0.horizontalRows := by
      have hs2 := List.sorted_insertionSort rowsDescOrder
        ((top :: rest).filter (fun x => x.totalScore = top.totalScore))
      rw [hsort2] at hs2
      exact List.rel_of_sorted_cons hs2 t1 (by simp)
    have hfperm : ((t0 :: t1 :: rest2).filter
        (fun x => x.horizontalRows = R)).length
        = ((scoreTied s M).filter (fun x => x.horizontalRows = R)).length :=
      (hpermT2.filter (fun x => decide (x.horizontalRows = R))).length_eq
    constructor
    · intro hone
      have hstrict : t1.horizontalRows < t0.horizontalRows := by
        by_contra hcon
        have ht1R : t1.horizontalRows = R := by omega
        have : 2 ≤ ((t0 :: t1 :: rest2).filter
            (fun x => x.horizontalRows = R)).length := by
          rw [List.filter_cons_of_pos (by simp [ht0R]),
            List.filter_cons_of_pos (by simp [ht1R])]
          simp
        omega
      refine ⟨t0, ht0mem, ht0R, ?_, ?_⟩ <;>
        · rw [hexe, decideWinner_strict _ top t0 t1 rest rest2 hnot1 hsort2 hstrict]
    · intro htwo
      have hnstrict : ¬ t1.horizontalRows < t0.horizontalRows := by
        by_contra hcon
        have hrest : (t1 :: rest2).filter (fun x => x.horizontalRows = R) = [] := by
          rw [List.filter_eq_nil]
          intro a ha
          have hale : a.horizontalRows ≤ t1.horizontalRows := by
            rcases List.mem_cons.mp ha with he | hm
            · rw [he]
            · exact sortedRows_second_ge _ t0 t1 rest2 hsort2 a hm
          simp
          omega
        have : ((t0 :: t1 :: rest2).filter
            (fun x => x.horizontalRows = R)).length ≤ 1 := by
          rw [List.filter_cons_of_pos (by simp [ht0R]), hrest]
          simp
        omega
      refine ⟨(t0 :: t1 :: rest2).map (fun t => t.playerId), ?_, ?_, ?_⟩
      · rw [hexe, decideWinner_shared _ top t0 t1 rest rest2 hnot1 hsort2 hnstrict]
      · exact hpermT2.map (fun t => t.playerId)
      · rw [hexe, decideWinner_shared _ top t0 t1 rest rest2 hnot1 hsort2 hnstrict]

/-- C2 as stated is false on the code: with three players all totalling 42
and completed-row counts 2, 2, 1, the second comparison is tied between the
two 2-row players, yet the shared victory lists all three score-tied ids —
including "pc", which lost the row comparison. -/
theorem claim_C2_counterexample :
    (executeEndgame sC2).winner = some "pa,pb,pc"
    ∧ (executeEndgame sC2).tieBreaker = some "shared"
    ∧ (calculateEndgameScoring (mkEndPlayer "pc" 40 wallOneRow)).totalScore
        = (calculateEndgameScoring (mkEndPlayer "pa" 38 wallTwoRows)).totalScore
    ∧ (calculateEndgameScoring (mkEndPlayer "pc" 40 wallOneRow)).horizontalRows
        < (calculateEndgameScoring (mkEndPlayer "pa" 38 wallTwoRows)).horizontalRows := by
  exact ⟨by decide, by decide, by decide, by decide⟩

theorem claim_C2_witness :
    (((sC2b.players.map calculateEndgameScoring).map
      (fun x => x.totalScore)).maximum = some 42)
    ∧ 2 ≤ (scoreTied sC2b 42).length
    ∧ (((scoreTied sC2b 42).map (fun x => x.horizontalRows)).maximum = some 2)
    ∧ ((scoreTied sC2b 42).filter (fun x => x.horizontalRows = 2)).length = 1
    ∧ ∃ t, t ∈ scoreTied sC2b 42 ∧ t.horizontalRows = 2
        ∧ (executeEndgame sC2b).winner = some t.playerId
        ∧ (executeEndgame sC2b).tieBreaker = some "horizontal rows" :=
  ⟨by decide, by decide, by decide, by decide,
   ((claim_C2 sC2b 42 (by decide)).2 2 (by decide) (by decide)).1 (by decide)⟩

/-! ## Claim C7 (first center pick claims the starting marker) -/

/-- C7: on a center pick executed while the center still holds the
starting marker — whatever the picked color — the flag is cleared, the
picking player receives the marker, the "starter" token lands on that
player's floor line exactly when it has fewer than 7 entries, and the
player is recorded as next round's starting player.  On any later center
pick of the round none of these fields change.  Stated for the pick stage
of the local `executeMove` (`applyPick`) and for the room's
`executePickup`. -/
theorem claim_C7 :
    (∀ s color target picked s1 p,
      s.centerHasStartingMarker = true →
      s.players.get? s.currentPlayerIndex = some p →
      applyPick s (.centerPick color target) = some (picked, s1) →
      s1.centerHasStartingMarker = false
        ∧ s1.players.get? s.currentPlayerIndex = some
            { p with
              hasStartingMarker := true
              floorLine :=
                if p.floorLine.length < FLOOR_LINE_SIZE then
                  p.floorLine ++ [.starter]
                else p.floorLine }
        ∧ s1.startingPlayerIndex = s.currentPlayerIndex)
    ∧ (∀ s color target picked s1,
      s.centerHasStartingMarker = false →
      applyPick s (.centerPick color target) = some (picked, s1) →
      s1.centerHasStartingMarker = false
        ∧ s1.players = s.players
        ∧ s1.startingPlayerIndex = s.startingPlayerIndex)
    ∧ (∀ s pid color s1 i p,
      s.centerHasStartingMarker = true →
      s.players.findIdx? (fun q => q.id = pid) = some i →
      s.players.get? i = some p →
      Room.executePickup s pid .center color = some s1 →
      s1.centerHasStartingMarker = false
        ∧ s1.players.get? i = some
            { p with
              hasStartingMarker := true
              floorLine :=
                if p.floorLine.length < FLOOR_LINE_SIZE then
                  p.floorLine ++ [.starter]
                else p.floorLine }
        ∧ s1.startingPlayerIndex = i)
    ∧ (∀ s pid color s1,
      s.centerHasStartingMarker = false →
      Room.executePickup s pid .center color = some s1 →
      s1.centerHasStartingMarker = false
        ∧ s1.players = s.players
        ∧ s1.startingPlayerIndex = s.startingPlayerIndex) := by
  refine ⟨?_, ?_, ?_, ?_⟩
  · intro s color target picked s1 p hflag hp h
    unfold applyPick at h
    rw [hflag] at h
    dsimp only at h
    rw [hp] at h
    dsimp only at h
    rw [if_pos rfl] at h
    simp only [Option.some.injEq, Prod.mk.injEq] at h
    obtain ⟨h1, h2⟩ := h
    subst h2
    refine ⟨rfl, ?_, rfl⟩
    exact get?_set_same _ _ _ (get?_some_lt hp)
  · intro s color target picked s1 hflag h
    unfold applyPick at h
    rw [hflag] at h
    dsimp only at h
    rw [if_neg (by simp)] at h
    simp only [Option.some.injEq, Prod.mk.injEq] at h
    obtain ⟨h1, h2⟩ := h
    subst h2
    exact ⟨rfl, rfl, rfl⟩
  · intro s pid color s1 i p hflag hidx hp h
    unfold Room.executePickup at h
    rw [hidx] at h
    dsimp only at h
    by_cases h1 : i ≠ s.currentPlayerIndex
    · rw [if_pos h1] at h
      simp at h
    · rw [if_neg h1] at h
      by_cases h2 : s.pendingTiles.length > 0
      · rw [if_pos h2] at h
        simp at h
      · rw [if_neg h2] at h
        by_cases h3 : s.centerPool.length = 0
        · rw [if_pos h3] at h
          simp at h
        · rw [if_neg h3] at h
          by_cases h4 : s.centerPool.contains color
          · rw [if_neg (not_not_intro h4)] at h
            rw [hflag] at h
            rw [if_pos rfl] at h
            rw [hp] at h
            dsimp only at h
            simp only [Option.some.injEq] at h
            subst h
            refine ⟨rfl, ?_, rfl⟩
            exact get?_set_same _ _ _ (get?_some_lt hp)
          · rw [if_pos h4] at h
            simp at h
  · intro s pid color s1 hflag h
    unfold Room.executePickup at h
    cases hidx : s.players.findIdx? (fun q => q.id = pid) with
    | none =>
      rw [hidx] at h
      simp at h
    | some i =>
      rw [hidx] at h
      dsimp only at h
      by_cases h1 : i ≠ s.currentPlayerIndex
      · rw [if_pos h1] at h
        simp at h
      · rw [if_neg h1] at h
        by_cases h2 : s.pendingTiles.length > 0
        · rw [if_pos h2] at h
          simp at h
        · rw [if_neg h2] at h
          by_cases h3 : s.centerPool.length = 0
          · rw [if_pos h3] at h
            simp at h
          · rw [if_neg h3] at h
            by_cases h4 : s.centerPool.contains color
            · rw [if_neg (not_not_intro h4)] at h
              rw [hflag] at h
              rw [if_neg (by simp)] at h
              simp only [Option.some.injEq] at h
              subst h
              exact ⟨rfl, rfl, rfl⟩
            · rw [if_pos h4] at h
              simp at h

/-! ## Claim C8 (rejected moves leave state unchanged) -/

/-- C8: a move that `validateMove` rejects makes `executeMove` throw
(`none`) with no state change (the embedding is pure, and in the source
every rejection precedes all mutation); a rejected networked pickup or
placement returns `null` (`none`) — wrong turn or unknown sender, pending
pick outstanding, empty or color-less source, invalid target — and the
handler then keeps the state, broadcasts nothing and sends only an error
reply. -/
theorem claim_C8 :
    (∀ s m rng r, validateMove s m = some r → r.valid = false →
      executeMove rng s m = none)
    ∧ (∀ s pid src c, s.players.findIdx? (fun q => q.id = pid) = none →
      Room.executePickup s pid src c = none)
    ∧ (∀ s pid src c i, s.players.findIdx? (fun q => q.id = pid) = some i →
      i ≠ s.currentPlayerIndex → Room.executePickup s pid src c = none)
    ∧ (∀ s pid src c, s.pendingTiles ≠ [] → Room.executePickup s pid src c = none)
    ∧ (∀ s pid fid c, pickFactory s.factories fid c = none →
      Room.executePickup s pid (.factory fid) c = none)
    ∧ (∀ s pid c, s.centerPool = [] → Room.executePickup s pid .center c = none)
    ∧ (∀ s pid c, ¬ s.centerPool.contains c →
      Room.executePickup s pid .center c = none)
    ∧ (∀ rng s pid t, s.pendingPlayerId ≠ some pid →
      Room.executePlacement rng s pid t = none)
    ∧ (∀ rng s pid t, s.pendingTiles = [] →
      Room.executePlacement rng s pid t = none)
    ∧ (∀ rng s pid t, s.pendingColor = none →
      Room.executePlacement rng s pid t = none)
    ∧ (∀ rng s pid t, ¬ (0 ≤ t ∧ t < 5) → t ≠ -1 →
      Room.executePlacement rng s pid t = none)
    ∧ (∀ rng s pid t i p pc, s.pendingColor = some pc →
      s.players.findIdx? (fun q => q.id = pid) = some i →
      s.players.get? i = some p →
      0 ≤ t → t < 5 → ¬ Room.canPlaceOnPatternLine p t.toNat pc →
      Room.executePlacement rng s pid t = none)
    ∧ (∀ s pid src c, Room.executePickup s pid src c = none →
      Room.handlePickupState s pid src c = (s, false, some "Invalid pickup"))
    ∧ (∀ rng s pid t, Room.executePlacement rng s pid t = none →
      Room.handlePlaceState rng s pid t = (s, false, some "Invalid placement")) := by
  refine ⟨?_, ?_, ?_, ?_, ?_, ?_, ?_, ?_, ?_, ?_, ?_, ?_, ?_, ?_⟩
  · intro s m rng r hval hvalid
    unfold executeMove
    rw [hval]
    dsimp only
    rw [hvalid]
    rfl
  · intro s pid src c hidx
    unfold Room.executePickup
    rw [hidx]
  · intro s pid src c i hidx hne
    unfold Room.executePickup
    rw [hidx]
    dsimp only
    rw [if_pos hne]
  · intro s pid src c hpend
    unfold Room.executePickup
    cases hidx : s.players.findIdx? (fun q => q.id = pid) with
    | none => rfl
    | some i =>
      try dsimp only
      by_cases h1 : i ≠ s.currentPlayerIndex
      · rw [if_pos h1]
      · rw [if_neg h1, if_pos (by
          cases hp : s.pendingTiles with
          | nil => exact absurd hp hpend
          | cons a b => simp [hp])]
  · intro s pid fid c hpf
    unfold Room.executePickup
    cases hidx : s.players.findIdx? (fun q => q.id = pid) with
    | none => rfl
    | some i =>
      try dsimp only
      by_cases h1 : i ≠ s.currentPlayerIndex
      · rw [if_pos h1]
      · rw [if_neg h1]
        by_cases h2 : s.pendingTiles.length > 0
        · rw [if_pos h2]
        · rw [if_neg h2]
          try dsimp only
          rw [hpf]
          rfl
  · intro s pid c hcp
    unfold Room.executePickup
    cases hidx : s.players.findIdx? (fun q => q.id = pid) with
    | none => rfl
    | some i =>
      try dsimp only
      by_cases h1 : i ≠ s.currentPlayerIndex
      · rw [if_pos h1]
      · rw [if_neg h1]
        by_cases h2 : s.pendingTiles.length > 0
        · rw [if_pos h2]
        · rw [if_neg h2]
          try dsimp only
          rw [if_pos (by simp [hcp])]
  · intro s pid c hcc
    unfold Room.executePickup
    cases hidx : s.players.findIdx? (fun q => q.id = pid) with
    | none => rfl
    | some i =>
      try dsimp only
      by_cases h1 : i ≠ s.currentPlayerIndex
      · rw [if_pos h1]
      · rw [if_neg h1]
        by_cases h2 : s.pendingTiles.length > 0
        · rw [if_pos h2]
        · rw [if_neg h2]
          try dsimp only
          by_cases h3 : s.centerPool.length = 0
          · rw [if_pos h3]
          · rw [if_neg h3, if_pos hcc]
  · intro rng s pid t hpp
    unfold Room.executePlacement
    rw [if_pos hpp]
  · intro rng s pid t hpt
    unfold Room.executePlacement
    by_cases h1 : s.pendingPlayerId ≠ some pid
    · rw [if_pos h1]
    · rw [if_neg h1, if_pos (by rw [hpt]; rfl)]
  · intro rng s pid t hpc
    unfold Room.executePlacement
    by_cases h1 : s.pendingPlayerId ≠ some pid
    · rw [if_pos h1]
    · rw [if_neg h1]
      by_cases h2 : s.pendingTiles.length = 0
      · rw [if_pos h2]
      · rw [if_neg h2, hpc]
  · intro rng s pid t hrange hne
    unfold Room.executePlacement
    by_cases h1 : s.pendingPlayerId ≠ some pid
    · rw [if_pos h1]
    · rw [if_neg h1]
      by_cases h2 : s.pendingTiles.length = 0
      · rw [if_pos h2]
      · rw [if_neg h2]
        cases hpc : s.pendingColor with
        | none => rfl
        | some pc =>
          dsimp only
          cases hidx : s.players.findIdx? (fun q => q.id = pid) with
          | none => rfl
          | some i =>
            dsimp only
            cases hp : s.players.get? i with
            | none => rfl
            | some p =>
              dsimp only
              rw [if_neg hrange, if_neg hne]
  · intro rng s pid t i p pc hpc hidx hp h0 h5 hcp
    unfold Room.executePlacement
    by_cases h1 : s.pendingPlayerId ≠ some pid
    · rw [if_pos h1]
    · rw [if_neg h1]
      by_cases h2 : s.pendingTiles.length = 0
      · rw [if_pos h2]
      · rw [if_neg h2, hpc]
        dsimp only
        rw [hidx]
        dsimp only
        rw [hp]
        dsimp only
        rw [if_pos ⟨h0, h5⟩, if_pos hcp]
  · intro s pid src c h
    unfold Room.handlePickupState
    rw [h]
  · intro rng s pid t h
    unfold Room.handlePlaceState
    rw [h]

/-! ## Claim C6 (phase transition after a fully placed pick) -/

theorem applyPick_preserves (s : GameState) (m : GameMove)
    (picked : List TileColor) (s1 : GameState)
    (h : applyPick s m = some (picked, s1)) :
    s1.currentPlayerIndex = s.currentPlayerIndex ∧ s1.phase = s.phase
      ∧ s1.players.length = s.players.length
      ∧ s1.useVariantWall = s.useVariantWall := by
  cases m with
  | factoryPick fid color target =>
    unfold applyPick at h
    dsimp only at h
    cases hpf : pickFactory s.factories fid color with
    | none =>
      rw [hpf] at h
      simp at h
    | some r =>
      rw [hpf] at h
      simp only [Option.map_some', Option.some.injEq, Prod.mk.injEq] at h
      obtain ⟨h1, h2⟩ := h
      subst h2
      exact ⟨rfl, rfl, rfl, rfl⟩
  | centerPick color target =>
    unfold applyPick at h
    dsimp only at h
    by_cases hflag : s.centerHasStartingMarker
    · rw [hflag] at h
      try dsimp only at h
      rw [if_pos rfl] at h
      cases hp : s.players.get? s.currentPlayerIndex with
      | none =>
        rw [hp] at h
        simp at h
      | some p =>
        rw [hp] at h
        dsimp only at h
        simp only [Option.some.injEq, Prod.mk.injEq] at h
        obtain ⟨h1, h2⟩ := h
        subst h2
        exact ⟨rfl, rfl, List.length_set _ _ _, rfl⟩
    · rw [Bool.not_eq_true] at hflag
      rw [hflag] at h
      try dsimp only at h
      rw [if_neg (by simp)] at h
      simp only [Option.some.injEq, Prod.mk.injEq] at h
      obtain ⟨h1, h2⟩ := h
      subst h2
      exact ⟨rfl, rfl, rfl, rfl⟩

theorem pickPlaceState_preserves (s : GameState) (m : GameMove) (t : GameState)
    (h : pickPlaceState s m = some t) :
    t.currentPlayerIndex = s.currentPlayerIndex ∧ t.phase = s.phase
      ∧ t.players.length = s.players.length := by
  unfold pickPlaceState at h
  cases hap : applyPick s m with
  | none =>
    rw [hap] at h
    simp at h
  | some pr =>
    rw [hap] at h
    dsimp only at h
    obtain ⟨hidx, hphase, hlen, hvar⟩ := applyPick_preserves s m pr.1 pr.2 (by
      rw [hap])
    cases hp : pr.2.players.get? pr.2.currentPlayerIndex with
    | none =>
      rw [hp] at h
      simp at h
    | some p =>
      rw [hp] at h
      dsimp only at h
      by_cases hr : 0 ≤ m.targetLine ∧ m.targetLine < 5
      · rw [if_pos hr] at h
        cases hln : p.patternLines.get? m.targetLine.toNat with
        | none =>
          rw [hln] at h
          simp at h
        | some ln =>
          rw [hln] at h
          dsimp only at h
          simp only [Option.some.injEq] at h
          subst h
          exact ⟨hidx, hphase, by rw [List.length_set]; exact hlen⟩
      · rw [if_neg hr] at h
        simp only [Option.some.injEq] at h
        subst h
        exact ⟨hidx, hphase, by rw [List.length_set]; exact hlen⟩

/-- C6: in both engines, once a pick's tiles are fully placed, if every
factory and the center pool are empty the game enters the wall-tiling pass
(the local engine also sets the `wallTiling` phase value before running
it); otherwise the phase is unchanged (it stays `factoryOffer`, the phase
validation requires) and the turn advances cyclically to the next
player. -/
theorem claim_C6 :
    (∀ rng s m r t, validateMove s m = some r → r.valid = true →
      pickPlaceState s m = some t →
      (allFactoriesEmpty t.factories ∧ t.centerPool.length = 0 →
        executeMove rng s m
          = some (executeWallTiling rng { t with phase := .wallTiling }))
      ∧ (¬ (allFactoriesEmpty t.factories ∧ t.centerPool.length = 0) →
        ∃ u, executeMove rng s m = some u
          ∧ u.phase = s.phase
          ∧ u.currentPlayerIndex = (s.currentPlayerIndex + 1) % s.players.length))
    ∧ (∀ rng s1,
      (allFactoriesEmpty s1.factories ∧ s1.centerPool.length = 0 →
        Room.placeResolve rng s1 []
          = some (Room.executeWallTiling rng
              { s1 with
                pendingTiles := []
                pendingColor := none
                pendingPlayerId := none }))
      ∧ (¬ (allFactoriesEmpty s1.factories ∧ s1.centerPool.length = 0) →
        ∃ u, Room.placeResolve rng s1 [] = some u
          ∧ u.phase = s1.phase
          ∧ u.pendingTiles = []
          ∧ u.currentPlayerIndex = (s1.currentPlayerIndex + 1) % s1.players.length)) := by
  constructor
  · intro rng s m r t hval hvalid ht
    obtain ⟨hidx, hphase, hlen⟩ := pickPlaceState_preserves s m t ht
    have hexec : executeMove rng s m
        = (if allFactoriesEmpty t.factories ∧ t.centerPool.length = 0 then
            some (executeWallTiling rng { t with phase := .wallTiling })
          else
            some { t with
              currentPlayerIndex := (t.currentPlayerIndex + 1) % t.players.length }) := by
      unfold executeMove
      rw [hval]
      dsimp only
      rw [hvalid]
      rw [ht]
      rw [if_pos rfl]
    constructor
    · intro hempty
      rw [hexec, if_pos hempty]
    · intro hnempty
      rw [hexec, if_neg hnempty]
      refine ⟨_, rfl, hphase, ?_⟩
      rw [hidx, hlen]
  · intro rng s1
    constructor
    · intro hempty
      unfold Room.placeResolve
      rw [if_neg (by simp)]
      try dsimp only
      rw [if_pos ⟨hempty.1, hempty.2⟩]
    · intro hnempty
      unfold Room.placeResolve
      rw [if_neg (by simp)]
      try dsimp only
      rw [if_neg (by exact fun hc => hnempty ⟨hc.1, hc.2⟩)]
      exact ⟨_, rfl, rfl, rfl, rfl⟩

theorem claim_C6_witness :
    validateMove gInit mvW = some ⟨true, none⟩
    ∧ pickPlaceState gInit mvW = some c6t
    ∧ ¬ (allFactoriesEmpty c6t.factories ∧ c6t.centerPool.length = 0)
    ∧ (∃ u, executeMove rngZero gInit mvW = some u
        ∧ u.phase = gInit.phase
        ∧ u.currentPlayerIndex
            = (gInit.currentPlayerIndex + 1) % gInit.players.length)
    ∧ ¬ (allFactoriesEmpty rInit.factories ∧ rInit.centerPool.length = 0)
    ∧ (∃ u, Room.placeResolve rngZero rInit [] = some u
        ∧ u.phase = rInit.phase
        ∧ u.pendingTiles = []
        ∧ u.currentPlayerIndex
            = (rInit.currentPlayerIndex + 1) % rInit.players.length) :=
  ⟨by decide, by decide, by decide,
   ((claim_C6.1 rngZero gInit mvW ⟨true, none⟩ c6t (by decide) rfl
      (by decide)).2 (by decide)),
   by decide,
   ((claim_C6.2 rngZero rInit).2 (by decide))⟩

theorem claim_C7_witness :
    gInit.centerHasStartingMarker = true
    ∧ gInit.players.get? gInit.currentPlayerIndex
        = some (createPlayer "player-0" "alice")
    ∧ applyPick gInit (.centerPick .blue (-1)) = some c7res
    ∧ c7res.2.centerHasStartingMarker = false
    ∧ c7res.2.players.get? gInit.currentPlayerIndex
        = some { createPlayer "player-0" "alice" with
            hasStartingMarker := true
            floorLine :=
              if (createPlayer "player-0" "alice").floorLine.length
                  < FLOOR_LINE_SIZE then
                (createPlayer "player-0" "alice").floorLine ++ [.starter]
              else (createPlayer "player-0" "alice").floorLine }
    ∧ c7res.2.startingPlayerIndex = gInit.currentPlayerIndex := by
  refine ⟨by decide, by decide, by decide, ?_⟩
  have h := claim_C7.1 gInit .blue (-1) c7res.1 c7res.2
    (createPlayer "player-0" "alice") (by decide) (by decide) (by decide)
  exact ⟨h.1, h.2.1, h.2.2⟩

theorem claim_C8_witness :
    validateMove gInit (.factoryPick 0 gInitColor 7) = some ⟨false, some "Invalid target line"⟩
    ∧ executeMove rngZero gInit (.factoryPick 0 gInitColor 7) = none
    ∧ rInit.players.findIdx? (fun q => q.id = "p1") = some 1
    ∧ (1 : Nat) ≠ rInit.currentPlayerIndex
    ∧ Room.executePickup rInit "p1" (.factory 0) gInitColor = none
    ∧ Room.handlePickupState rInit "p1" (.factory 0) gInitColor
        = (rInit, false, some "Invalid pickup")
    ∧ rInit.pendingPlayerId ≠ some "p0"
    ∧ Room.executePlacement rngZero rInit "p0" 0 = none
    ∧ Room.handlePlaceState rngZero rInit "p0" 0
        = (rInit, false, some "Invalid placement") := by
  refine ⟨by decide, ?_, by decide, by decide, ?_, ?_, by decide, ?_, ?_⟩
  · exact claim_C8.1 gInit (.factoryPick 0 gInitColor 7) rngZero
      ⟨false, some "Invalid target line"⟩ (by decide) rfl
  · exact claim_C8.2.2.1 rInit "p1" (.factory 0) gInitColor 1 (by decide) (by decide)
  · exact claim_C8.2.2.2.2.2.2.2.2.2.2.2.2.1 rInit "p1" (.factory 0) gInitColor
      (claim_C8.2.2.1 rInit "p1" (.factory 0) gInitColor 1 (by decide) (by decide))
  · exact claim_C8.2.2.2.2.2.2.2.1 rngZero rInit "p0" 0 (by decide)
  · exact claim_C8.2.2.2.2.2.2.2.2.2.2.2.2.2 rngZero rInit "p0" 0
      (claim_C8.2.2.2.2.2.2.2.1 rngZero rInit "p0" 0 (by decide))

/-! ## Claim C10 (the networked session never applies the gray-wall variant) -/

theorem finishLine_wall (row : Nat) (ln : PatternLine) (lc : TileColor)
    (p : PlayerState) (dl : List TileColor) :
    (finishLine row ln lc p dl).1.wall = p.wall := rfl

theorem wallMatchesTemplate_set (w : Wall) (row : Nat) (lc : TileColor)
    (hrow : row < 5) (hw : wallMatchesTemplate w) :
    wallMatchesTemplate
      (setWallCell w row (getWallColumnForColor row lc) (some lc)) := by
  intro r c col hcell
  by_cases hr : r = row
  · subst hr
    by_cases hc : c = getWallColumnForColor r lc
    · subst hc
      cases hget : w.get? r with
      | none =>
        unfold setWallCell at hcell
        rw [hget] at hcell
        exact hw _ _ _ hcell
      | some rowl =>
        by_cases hlen : getWallColumnForColor r lc < rowl.length
        · rw [wallCell_set_same w r _ _ rowl hget hlen] at hcell
          cases hcell
          exact wallColumn_template r hrow lc
        · have hset : rowl.set (getWallColumnForColor r lc) (some lc) = rowl :=
            List.set_eq_of_length_le (by omega)
          unfold setWallCell at hcell
          rw [hget] at hcell
          dsimp only at hcell
          rw [hset] at hcell
          rw [wallCell_eq_row _ _ _ rowl (get?_set_same _ _ _ (get?_some_lt hget))] at hcell
          rw [← wallCell_eq_row w r _ rowl hget] at hcell
          exact hw _ _ _ hcell
    · rw [wallCell_set_ne_col _ _ _ _ _ hc] at hcell
      exact hw _ _ _ hcell
  · rw [wallCell_set_ne_row _ _ _ _ _ _ hr] at hcell
    exact hw _ _ _ hcell

theorem applyFloorPenalty_wall (p : PlayerState) (dl : List TileColor) :
    (applyFloorPenalty p dl).1.wall = p.wall := by
  unfold applyFloorPenalty
  split
  · rfl
  · rfl

theorem tileRow_std_wall (row : Nat) (p : PlayerState) (dl : List TileColor)
    (hrow : row < 5) (hw : wallMatchesTemplate p.wall) :
    wallMatchesTemplate (tileRow false row p dl).1.wall := by
  unfold tileRow
  cases hln : p.patternLines.get? row with
  | none => exact hw
  | some ln =>
    dsimp only
    cases hc : ln.color with
    | none => exact hw
    | some lc =>
      dsimp only
      by_cases hcomp : ln.tiles.length = ln.size
      · rw [if_pos hcomp, if_pos rfl]
        by_cases hcell : wallCell p.wall row (getWallColumnForColor row lc) = none
        · rw [if_pos hcell]
          rw [finishLine_wall]
          exact wallMatchesTemplate_set p.wall row lc hrow hw
        · rw [if_neg hcell]
          rw [finishLine_wall]
          exact hw
      · rw [if_neg hcomp]
        exact hw

theorem clearIncomplete_wall (row : Nat) (p : PlayerState) (dl : List TileColor) :
    (Room.clearIncomplete row p dl).1.wall = p.wall := by
  unfold Room.clearIncomplete
  cases p.patternLines.get? row with
  | none => rfl
  | some ln =>
    dsimp only
    by_cases h : ln.tiles.length > 0
    · rw [if_pos h]
    · rw [if_neg h]

theorem tilePlayerRoom_wall (p : PlayerState) (dl : List TileColor)
    (hw : wallMatchesTemplate p.wall) :
    wallMatchesTemplate (Room.tilePlayerRoom p dl).1.wall := by
  unfold Room.tilePlayerRoom
  have step : ∀ rows : List Nat, (∀ r ∈ rows, r < 5) →
      ∀ pr : PlayerState × List TileColor, wallMatchesTemplate pr.1.wall →
      wallMatchesTemplate
        (rows.foldl (fun pr row => Room.tileRowRoom row pr.1 pr.2) pr).1.wall := by
    intro rows
    induction rows with
    | nil => intro _ pr hpr; exact hpr
    | cons r rs ih =>
      intro hmem pr hpr
      rw [List.foldl_cons]
      refine ih (fun x hx => hmem x (by simp [hx])) _ ?_
      unfold Room.tileRowRoom
      rw [clearIncomplete_wall]
      exact tileRow_std_wall r pr.1 pr.2 (hmem r (by simp)) hpr
  have hfold := step [0, 1, 2, 3, 4] (by decide) (p, dl) hw
  dsimp only
  rw [applyFloorPenalty_wall]
  exact hfold

theorem tileAllPlayersRoom_wall (ps : List PlayerState) (dl : List TileColor)
    (hw : ∀ p ∈ ps, wallMatchesTemplate p.wall) :
    ∀ p2 ∈ (Room.tileAllPlayersRoom ps dl).1, wallMatchesTemplate p2.wall := by
  induction ps generalizing dl with
  | nil =>
    intro p2 hp2
    simp [Room.tileAllPlayersRoom] at hp2
  | cons p rest ih =>
    intro p2 hp2
    unfold Room.tileAllPlayersRoom at hp2
    dsimp only at hp2
    rcases List.mem_cons.mp hp2 with he | hm
    · rw [he]
      exact tilePlayerRoom_wall p dl (hw p (by simp))
    · exact ih _ (fun q hq => hw q (by simp [hq])) p2 hm

/-- C10: the networked `canPlaceOnPatternLine` has no variant parameter
and coincides with the local check at `useVariant = false`, and the room's
wall tiling only ever fills cells at the standard template position — it
preserves agreement of every filled wall cell with `WALL_PATTERN`.  The
gray-variant placement policy is unreachable in the networked path. -/
theorem claim_C10 :
    (∀ p i c, Room.canPlaceOnPatternLine p i c = canPlaceOnPatternLine p i c false)
    ∧ (∀ rng s, (∀ p ∈ s.players, wallMatchesTemplate p.wall) →
        ∀ p2 ∈ (Room.executeWallTiling rng s).players,
          wallMatchesTemplate p2.wall) := by
  constructor
  · intro p i c
    unfold Room.canPlaceOnPatternLine canPlaceOnPatternLine
    cases p.patternLines.get? i with
    | none => rfl
    | some line =>
      dsimp only
      by_cases h1 : line.size ≤ line.tiles.length
      · rw [if_pos h1, if_pos h1]
      · rw [if_neg h1, if_neg h1]
        by_cases h2 : line.color.isSome ∧ line.color ≠ some c
        · rw [if_pos h2, if_pos h2]
        · rw [if_neg h2, if_neg h2, if_pos rfl]
  · intro rng s hws p2 hp2
    unfold Room.executeWallTiling at hp2
    dsimp only at hp2
    have htiled := tileAllPlayersRoom_wall s.players s.discardLid hws
    by_cases hend : (Room.tileAllPlayersRoom s.players s.discardLid).1.any
        (fun p => hasCompletedHorizontalRow p.wall)
    · rw [if_pos hend] at hp2
      unfold Room.executeEndgame at hp2
      dsimp only at hp2
      obtain ⟨q, hq, hq2⟩ := List.mem_map.mp hp2
      rw [← hq2]
      exact htiled q hq
    · rw [if_neg hend] at hp2
      unfold Room.prepareNextRound at hp2
      dsimp only at hp2
      obtain ⟨q, hq, hq2⟩ := List.mem_map.mp hp2
      rw [← hq2]
      exact htiled q hq

theorem wallCell_empty (r c : Nat) : wallCell createEmptyWall r c = none := by
  unfold wallCell createEmptyWall
  rw [List.get?_eq_getElem?, List.getElem?_replicate]
  by_cases hr : r < 5
  · rw [if_pos hr, Option.some_bind, List.get?_eq_getElem?, List.getElem?_replicate]
    by_cases hc : c < 5
    · rw [if_pos hc]
      rfl
    · rw [if_neg hc]
      rfl
  · rw [if_neg hr, Option.none_bind]
    rfl

theorem wallMatchesTemplate_empty : wallMatchesTemplate createEmptyWall := by
  intro r c col hcell
  rw [wallCell_empty] at hcell
  cases hcell

theorem claim_C10_witness :
    (Room.canPlaceOnPatternLine (createPlayer "a" "alice") 0 .blue
      = canPlaceOnPatternLine (createPlayer "a" "alice") 0 .blue false)
    ∧ (∀ p2 ∈ (Room.executeWallTiling rngZero rInit).players,
        wallMatchesTemplate p2.wall) := by
  refine ⟨claim_C10.1 _ _ _, claim_C10.2 rngZero rInit ?_⟩
  have hwalls : ∀ p ∈ rInit.players, p.wall = createEmptyWall := by decide
  intro p hp
  rw [hwalls p hp]
  exact wallMatchesTemplate_empty

/-! ## Claim C9 (wall-tiling divergence on incomplete pattern lines) -/

theorem applyFloorPenalty_lines (p : PlayerState) (dl : List TileColor) :
    (applyFloorPenalty p dl).1.patternLines = p.patternLines := by
  unfold applyFloorPenalty
  split
  · rfl
  · rfl

theorem tileRow_get?_other (uv : Bool) (row r : Nat) (p : PlayerState)
    (dl : List TileColor) (hne : row ≠ r) :
    (tileRow uv row p dl).1.patternLines.get? r = p.patternLines.get? r := by
  unfold tileRow
  cases hln : p.patternLines.get? row with
  | none => rfl
  | some ln =>
    dsimp only
    cases hc : ln.color with
    | none => rfl
    | some lc =>
      dsimp only
      by_cases hcomp : ln.tiles.length = ln.size
      · rw [if_pos hcomp]
        by_cases huv : uv = false
        · rw [if_pos huv]
          by_cases hcell : wallCell p.wall row (getWallColumnForColor row lc) = none
          · rw [if_pos hcell]
            unfold finishLine
            exact get?_set_other _ _ _ _ hne
          · rw [if_neg hcell]
            unfold finishLine
            exact get?_set_other _ _ _ _ hne
        · rw [if_neg huv]
          cases hf : findVariantCol p.wall row lc with
          | some col =>
            dsimp only
            unfold finishLine
            exact get?_set_other _ _ _ _ hne
          | none =>
            dsimp only
            exact get?_set_other _ _ _ _ hne
      · rw [if_neg hcomp]

theorem tileRow_incomplete (uv : Bool) (row r : Nat) (p : PlayerState)
    (dl : List TileColor) (ln : PatternLine)
    (hget : p.patternLines.get? r = some ln)
    (hinc : ln.tiles.length ≠ ln.size) :
    (tileRow uv row p dl).1.patternLines.get? r = some ln := by
  by_cases hr : row = r
  · subst hr
    unfold tileRow
    rw [hget]
    dsimp only
    cases hc : ln.color with
    | none => exact hget
    | some lc =>
      dsimp only
      rw [if_neg hinc]
      exact hget
  · rw [tileRow_get?_other uv row r p dl hr]
    exact hget

theorem foldRows_incomplete (uv : Bool) (rows : List Nat) (r : Nat)
    (ln : PatternLine) (hinc : ln.tiles.length ≠ ln.size) :
    ∀ pr : PlayerState × List TileColor,
      pr.1.patternLines.get? r = some ln →
      ((rows.foldl (fun pr row => tileRow uv row pr.1 pr.2) pr).1.patternLines.get? r
        = some ln) := by
  induction rows with
  | nil => intro pr h; exact h
  | cons a rest ih =>
    intro pr h
    rw [List.foldl_cons]
    exact ih _ (tileRow_incomplete uv a r pr.1 pr.2 ln h hinc)

theorem tilePlayer_incomplete (uv : Bool) (p : PlayerState)
    (dl : List TileColor) (r : Nat) (ln : PatternLine)
    (hget : p.patternLines.get? r = some ln)
    (hinc : ln.tiles.length ≠ ln.size) :
    (tilePlayer uv p dl).1.patternLines.get? r = some ln := by
  unfold tilePlayer
  dsimp only
  rw [applyFloorPenalty_lines]
  exact foldRows_incomplete uv [0, 1, 2, 3, 4] r ln hinc (p, dl) hget

theorem tileAllPlayers_get? (uv : Bool) :
    ∀ (ps : List PlayerState) (dl : List TileColor) (i : Nat) (p : PlayerState),
      ps.get? i = some p →
      ∃ d, (tileAllPlayers uv ps dl).1.get? i = some (tilePlayer uv p d).1 := by
  intro ps
  induction ps with
  | nil =>
    intro dl i p h
    rw [List.get?_nil] at h
    cases h
  | cons q rest ih =>
    intro dl i p h
    cases i with
    | zero =>
      rw [List.get?_cons_zero] at h
      cases h
      exact ⟨dl, rfl⟩
    | succ j =>
      rw [List.get?_cons_succ] at h
      obtain ⟨d, hd⟩ := ih _ j p h
      exact ⟨d, hd⟩

theorem setScoreById_lines :
    ∀ (ps : List PlayerState) (pid : String) (sc : Int) (i : Nat) (p : PlayerState),
      ps.get? i = some p →
      ∃ p2, (setScoreById ps pid sc).get? i = some p2 ∧
        p2.patternLines = p.patternLines := by
  intro ps
  induction ps with
  | nil =>
    intro pid sc i p h
    rw [List.get?_nil] at h
    cases h
  | cons q rest ih =>
    intro pid sc i p h
    unfold setScoreById
    by_cases hid : q.id = pid
    · rw [if_pos hid]
      cases i with
      | zero =>
        rw [List.get?_cons_zero] at h
        cases h
        exact ⟨_, rfl, rfl⟩
      | succ j =>
        rw [List.get?_cons_succ] at h
        exact ⟨p, by rw [List.get?_cons_succ]; exact h, rfl⟩
    · rw [if_neg hid]
      cases i with
      | zero =>
        rw [List.get?_cons_zero] at h
        cases h
        exact ⟨q, rfl, rfl⟩
      | succ j =>
        rw [List.get?_cons_succ] at h
        obtain ⟨p2, h2, h3⟩ := ih pid sc j p h
        exact ⟨p2, by rw [List.get?_cons_succ]; exact h2, h3⟩

theorem applyScorings_lines :
    ∀ (scs : List EndgameScoring) (ps : List PlayerState) (i : Nat) (p : PlayerState),
      ps.get? i = some p →
      ∃ p2, (applyScorings scs ps).get? i = some p2 ∧
        p2.patternLines = p.patternLines := by
  intro scs
  induction scs with
  | nil => intro ps i p h; exact ⟨p, h, rfl⟩
  | cons sc rest ih =>
    intro ps i p h
    obtain ⟨p1, h1, h2⟩ := setScoreById_lines ps sc.playerId sc.totalScore i p h
    obtain ⟨p2, h3, h4⟩ := ih _ i p1 h1
    exact ⟨p2, h3, by rw [h4, h2]⟩

theorem decideWinner_players (s1 : GameState) (sorted : List EndgameScoring) :
    (decideWinner s1 sorted).players = s1.players := by
  unfold decideWinner
  split
  · rfl
  · split
    · rfl
    · split
      · split
        · rfl
        · rfl
      · rfl

theorem localWallTiling_incomplete (rng : Nat → Nat) (s : GameState)
    (i : Nat) (p : PlayerState) (hp : s.players.get? i = some p) :
    ∃ p2, (executeWallTiling rng s).players.get? i = some p2 ∧
      ∀ r ln, p.patternLines.get? r = some ln →
        ln.tiles.length ≠ ln.size → p2.patternLines.get? r = some ln := by
  obtain ⟨d, hd⟩ := tileAllPlayers_get? s.useVariantWall s.players s.discardLid i p hp
  unfold executeWallTiling
  dsimp only
  by_cases hend : ({ s with
      players := (tileAllPlayers s.useVariantWall s.players s.discardLid).1,
      discardLid := (tileAllPlayers s.useVariantWall s.players s.discardLid).2
      : GameState }).players.any (fun p => hasCompletedHorizontalRow p.wall)
  · rw [if_pos hend]
    unfold executeEndgame
    rw [decideWinner_players]
    dsimp only at hd ⊢
    obtain ⟨p2, h2, h3⟩ := applyScorings_lines _ _ i _ hd
    refine ⟨p2, h2, fun r ln hget hinc => ?_⟩
    rw [h3]
    exact tilePlayer_incomplete s.useVariantWall p d r ln hget hinc
  · rw [if_neg hend]
    unfold prepareNextRound
    dsimp only at hd ⊢
    refine ⟨_, by rw [List.get?_map, hd]; rfl, fun r ln hget hinc => ?_⟩
    dsimp only
    exact tilePlayer_incomplete s.useVariantWall p d r ln hget hinc

theorem tileRow_len (uv : Bool) (row : Nat) (p : PlayerState)
    (dl : List TileColor) :
    (tileRow uv row p dl).1.patternLines.length = p.patternLines.length := by
  unfold tileRow
  cases hln : p.patternLines.get? row with
  | none => rfl
  | some ln =>
    dsimp only
    cases hc : ln.color with
    | none => rfl
    | some lc =>
      dsimp only
      by_cases hcomp : ln.tiles.length = ln.size
      · rw [if_pos hcomp]
        by_cases huv : uv = false
        · rw [if_pos huv]
          by_cases hcell : wallCell p.wall row (getWallColumnForColor row lc) = none
          · rw [if_pos hcell]
            unfold finishLine
            exact List.length_set _ _ _
          · rw [if_neg hcell]
            unfold finishLine
            exact List.length_set _ _ _
        · rw [if_neg huv]
          cases hf : findVariantCol p.wall row lc with
          | some col =>
            dsimp only
            unfold finishLine
            exact List.length_set _ _ _
          | none =>
            dsimp only
            exact List.length_set _ _ _
      · rw [if_neg hcomp]

theorem clearIncomplete_len (row : Nat) (p : PlayerState) (dl : List TileColor) :
    (Room.clearIncomplete row p dl).1.patternLines.length = p.patternLines.length := by
  unfold Room.clearIncomplete
  cases hln : p.patternLines.get? row with
  | none => rfl
  | some ln =>
    dsimp only
    by_cases hpos : ln.tiles.length > 0
    · rw [if_pos hpos]
      exact List.length_set _ _ _
    · rw [if_neg hpos]

theorem clearIncomplete_get?_other (row r : Nat) (p : PlayerState)
    (dl : List TileColor) (hne : row ≠ r) :
    (Room.clearIncomplete row p dl).1.patternLines.get? r = p.patternLines.get? r := by
  unfold Room.clearIncomplete
  cases hln : p.patternLines.get? row with
  | none => rfl
  | some ln =>
    dsimp only
    by_cases hpos : ln.tiles.length > 0
    · rw [if_pos hpos]
      exact get?_set_other _ _ _ _ hne
    · rw [if_neg hpos]

theorem tileRowRoom_len (row : Nat) (p : PlayerState) (dl : List TileColor) :
    (Room.tileRowRoom row p dl).1.patternLines.length = p.patternLines.length := by
  unfold Room.tileRowRoom Room.tileRowStd
  rw [clearIncomplete_len, tileRow_len]

theorem tileRowRoom_get?_other (row r : Nat) (p : PlayerState)
    (dl : List TileColor) (hne : row ≠ r) :
    (Room.tileRowRoom row p dl).1.patternLines.get? r = p.patternLines.get? r := by
  unfold Room.tileRowRoom Room.tileRowStd
  rw [clearIncomplete_get?_other _ _ _ _ hne, tileRow_get?_other _ _ _ _ _ hne]

theorem tileRowRoom_get?_none (row : Nat) (p : PlayerState) (dl : List TileColor)
    (hget : p.patternLines.get? row = none) :
    (Room.tileRowRoom row p dl).1.patternLines.get? row = none := by
  unfold Room.tileRowRoom Room.tileRowStd tileRow
  rw [hget]
  dsimp only
  unfold Room.clearIncomplete
  rw [hget]
  exact hget

theorem tileRow_std_at (row : Nat) (p : PlayerState) (dl : List TileColor)
    (ln : PatternLine) (hget : p.patternLines.get? row = some ln) :
    (tileRow false row p dl).1.patternLines.get? row = some ln ∨
    (tileRow false row p dl).1.patternLines.get? row
      = some { ln with tiles := [], color := none } := by
  unfold tileRow
  rw [hget]
  dsimp only
  cases hc : ln.color with
  | none => exact Or.inl hget
  | some lc =>
    dsimp only
    by_cases hcomp : ln.tiles.length = ln.size
    · rw [if_pos hcomp, if_pos rfl]
      by_cases hcell : wallCell p.wall row (getWallColumnForColor row lc) = none
      · rw [if_pos hcell]
        unfold finishLine
        exact Or.inr (get?_set_same _ _ _ (get?_some_lt hget))
      · rw [if_neg hcell]
        unfold finishLine
        exact Or.inr (get?_set_same _ _ _ (get?_some_lt hget))
    · rw [if_neg hcomp]
      exact Or.inl hget

theorem clearIncomplete_at (row : Nat) (p : PlayerState) (dl : List TileColor)
    (ln : PatternLine) (hget : p.patternLines.get? row = some ln)
    (hwf : ln.tiles = [] → ln.color = none) :
    ∀ ln2, (Room.clearIncomplete row p dl).1.patternLines.get? row = some ln2 →
      ln2.tiles = [] ∧ ln2.color = none := by
  intro ln2 h2
  unfold Room.clearIncomplete at h2
  rw [hget] at h2
  dsimp only at h2
  by_cases hpos : ln.tiles.length > 0
  · rw [if_pos hpos] at h2
    dsimp only at h2
    rw [get?_set_same _ _ _ (get?_some_lt hget)] at h2
    cases h2
    exact ⟨rfl, rfl⟩
  · rw [if_neg hpos] at h2
    rw [hget] at h2
    cases h2
    have htiles : ln.tiles = [] := List.length_eq_zero.mp (by omega)
    exact ⟨htiles, hwf htiles⟩

theorem tileRowRoom_at (row : Nat) (p : PlayerState) (dl : List TileColor)
    (ln : PatternLine) (hget : p.patternLines.get? row = some ln)
    (hwf : ln.tiles = [] → ln.color = none) :
    ∀ ln2, (Room.tileRowRoom row p dl).1.patternLines.get? row = some ln2 →
      ln2.tiles = [] ∧ ln2.color = none := by
  unfold Room.tileRowRoom Room.tileRowStd
  dsimp only
  rcases tileRow_std_at row p dl ln hget with hq | hq
  · exact clearIncomplete_at row _ _ ln hq hwf
  · exact clearIncomplete_at row _ _ _ hq (fun _ => rfl)

theorem tileRowRoom_wf (row r : Nat) (p : PlayerState) (dl : List TileColor)
    (hwf : ∀ ln, p.patternLines.get? r = some ln → ln.tiles = [] → ln.color = none) :
    ∀ ln, (Room.tileRowRoom row p dl).1.patternLines.get? r = some ln →
      ln.tiles = [] → ln.color = none := by
  by_cases hr : row = r
  · subst hr
    intro ln h _
    cases horig : p.patternLines.get? row with
    | none =>
      rw [tileRowRoom_get?_none row p dl horig] at h
      cases h
    | some ln0 =>
      exact (tileRowRoom_at row p dl ln0 horig (hwf ln0 horig) ln h).2
  · rw [tileRowRoom_get?_other row r p dl hr]
    exact hwf

theorem tileRowRoom_keep (row r : Nat) (p : PlayerState) (dl : List TileColor)
    (hemp : ∀ ln, p.patternLines.get? r = some ln → ln.tiles = [] ∧ ln.color = none) :
    ∀ ln2, (Room.tileRowRoom row p dl).1.patternLines.get? r = some ln2 →
      ln2.tiles = [] ∧ ln2.color = none := by
  by_cases hr : row = r
  · subst hr
    intro ln2 h2
    cases horig : p.patternLines.get? row with
    | none =>
      rw [tileRowRoom_get?_none row p dl horig] at h2
      cases h2
    | some ln0 =>
      exact tileRowRoom_at row p dl ln0 horig (fun _ => (hemp ln0 horig).2) ln2 h2
  · rw [tileRowRoom_get?_other row r p dl hr]
    exact hemp

theorem foldRoomRows_keep (rows : List Nat) (r : Nat) :
    ∀ pr : PlayerState × List TileColor,
      (∀ ln, pr.1.patternLines.get? r = some ln → ln.tiles = [] ∧ ln.color = none) →
      ∀ ln2,
        ((rows.foldl (fun pr row => Room.tileRowRoom row pr.1 pr.2) pr).1.patternLines.get? r
          = some ln2) → ln2.tiles = [] ∧ ln2.color = none := by
  induction rows with
  | nil => intro pr h ln2 h2; exact h ln2 h2
  | cons a rest ih =>
    intro pr h ln2 h2
    rw [List.foldl_cons] at h2
    exact ih _ (tileRowRoom_keep a r pr.1 pr.2 h) ln2 h2

theorem foldRoomRows_empty (rows : List Nat) :
    ∀ pr : PlayerState × List TileColor,
      (∀ r ∈ rows, ∀ ln, pr.1.patternLines.get? r = some ln →
        ln.tiles = [] → ln.color = none) →
      ∀ r ∈ rows, ∀ ln2,
        ((rows.foldl (fun pr row => Room.tileRowRoom row pr.1 pr.2) pr).1.patternLines.get? r
          = some ln2) → ln2.tiles = [] ∧ ln2.color = none := by
  induction rows with
  | nil =>
    intro pr hwf r hr
    cases hr
  | cons a rest ih =>
    intro pr hwf r hr ln2 h2
    rw [List.foldl_cons] at h2
    rcases List.mem_cons.mp hr with he | hm
    · subst he
      refine foldRoomRows_keep rest r _ ?_ ln2 h2
      intro ln h
      cases horig : pr.1.patternLines.get? r with
      | none =>
        rw [tileRowRoom_get?_none r pr.1 pr.2 horig] at h
        cases h
      | some ln0 =>
        exact tileRowRoom_at r pr.1 pr.2 ln0 horig
          (hwf r (List.mem_cons_self r rest) ln0 horig) ln h
    · refine ih (Room.tileRowRoom a pr.1 pr.2) ?_ r hm ln2 h2
      intro r2 hr2 ln h
      exact tileRowRoom_wf a r2 pr.1 pr.2 (hwf r2 (List.mem_cons_of_mem a hr2)) ln h

theorem foldRoomRows_len (rows : List Nat) :
    ∀ pr : PlayerState × List TileColor,
      ((rows.foldl (fun pr row => Room.tileRowRoom row pr.1 pr.2) pr).1.patternLines.length
        = pr.1.patternLines.length) := by
  induction rows with
  | nil => intro pr; rfl
  | cons a rest ih =>
    intro pr
    rw [List.foldl_cons, ih (Room.tileRowRoom a pr.1 pr.2), tileRowRoom_len]

theorem tilePlayerRoom_empty (p : PlayerState) (dl : List TileColor)
    (hlen : p.patternLines.length = 5)
    (hwf : ∀ ln ∈ p.patternLines, ln.tiles = [] → ln.color = none) :
    ∀ ln ∈ (Room.tilePlayerRoom p dl).1.patternLines,
      ln.tiles = [] ∧ ln.color = none := by
  intro ln hmem
  obtain ⟨i, hi⟩ := List.mem_iff_get?.mp hmem
  unfold Room.tilePlayerRoom at hi
  dsimp only at hi
  rw [applyFloorPenalty_lines] at hi
  have hi5 : i < 5 := by
    have h1 := get?_some_lt hi
    rw [foldRoomRows_len, hlen] at h1
    exact h1
  have hrows : i ∈ [0, 1, 2, 3, 4] := by
    interval_cases i <;> simp
  refine foldRoomRows_empty [0, 1, 2, 3, 4] (p, dl) ?_ i hrows ln hi
  intro r hr ln0 h0
  exact hwf ln0 (List.get?_mem h0)

theorem tileAllPlayersRoom_shape (ps : List PlayerState) (dl : List TileColor) :
    ∀ p2 ∈ (Room.tileAllPlayersRoom ps dl).1,
      ∃ p ∈ ps, ∃ d, p2 = (Room.tilePlayerRoom p d).1 := by
  induction ps generalizing dl with
  | nil =>
    intro p2 hp2
    simp [Room.tileAllPlayersRoom] at hp2
  | cons p rest ih =>
    intro p2 hp2
    unfold Room.tileAllPlayersRoom at hp2
    dsimp only at hp2
    rcases List.mem_cons.mp hp2 with he | hm
    · exact ⟨p, by simp, dl, he⟩
    · obtain ⟨q, hq, d, hd⟩ := ih _ p2 hm
      exact ⟨q, by simp [hq], d, hd⟩

theorem roomTiling_lines_empty (rng : Nat → Nat) (s : RoomState)
    (h : ∀ p ∈ s.players, LinesWF p) :
    ∀ p2 ∈ (Room.executeWallTiling rng s).players,
      ∀ ln ∈ p2.patternLines, ln.tiles = [] ∧ ln.color = none := by
  intro p2 hp2
  unfold Room.executeWallTiling at hp2
  dsimp only at hp2
  have hcore : ∀ q ∈ (Room.tileAllPlayersRoom s.players s.discardLid).1,
      ∀ ln ∈ q.patternLines, ln.tiles = [] ∧ ln.color = none := by
    intro q hq
    obtain ⟨p, hp, d, hd⟩ := tileAllPlayersRoom_shape s.players s.discardLid q hq
    rw [hd]
    exact tilePlayerRoom_empty p d (h p hp).1 (h p hp).2
  by_cases hend : (Room.tileAllPlayersRoom s.players s.discardLid).1.any
      (fun p => hasCompletedHorizontalRow p.wall)
  · rw [if_pos hend] at hp2
    unfold Room.executeEndgame at hp2
    dsimp only at hp2
    obtain ⟨q, hq, hq2⟩ := List.mem_map.mp hp2
    rw [← hq2]
    exact hcore q hq
  · rw [if_neg hend] at hp2
    unfold Room.prepareNextRound at hp2
    dsimp only at hp2
    obtain ⟨q, hq, hq2⟩ := List.mem_map.mp hp2
    rw [← hq2]
    exact hcore q hq

/-- C9: the two wall-tiling passes diverge on incomplete pattern lines.
After the room's `executeWallTiling` every pattern line of every player is
empty with no locked color (given the well-formedness the engine
maintains); after the local `executeWallTiling` every incomplete pattern
line keeps exactly its tiles and locked color; hence whenever the local
state holds a non-empty incomplete pattern line the two passes produce
different rosters. -/
theorem claim_C9 :
    (∀ rng (s : RoomState), (∀ p ∈ s.players, LinesWF p) →
        ∀ p2 ∈ (Room.executeWallTiling rng s).players,
          ∀ ln ∈ p2.patternLines, ln.tiles = [] ∧ ln.color = none)
    ∧ (∀ rng (s : GameState) i p, s.players.get? i = some p →
        ∃ p2, (executeWallTiling rng s).players.get? i = some p2 ∧
          ∀ r ln, p.patternLines.get? r = some ln →
            ln.tiles.length ≠ ln.size → p2.patternLines.get? r = some ln)
    ∧ (∀ rng rng2 (s : GameState) (sr : RoomState),
        (∀ p ∈ sr.players, LinesWF p) →
        (∃ i p r ln, s.players.get? i = some p ∧
          p.patternLines.get? r = some ln ∧
          ln.tiles ≠ [] ∧ ln.tiles.length ≠ ln.size) →
        (executeWallTiling rng s).players ≠ (Room.executeWallTiling rng2 sr).players) := by
  refine ⟨fun rng s h => roomTiling_lines_empty rng s h,
    fun rng s i p hp => localWallTiling_incomplete rng s i p hp, ?_⟩
  intro rng rng2 s sr hwf hex heq
  obtain ⟨i, p, r, ln, hp, hln, hne, hinc⟩ := hex
  obtain ⟨p2, hidx, hkeep⟩ := localWallTiling_incomplete rng s i p hp
  have h2 := hkeep r ln hln hinc
  rw [heq] at hidx
  have hempty := roomTiling_lines_empty rng2 sr hwf p2 (List.get?_mem hidx)
    ln (List.get?_mem h2)
  exact hne hempty.1

/-- C9 witness: the concrete roster carrying the non-empty incomplete line
`c9Line` on row 1 — the room pass empties every line, the local pass keeps
`c9Line`, and the two output rosters differ. -/
theorem claim_C9_witness :
    (∀ p2 ∈ (Room.executeWallTiling rngZero c9R).players,
        ∀ ln ∈ p2.patternLines, ln.tiles = [] ∧ ln.color = none)
    ∧ (∃ p2, (executeWallTiling rngZero c9G).players.get? 0 = some p2 ∧
        ∀ r ln, c9P.patternLines.get? r = some ln →
          ln.tiles.length ≠ ln.size → p2.patternLines.get? r = some ln)
    ∧ (executeWallTiling rngZero c9G).players
        ≠ (Room.executeWallTiling rngZero c9R).players :=
  ⟨claim_C9.1 rngZero c9R (by decide),
   claim_C9.2.1 rngZero c9G 0 c9P (by decide),
   claim_C9.2.2 rngZero rngZero c9G c9R (by decide)
     ⟨0, c9P, 1, c9Line, by decide, by decide, by decide, by decide⟩⟩

/-! ## Claim C1 (tile conservation): initial states -/

theorem createBag_count (rng : Nat → Nat) (c : TileColor) :
    (createBag rng).count c = TILES_PER_COLOR := by
  unfold createBag
  rw [count_shuffle]
  cases c <;> decide

theorem createPatternLines_count (c : TileColor) :
    (createPatternLines.map (fun ln => ln.tiles.count c)).sum = 0 := by
  cases c <;> decide

theorem emptyWall_count (c : TileColor) :
    wallColorCount c createEmptyWall = 0 := by
  cases c <;> decide

theorem createPlayer_count (i n : String) (c : TileColor) :
    playerTilesCount c (createPlayer i n) = 0 := by
  unfold playerTilesCount createPlayer
  rw [createPatternLines_count, emptyWall_count]
  rfl

theorem resetPlayer_count (p : PlayerState) (c : TileColor) :
    playerTilesCount c (Room.resetPlayer p) = 0 := by
  unfold playerTilesCount Room.resetPlayer
  rw [createPatternLines_count, emptyWall_count]
  rfl

theorem createPatternLines_ok :
    ∀ i ln, createPatternLines.get? i = some ln →
      ln.size = i + 1 ∧ ln.tiles.length ≤ ln.size ∧ ∀ t ∈ ln.tiles, ln.color = some t := by
  intro i ln h
  have h5 : i < 5 := by
    have := get?_some_lt h
    simpa [createPatternLines] using this
  interval_cases i <;>
    (simp only [createPatternLines, List.range, List.range.loop] at h <;>
      cases h <;> exact ⟨rfl, by decide, by decide⟩)

theorem fresh_board_inv (uv : Bool) (p : PlayerState)
    (hlines : p.patternLines = createPatternLines)
    (hwall : p.wall = createEmptyWall) : PlayerInv uv p := by
  refine ⟨⟨by rw [hlines]; rfl, ?_⟩, ⟨by rw [hwall]; rfl, ?_⟩, ?_⟩
  · rw [hlines]
    exact createPatternLines_ok
  · rw [hwall]
    intro row hr
    unfold createEmptyWall at hr
    rw [List.eq_of_mem_replicate hr]
    rfl
  · intro _ i ln lc _ _ _
    rw [hwall]
    exact wallCell_empty i (getWallColumnForColor i lc)

theorem sum_map_zero {α : Type} (f : α → Nat) (l : List α)
    (h : ∀ x ∈ l, f x = 0) : (l.map f).sum = 0 := by
  induction l with
  | nil => rfl
  | cons x xs ih =>
    rw [List.map_cons, List.sum_cons, h x (by simp), ih (fun y hy => h y (by simp [hy]))]

theorem createGame_inv (names : List String) (uv : Bool) (rng : Nat → Nat)
    (s : GameState) (h : createGame names uv rng = some s) : InvL s := by
  unfold createGame at h
  by_cases hn : names.length < 2 ∨ names.length > 4
  · rw [if_pos hn] at h
    cases h
  · rw [if_neg hn] at h
    cases hf : FACTORY_COUNT names.length with
    | none => rw [hf] at h; cases h
    | some fc =>
      rw [hf] at h
      dsimp only at h
      cases h
      constructor
      · intro c
        unfold stateTileCount
        dsimp only
        have hplayers : ((names.enum.map
            (fun p => createPlayer ("player-" ++ toString p.1) p.2)).map
              (playerTilesCount c)).sum = 0 := by
          rw [List.map_map]
          exact sum_map_zero _ _ (fun x hx => createPlayer_count _ _ c)
        rw [hplayers]
        have hfill := fillFactories_count fc 0 (createBag rng) c
        have hbag := createBag_count rng c
        simp only [List.count_nil]
        omega
      · intro p hp
        dsimp only at hp
        obtain ⟨q, hq, hq2⟩ := List.mem_map.mp hp
        rw [← hq2]
        exact fresh_board_inv uv _ rfl rfl

theorem initializeGame_inv (rng : Nat → Nat) (s0 : RoomState) :
    InvR (Room.initializeGame rng s0) := by
  unfold Room.initializeGame
  dsimp only
  refine ⟨?_, ?_, ?_⟩
  · intro c
    unfold roomTileCountPending roomTileCount
    dsimp only
    have hplayers : ((s0.players.map Room.resetPlayer).map
        (playerTilesCount c)).sum = 0 := by
      rw [List.map_map]
      exact sum_map_zero _ _ (fun x hx => resetPlayer_count _ c)
    rw [hplayers]
    have hfill := fillFactories_count ((FACTORY_COUNT s0.players.length).getD 5)
      0 (createBag rng) c
    have hbag := createBag_count rng c
    simp only [List.count_nil]
    omega
  · intro p hp
    dsimp only at hp
    obtain ⟨q, hq, hq2⟩ := List.mem_map.mp hp
    rw [← hq2]
    exact fresh_board_inv false _ rfl rfl
  · intro t ht
    cases ht

/-! ## Claim C1: the pick stage -/

theorem pickFactory_picked (fs : List FactoryDisplay) (fid : Nat) (col : TileColor)
    (picked moved : List TileColor) (fs2 : List FactoryDisplay)
    (h : pickFactory fs fid col = some (picked, moved, fs2)) :
    ∀ t ∈ picked, col = t := by
  induction fs generalizing fs2 with
  | nil => simp [pickFactory] at h
  | cons f rest ih =>
    unfold pickFactory at h
    by_cases hid : f.id = fid
    · rw [if_pos hid] at h
      by_cases hz : f.tiles.length = 0
      · rw [if_pos hz] at h
        cases h
      · rw [if_neg hz] at h
        by_cases hc : f.tiles.contains col = true
        · rw [if_neg (not_not_intro hc)] at h
          injection h with h2
          injection h2 with hp _
          rw [← hp]
          exact count_mem_filter_all f.tiles col
        · rw [if_pos hc] at h
          cases h
    · rw [if_neg hid] at h
      cases hrec : pickFactory rest fid col with
      | none =>
        rw [hrec] at h
        cases h
      | some r =>
        rw [hrec] at h
        injection h with h2
        injection h2 with hp hsnd
        injection hsnd with hmv hfs
        exact ih r.2.2 (by rw [hrec, ← hp, ← hmv])

theorem count_starter_append (fl : List FloorEntry) (c : TileColor) :
    (fl ++ [FloorEntry.starter]).count (.tile c) = fl.count (.tile c) := by
  rw [List.count_append]
  rfl

theorem applyPick_count (s : GameState) (m : GameMove)
    (picked : List TileColor) (s1 : GameState)
    (h : applyPick s m = some (picked, s1)) (c : TileColor) :
    picked.count c + stateTileCount c s1 = stateTileCount c s := by
  cases m with
  | factoryPick fid color target =>
    unfold applyPick at h
    dsimp only at h
    cases hpf : pickFactory s.factories fid color with
    | none =>
      rw [hpf] at h
      cases h
    | some r =>
      rw [hpf] at h
      injection h with h2
      injection h2 with hp hs
      have hcount := pickFactory_count s.factories fid color c r.1 r.2.1 r.2.2
        (by rw [hpf])
      rw [← hs, ← hp]
      unfold stateTileCount
      dsimp only
      rw [List.count_append]
      omega
  | centerPick color target =>
    unfold applyPick at h
    dsimp only at h
    have hsplit := count_filter_eq_split s.centerPool color c
    by_cases hm : s.centerHasStartingMarker = true
    · rw [if_pos hm] at h
      cases hp : s.players.get? s.currentPlayerIndex with
      | none =>
        rw [hp] at h
        cases h
      | some p =>
        rw [hp] at h
        dsimp only at h
        injection h with h2
        injection h2 with hpk hs
        rw [← hs, ← hpk]
        unfold stateTileCount
        dsimp only
        have hsum := sum_map_set (playerTilesCount c) s.players s.currentPlayerIndex
          p { p with
              hasStartingMarker := true
              floorLine :=
                if p.floorLine.length < FLOOR_LINE_SIZE then
                  p.floorLine ++ [.starter]
                else p.floorLine } hp
        have hfloor : ({ p with
            hasStartingMarker := true
            floorLine :=
              if p.floorLine.length < FLOOR_LINE_SIZE then
                p.floorLine ++ [.starter]
              else p.floorLine : PlayerState }).floorLine.count (.tile c)
            = p.floorLine.count (.tile c) := by
          dsimp only
          by_cases hlen : p.floorLine.length < FLOOR_LINE_SIZE
          · rw [if_pos hlen, count_starter_append]
          · rw [if_neg hlen]
        unfold playerTilesCount at hsum ⊢
        dsimp only at hsum hfloor ⊢
        rw [hfloor] at hsum
        omega
    · rw [if_neg hm] at h
      injection h with h2
      injection h2 with hpk hs
      rw [← hs, ← hpk]
      unfold stateTileCount
      dsimp only
      omega

theorem applyPick_spec (s : GameState) (m : GameMove)
    (picked : List TileColor) (s1 : GameState)
    (h : applyPick s m = some (picked, s1)) :
    (∀ t ∈ picked, m.color = t)
    ∧ s1.useVariantWall = s.useVariantWall
    ∧ s1.currentPlayerIndex = s.currentPlayerIndex
    ∧ s1.discardLid = s.discardLid
    ∧ ((∀ q ∈ s.players, PlayerInv s.useVariantWall q) →
        ∀ q ∈ s1.players, PlayerInv s.useVariantWall q)
    ∧ ∀ i q, s.players.get? i = some q →
        ∃ q2, s1.players.get? i = some q2
          ∧ q2.patternLines = q.patternLines ∧ q2.wall = q.wall := by
  cases m with
  | factoryPick fid color target =>
    unfold applyPick at h
    dsimp only at h
    cases hpf : pickFactory s.factories fid color with
    | none =>
      rw [hpf] at h
      cases h
    | some r =>
      rw [hpf] at h
      injection h with h2
      injection h2 with hp hs
      rw [← hs, ← hp]
      exact ⟨pickFactory_picked s.factories fid color r.1 r.2.1 r.2.2 (by rw [hpf]),
        rfl, rfl, rfl, fun hq => hq, fun i q hq => ⟨q, hq, rfl, rfl⟩⟩
  | centerPick color target =>
    unfold applyPick at h
    dsimp only at h
    by_cases hm : s.centerHasStartingMarker = true
    · rw [if_pos hm] at h
      cases hp : s.players.get? s.currentPlayerIndex with
      | none =>
        rw [hp] at h
        cases h
      | some p =>
        rw [hp] at h
        dsimp only at h
        injection h with h2
        injection h2 with hpk hs
        rw [← hs, ← hpk]
        refine ⟨count_mem_filter_all s.centerPool color, rfl, rfl, rfl, ?_, ?_⟩
        · intro hq q2 hq2
          dsimp only at hq2
          rcases List.mem_or_eq_of_mem_set hq2 with hmem | heq
          · exact hq q2 hmem
          · rw [heq]
            have hpi := hq p (List.get?_mem hp)
            exact ⟨hpi.1, hpi.2.1, fun huv => hpi.2.2 huv⟩
        · intro i q hq
          dsimp only
          by_cases hi : s.currentPlayerIndex = i
          · subst hi
            rw [hp] at hq
            cases hq
            exact ⟨_, get?_set_same _ _ _ (get?_some_lt hp), rfl, rfl⟩
          · rw [get?_set_other _ _ _ _ hi]
            exact ⟨q, hq, rfl, rfl⟩
    · rw [if_neg hm] at h
      injection h with h2
      injection h2 with hpk hs
      rw [← hs, ← hpk]
      exact ⟨count_mem_filter_all s.centerPool color, rfl, rfl, rfl,
        fun hq => hq, fun i q hq => ⟨q, hq, rfl, rfl⟩⟩

/-! ## Claim C1: the placement stage -/

theorem count_map_tile (l : List TileColor) (c : TileColor) :
    (l.map FloorEntry.tile).count (.tile c) = l.count c := by
  induction l with
  | nil => rfl
  | cons x xs ih =>
    rw [List.map_cons, List.count_cons, List.count_cons, ih]
    by_cases hx : x = c
    · simp [hx]
    · simp [hx]

theorem canPlace_facts (player : PlayerState) (i : Nat) (c : TileColor) (uv : Bool)
    (h : canPlaceOnPatternLine player i c uv = true) :
    ∃ line, player.patternLines.get? i = some line ∧
      line.tiles.length < line.size ∧
      (line.color = none ∨ line.color = some c) ∧
      (uv = false → wallCell player.wall i (getWallColumnForColor i c) = none) := by
  unfold canPlaceOnPatternLine at h
  cases hget : player.patternLines.get? i with
  | none =>
    rw [hget] at h
    cases h
  | some line =>
    rw [hget] at h
    dsimp only at h
    by_cases h1 : line.size ≤ line.tiles.length
    · rw [if_pos h1] at h
      cases h
    · rw [if_neg h1] at h
      by_cases h2 : line.color.isSome ∧ line.color ≠ some c
      · rw [if_pos h2] at h
        cases h
      · rw [if_neg h2] at h
        refine ⟨line, rfl, by omega, ?_, ?_⟩
        · cases hcol : line.color with
          | none => exact Or.inl rfl
          | some c2 =>
            exact Or.inr (not_not.mp
              (fun hne => h2 ⟨by rw [hcol]; rfl, by rw [hcol]; exact hne⟩))
        · intro huv
          rw [if_pos huv] at h
          unfold isColorOnWallRow at h
          cases hw : wallCell player.wall i (getWallColumnForColor i c) with
          | none => rfl
          | some x =>
            rw [hw] at h
            simp at h

theorem canPlace_congr (p q : PlayerState) (i : Nat) (c : TileColor) (uv : Bool)
    (hl : p.patternLines = q.patternLines) (hw : p.wall = q.wall) :
    canPlaceOnPatternLine p i c uv = canPlaceOnPatternLine q i c uv := by
  unfold canPlaceOnPatternLine isColorOnWallRow rowContainsColor
  rw [hl, hw]

theorem place_line_player (p : PlayerState) (picked dl : List TileColor)
    (tgt : Nat) (mc : TileColor) (line : PatternLine) (uv : Bool)
    (hline : p.patternLines.get? tgt = some line)
    (hpinv : PlayerInv uv p)
    (hpure : ∀ t ∈ picked, mc = t)
    (hcolor : line.color = none ∨ line.color = some mc)
    (hwall : uv = false → wallCell p.wall tgt (getWallColumnForColor tgt mc) = none) :
    (∀ c, playerTilesCount c
        { p with
          patternLines := p.patternLines.set tgt
            (placeTiles picked { line with color := some mc } p.floorLine dl).1
          floorLine := (placeTiles picked { line with color := some mc } p.floorLine dl).2.1 }
      + (placeTiles picked { line with color := some mc } p.floorLine dl).2.2.count c
      = playerTilesCount c p + picked.count c + dl.count c)
    ∧ PlayerInv uv
        { p with
          patternLines := p.patternLines.set tgt
            (placeTiles picked { line with color := some mc } p.floorLine dl).1
          floorLine := (placeTiles picked { line with color := some mc } p.floorLine dl).2.1 } := by
  obtain ⟨⟨hlen5, hlok⟩, hwok, hcompat⟩ := hpinv
  have hsize := (hlok tgt line hline).1
  have hlelen := (hlok tgt line hline).2.1
  have hlpure := (hlok tgt line hline).2.2
  constructor
  · intro c
    rw [placeTiles_eq]
    unfold playerTilesCount
    dsimp only
    have hsum := sum_map_set (fun ln => ln.tiles.count c) p.patternLines tgt line
      { line with
        color := some mc
        tiles := line.tiles ++ picked.take (line.size - line.tiles.length) } hline
    dsimp only at hsum
    rw [List.count_append] at hsum
    have h1 := count_take_drop picked (line.size - line.tiles.length) c
    have h2 := count_take_drop (picked.drop (line.size - line.tiles.length))
      (FLOOR_LINE_SIZE - p.floorLine.length) c
    rw [List.count_append, count_map_tile, List.count_append]
    omega
  · rw [placeTiles_eq]
    dsimp only
    refine ⟨⟨by rw [List.length_set]; exact hlen5, ?_⟩, hwok, ?_⟩
    · intro i ln2 h2
      by_cases hi : tgt = i
      · subst hi
        rw [get?_set_same _ _ _ (get?_some_lt hline)] at h2
        cases h2
        refine ⟨hsize, ?_, ?_⟩
        · dsimp only
          rw [List.length_append, List.length_take]
          omega
        · intro t ht
          dsimp only at ht ⊢
          rcases List.mem_append.mp ht with hold | hnew
          · have := hlpure t hold
            rcases hcolor with hc0 | hc0 <;> rw [hc0] at this
            · cases this
            · injection this with he
              rw [he]
          · rw [hpure t (List.mem_of_mem_take hnew)]
      · rw [get?_set_other _ _ _ _ hi] at h2
        exact hlok i ln2 h2
    · intro huv i ln2 lc h2 hc2 hne
      dsimp only
      by_cases hi : tgt = i
      · subst hi
        rw [get?_set_same _ _ _ (get?_some_lt hline)] at h2
        cases h2
        injection hc2 with he
        rw [← he]
        exact hwall huv
      · rw [get?_set_other _ _ _ _ hi] at h2
        exact hcompat huv i ln2 lc h2 hc2 hne

theorem place_floor_player (p : PlayerState) (picked dl : List TileColor)
    (uv : Bool) (hpinv : PlayerInv uv p) :
    (∀ c, playerTilesCount c
        { p with floorLine := (placeOnFloor picked p.floorLine dl).1 }
      + (placeOnFloor picked p.floorLine dl).2.count c
      = playerTilesCount c p + picked.count c + dl.count c)
    ∧ PlayerInv uv { p with floorLine := (placeOnFloor picked p.floorLine dl).1 } := by
  constructor
  · intro c
    rw [placeOnFloor_eq]
    unfold playerTilesCount
    dsimp only
    rw [List.count_append, count_map_tile, List.count_append]
    have h1 := count_take_drop picked (FLOOR_LINE_SIZE - p.floorLine.length) c
    omega
  · obtain ⟨hl, hw, hc⟩ := hpinv
    exact ⟨hl, hw, fun huv => hc huv⟩

theorem pickPlaceState_inv (s : GameState) (m : GameMove) (t : GameState)
    (h : pickPlaceState s m = some t)
    (hpinv : ∀ p ∈ s.players, PlayerInv s.useVariantWall p)
    (hcan : ∀ player, s.players.get? s.currentPlayerIndex = some player →
      0 ≤ m.targetLine ∧ m.targetLine < 5 →
      canPlaceOnPatternLine player m.targetLine.toNat m.color s.useVariantWall = true) :
    (∀ c, stateTileCount c t = stateTileCount c s)
    ∧ (∀ p ∈ t.players, PlayerInv s.useVariantWall p)
    ∧ t.useVariantWall = s.useVariantWall := by
  unfold pickPlaceState at h
  cases hap : applyPick s m with
  | none =>
    rw [hap] at h
    cases h
  | some pr =>
    rw [hap] at h
    dsimp only at h
    obtain ⟨hpure, hvar, hidx, hdl, hqinv, hqpt⟩ :=
      applyPick_spec s m pr.1 pr.2 (by rw [hap])
    have hlen := (applyPick_preserves s m pr.1 pr.2 (by rw [hap])).2.2.1
    rw [hidx] at h
    cases hp : pr.2.players.get? s.currentPlayerIndex with
    | none =>
      rw [hp] at h
      cases h
    | some p =>
      rw [hp] at h
      dsimp only at h
      have hpinv1 := hqinv hpinv p (List.get?_mem hp)
      by_cases htl : 0 ≤ m.targetLine ∧ m.targetLine < 5
      · rw [if_pos htl] at h
        cases hq : s.players.get? s.currentPlayerIndex with
        | none =>
          exfalso
          have hlt := get?_some_lt hp
          have hge := List.get?_eq_none.mp hq
          omega
        | some q =>
          obtain ⟨q2, hq2, hqpl, hqw⟩ := hqpt s.currentPlayerIndex q hq
          rw [hp] at hq2
          injection hq2 with hpq
          have hcanp : canPlaceOnPatternLine p m.targetLine.toNat m.color
              s.useVariantWall = true := by
            rw [canPlace_congr p q m.targetLine.toNat m.color s.useVariantWall
              (by rw [hpq]; exact hqpl) (by rw [hpq]; exact hqw)]
            exact hcan q hq htl
          obtain ⟨line, hline, hlt2, hcolor, hwall⟩ :=
            canPlace_facts p m.targetLine.toNat m.color s.useVariantWall hcanp
          rw [hline] at h
          dsimp only at h
          cases h
          have hplace := place_line_player p pr.1 pr.2.discardLid
            m.targetLine.toNat m.color line s.useVariantWall hline hpinv1 hpure
            hcolor hwall
          refine ⟨?_, ?_, hvar⟩
          · intro c
            have hapc := applyPick_count s m pr.1 pr.2 (by rw [hap]) c
            have hplc := hplace.1 c
            have hsum := sum_map_set (playerTilesCount c) pr.2.players
              s.currentPlayerIndex p
              { p with
                patternLines := p.patternLines.set m.targetLine.toNat
                  (placeTiles pr.1 { line with color := some m.color }
                    p.floorLine pr.2.discardLid).1
                floorLine := (placeTiles pr.1 { line with color := some m.color }
                  p.floorLine pr.2.discardLid).2.1 } hp
            unfold stateTileCount at hapc ⊢
            dsimp only
            omega
          · intro p3 hp3
            dsimp only at hp3
            rcases List.mem_or_eq_of_mem_set hp3 with hmem | heq
            · exact hqinv hpinv p3 hmem
            · rw [heq]
              exact hplace.2
      · rw [if_neg htl] at h
        try dsimp only at h
        cases h
        have hplace := place_floor_player p pr.1 pr.2.discardLid
          s.useVariantWall hpinv1
        refine ⟨?_, ?_, hvar⟩
        · intro c
          have hapc := applyPick_count s m pr.1 pr.2 (by rw [hap]) c
          have hplc := hplace.1 c
          have hsum := sum_map_set (playerTilesCount c) pr.2.players
            s.currentPlayerIndex p
            { p with floorLine := (placeOnFloor pr.1 p.floorLine pr.2.discardLid).1 }
            hp
          unfold stateTileCount at hapc ⊢
          dsimp only
          omega
        · intro p3 hp3
          dsimp only at hp3
          rcases List.mem_or_eq_of_mem_set hp3 with hmem | heq
          · exact hqinv hpinv p3 hmem
          · rw [heq]
            exact hplace.2

/-! ## Claim C1: wall tiling, local engine -/

theorem setWallCell_ok (w : Wall) (row col : Nat) (v : Option TileColor)
    (h1 : w.length = 5) (h2 : ∀ r ∈ w, r.length = 5) :
    (setWallCell w row col v).length = 5
      ∧ ∀ r ∈ setWallCell w row col v, r.length = 5 := by
  unfold setWallCell
  cases hr : w.get? row with
  | none => exact ⟨h1, h2⟩
  | some rowl =>
    refine ⟨by rw [List.length_set]; exact h1, ?_⟩
    intro r hrm
    rcases List.mem_or_eq_of_mem_set hrm with hm | he
    · exact h2 r hm
    · rw [he, List.length_set]
      exact h2 rowl (List.get?_mem hr)

theorem wallRow_of_wallOk (w : Wall) (row : Nat) (hrow : row < 5)
    (h1 : w.length = 5) (h2 : ∀ r ∈ w, r.length = 5) :
    ∃ rowl, w.get? row = some rowl ∧ rowl.length = 5 := by
  cases hr : w.get? row with
  | none =>
    have := List.get?_eq_none.mp hr
    omega
  | some rowl => exact ⟨rowl, rfl, h2 rowl (List.get?_mem hr)⟩

theorem line_pure_all (ln : PatternLine) (lc : TileColor)
    (hpure : ∀ t ∈ ln.tiles, ln.color = some t) (hc : ln.color = some lc) :
    ∀ t ∈ ln.tiles, lc = t := by
  intro t ht
  have := hpure t ht
  rw [hc] at this
  exact Option.some.inj this

theorem tileRow_inv (uv : Bool) (row : Nat) (p : PlayerState) (dl : List TileColor)
    (hrow : row < 5) (hpinv : PlayerInv uv p) :
    (∀ c, playerTilesCount c (tileRow uv row p dl).1
        + (tileRow uv row p dl).2.count c
      = playerTilesCount c p + dl.count c)
    ∧ PlayerInv uv (tileRow uv row p dl).1 := by
  obtain ⟨⟨hlen5, hlok⟩, ⟨hw1, hw2⟩, hcompat⟩ := hpinv
  unfold tileRow
  cases hln : p.patternLines.get? row with
  | none => exact ⟨fun c => rfl, ⟨hlen5, hlok⟩, ⟨hw1, hw2⟩, hcompat⟩
  | some ln =>
    dsimp only
    cases hc : ln.color with
    | none => exact ⟨fun c => rfl, ⟨hlen5, hlok⟩, ⟨hw1, hw2⟩, hcompat⟩
    | some lc =>
      dsimp only
      have hsize := (hlok row ln hln).1
      have hpure := (hlok row ln hln).2.2
      have hpure2 := line_pure_all ln lc hpure hc
      by_cases hcomp : ln.tiles.length = ln.size
      · rw [if_pos hcomp]
        by_cases huv : uv = false
        · rw [if_pos huv]
          have hne : ln.tiles ≠ [] := by
            intro habs
            rw [habs] at hcomp
            simp at hcomp
            omega
          have hcell := hcompat huv row ln lc hln hc hne
          rw [if_pos hcell]
          obtain ⟨rowl, hrowl, hrowl5⟩ := wallRow_of_wallOk p.wall row hrow hw1 hw2
          have hcol5 : getWallColumnForColor row lc < 5 := wallColumn_lt row hrow lc
          constructor
          · intro c
            unfold finishLine playerTilesCount
            dsimp only
            have hsum := sum_map_set (fun l2 => l2.tiles.count c) p.patternLines
              row ln { ln with tiles := [], color := none } hln
            simp only [List.count_nil] at hsum
            have hwc := wallColorCount_set p.wall row (getWallColumnForColor row lc)
              lc c rowl hrowl (by omega) hcell
            have hlncount := count_eq_of_all hpure2 c
            have hrep := count_eq_of_all
              (l := List.replicate (ln.tiles.length - 1) lc) (a := lc)
              (fun t ht => (List.eq_of_mem_replicate ht).symm) c
            rw [List.count_append, hwc, hrep, List.length_replicate]
            by_cases hlc : lc = c
            · rw [if_pos hlc, if_pos hlc]
              rw [if_pos hlc] at hlncount
              omega
            · rw [if_neg hlc, if_neg hlc]
              rw [if_neg hlc] at hlncount
              omega
          · unfold finishLine
            dsimp only
            obtain ⟨hwl1, hwl2⟩ := setWallCell_ok p.wall row
              (getWallColumnForColor row lc) (some lc) hw1 hw2
            refine ⟨⟨by rw [List.length_set]; exact hlen5, ?_⟩, ⟨hwl1, hwl2⟩, ?_⟩
            · intro i ln2 h2
              by_cases hi : row = i
              · subst hi
                rw [get?_set_same _ _ _ (get?_some_lt hln)] at h2
                cases h2
                exact ⟨hsize, by simp, by simp⟩
              · rw [get?_set_other _ _ _ _ hi] at h2
                exact hlok i ln2 h2
            · intro huv2 i ln2 lc2 h2 hc2 hne2
              by_cases hi : row = i
              · subst hi
                rw [get?_set_same _ _ _ (get?_some_lt hln)] at h2
                cases h2
                simp at hne2
              · rw [get?_set_other _ _ _ _ hi] at h2
                rw [wallCell_set_ne_row _ _ _ _ _ _ (fun he => hi he.symm)]
                exact hcompat huv2 i ln2 lc2 h2 hc2 hne2
        · rw [if_neg huv]
          cases hf : findVariantCol p.wall row lc with
          | some col =>
            dsimp only
            have hfind := List.find?_some hf
            have hmem := List.mem_of_find?_eq_some hf
            have hcol5 : col < 5 := List.mem_range.mp hmem
            have hcell : wallCell p.wall row col = none := by
              simp only [Bool.and_eq_true] at hfind
              exact Option.isNone_iff_eq_none.mp (by
                have := hfind.1
                simpa using this)
            obtain ⟨rowl, hrowl, hrowl5⟩ := wallRow_of_wallOk p.wall row hrow hw1 hw2
            constructor
            · intro c
              unfold finishLine playerTilesCount
              dsimp only
              have hsum := sum_map_set (fun l2 => l2.tiles.count c) p.patternLines
                row ln { ln with tiles := [], color := none } hln
              simp only [List.count_nil] at hsum
              have hwc := wallColorCount_set p.wall row col lc c rowl hrowl
                (by omega) hcell
              have hlncount := count_eq_of_all hpure2 c
              have hrep := count_eq_of_all
                (l := List.replicate (ln.tiles.length - 1) lc) (a := lc)
                (fun t ht => (List.eq_of_mem_replicate ht).symm) c
              rw [List.count_append, hwc, hrep, List.length_replicate]
              by_cases hlc : lc = c
              · rw [if_pos hlc, if_pos hlc]
                rw [if_pos hlc] at hlncount
                omega
              · rw [if_neg hlc, if_neg hlc]
                rw [if_neg hlc] at hlncount
                omega
            · unfold finishLine
              dsimp only
              obtain ⟨hwl1, hwl2⟩ := setWallCell_ok p.wall row col (some lc) hw1 hw2
              refine ⟨⟨by rw [List.length_set]; exact hlen5, ?_⟩, ⟨hwl1, hwl2⟩, ?_⟩
              · intro i ln2 h2
                by_cases hi : row = i
                · subst hi
                  rw [get?_set_same _ _ _ (get?_some_lt hln)] at h2
                  cases h2
                  exact ⟨hsize, by simp, by simp⟩
                · rw [get?_set_other _ _ _ _ hi] at h2
                  exact hlok i ln2 h2
              · intro huv2
                exact absurd huv2 huv
          | none =>
            dsimp only
            constructor
            · intro c
              rw [placeOnFloor_eq]
              unfold playerTilesCount
              dsimp only
              have hsum := sum_map_set (fun l2 => l2.tiles.count c) p.patternLines
                row ln { ln with tiles := [], color := none } hln
              simp only [List.count_nil] at hsum
              have h1 := count_take_drop ln.tiles (FLOOR_LINE_SIZE - p.floorLine.length) c
              rw [List.count_append, count_map_tile, List.count_append]
              omega
            · refine ⟨⟨by rw [List.length_set]; exact hlen5, ?_⟩, ⟨hw1, hw2⟩, ?_⟩
              · intro i ln2 h2
                dsimp only at h2
                by_cases hi : row = i
                · subst hi
                  rw [get?_set_same _ _ _ (get?_some_lt hln)] at h2
                  cases h2
                  exact ⟨hsize, by simp, by simp⟩
                · rw [get?_set_other _ _ _ _ hi] at h2
                  exact hlok i ln2 h2
              · intro huv2
                exact absurd huv2 huv
      · rw [if_neg hcomp]
        exact ⟨fun c => rfl, ⟨hlen5, hlok⟩, ⟨hw1, hw2⟩, hcompat⟩

theorem applyFloorPenalty_inv (uv : Bool) (p : PlayerState) (dl : List TileColor)
    (hpinv : PlayerInv uv p) :
    (∀ c, playerTilesCount c (applyFloorPenalty p dl).1
        + (applyFloorPenalty p dl).2.count c
      = playerTilesCount c p + dl.count c)
    ∧ PlayerInv uv (applyFloorPenalty p dl).1 := by
  unfold applyFloorPenalty
  by_cases h : p.floorLine.length = 0
  · rw [if_pos h]
    exact ⟨fun c => rfl, hpinv⟩
  · rw [if_neg h]
    constructor
    · intro c
      unfold playerTilesCount
      dsimp only
      rw [List.count_append, count_tile_filterMap]
      simp only [List.count_nil]
      omega
    · obtain ⟨hl, hw, hc⟩ := hpinv
      exact ⟨hl, hw, fun huv => hc huv⟩

theorem foldRows_inv (uv : Bool) (rows : List Nat) (hrows : ∀ r ∈ rows, r < 5) :
    ∀ pr : PlayerState × List TileColor, PlayerInv uv pr.1 →
      (∀ c, playerTilesCount c
          ((rows.foldl (fun pr row => tileRow uv row pr.1 pr.2) pr)).1
        + ((rows.foldl (fun pr row => tileRow uv row pr.1 pr.2) pr)).2.count c
        = playerTilesCount c pr.1 + pr.2.count c)
      ∧ PlayerInv uv ((rows.foldl (fun pr row => tileRow uv row pr.1 pr.2) pr)).1 := by
  induction rows with
  | nil => exact fun pr h => ⟨fun c => rfl, h⟩
  | cons a rest ih =>
    intro pr hpr
    have hstep := tileRow_inv uv a pr.1 pr.2 (hrows a (by simp)) hpr
    have hrest := ih (fun r hr => hrows r (by simp [hr]))
      (tileRow uv a pr.1 pr.2) hstep.2
    rw [List.foldl_cons]
    refine ⟨fun c => ?_, hrest.2⟩
    have h1 := hstep.1 c
    have h2 := hrest.1 c
    omega

theorem tilePlayer_inv (uv : Bool) (p : PlayerState) (dl : List TileColor)
    (hpinv : PlayerInv uv p) :
    (∀ c, playerTilesCount c (tilePlayer uv p dl).1
        + (tilePlayer uv p dl).2.count c
      = playerTilesCount c p + dl.count c)
    ∧ PlayerInv uv (tilePlayer uv p dl).1 := by
  unfold tilePlayer
  dsimp only
  have hfold := foldRows_inv uv [0, 1, 2, 3, 4] (by decide) (p, dl) hpinv
  have hfp := applyFloorPenalty_inv uv
    ([0, 1, 2, 3, 4].foldl (fun pr row => tileRow uv row pr.1 pr.2) (p, dl)).1
    ([0, 1, 2, 3, 4].foldl (fun pr row => tileRow uv row pr.1 pr.2) (p, dl)).2
    hfold.2
  refine ⟨fun c => ?_, hfp.2⟩
  have h1 := hfold.1 c
  have h2 := hfp.1 c
  dsimp only at h1
  omega

theorem tileAllPlayers_inv (uv : Bool) :
    ∀ (ps : List PlayerState) (dl : List TileColor),
      (∀ p ∈ ps, PlayerInv uv p) →
      (∀ c, ((tileAllPlayers uv ps dl).1.map (playerTilesCount c)).sum
          + (tileAllPlayers uv ps dl).2.count c
        = (ps.map (playerTilesCount c)).sum + dl.count c)
      ∧ ∀ p2 ∈ (tileAllPlayers uv ps dl).1, PlayerInv uv p2 := by
  intro ps
  induction ps with
  | nil =>
    intro dl hps
    refine ⟨fun c => rfl, ?_⟩
    intro p2 hp2
    simp [tileAllPlayers] at hp2
  | cons p rest ih =>
    intro dl hps
    unfold tileAllPlayers
    dsimp only
    have hhead := tilePlayer_inv uv p dl (hps p (by simp))
    have htail := ih (tilePlayer uv p dl).2 (fun q hq => hps q (by simp [hq]))
    constructor
    · intro c
      rw [List.map_cons, List.sum_cons, List.map_cons, List.sum_cons]
      have h1 := hhead.1 c
      have h2 := htail.1 c
      omega
    · intro p2 hp2
      rcases List.mem_cons.mp hp2 with he | hm
      · rw [he]
        exact hhead.2
      · exact htail.2 p2 hm

theorem sum_map_map_eq {α : Type} (f : α → α) (g : α → Nat) (l : List α)
    (h : ∀ x ∈ l, g (f x) = g x) : ((l.map f).map g).sum = (l.map g).sum := by
  induction l with
  | nil => rfl
  | cons x xs ih =>
    simp only [List.map_cons, List.sum_cons]
    rw [h x (by simp), ih (fun y hy => h y (by simp [hy]))]

theorem allFactoriesEmpty_sum (fs : List FactoryDisplay) (c : TileColor)
    (h : allFactoriesEmpty fs = true) :
    (fs.map (fun f => f.tiles.count c)).sum = 0 := by
  refine sum_map_zero _ _ (fun f hf => ?_)
  unfold allFactoriesEmpty at h
  rw [List.all_eq_true] at h
  have := h f hf
  simp only [decide_eq_true_eq] at this
  rw [List.length_eq_zero.mp this]
  rfl

theorem setScoreById_countsum (ps : List PlayerState) (pid : String) (sc : Int)
    (c : TileColor) :
    ((setScoreById ps pid sc).map (playerTilesCount c)).sum
      = (ps.map (playerTilesCount c)).sum := by
  induction ps with
  | nil => rfl
  | cons p rest ih =>
    unfold setScoreById
    by_cases hid : p.id = pid
    · rw [if_pos hid]
      rfl
    · rw [if_neg hid]
      simp only [List.map_cons, List.sum_cons]
      rw [ih]

theorem setScoreById_pinv (uv : Bool) (ps : List PlayerState) (pid : String)
    (sc : Int) (h : ∀ p ∈ ps, PlayerInv uv p) :
    ∀ q ∈ setScoreById ps pid sc, PlayerInv uv q := by
  induction ps with
  | nil =>
    intro q hq
    simp [setScoreById] at hq
  | cons p rest ih =>
    intro q hq
    unfold setScoreById at hq
    by_cases hid : p.id = pid
    · rw [if_pos hid] at hq
      rcases List.mem_cons.mp hq with he | hm
      · rw [he]
        exact h p (by simp)
      · exact h q (by simp [hm])
    · rw [if_neg hid] at hq
      rcases List.mem_cons.mp hq with he | hm
      · rw [he]
        exact h p (by simp)
      · exact ih (fun x hx => h x (by simp [hx])) q hm

theorem applyScorings_countsum (scs : List EndgameScoring) (ps : List PlayerState)
    (c : TileColor) :
    ((applyScorings scs ps).map (playerTilesCount c)).sum
      = (ps.map (playerTilesCount c)).sum := by
  induction scs generalizing ps with
  | nil => rfl
  | cons sc rest ih =>
    unfold applyScorings at ih ⊢
    rw [List.foldl_cons, ih, setScoreById_countsum]

theorem applyScorings_pinv (uv : Bool) (scs : List EndgameScoring)
    (ps : List PlayerState) (h : ∀ p ∈ ps, PlayerInv uv p) :
    ∀ q ∈ applyScorings scs ps, PlayerInv uv q := by
  induction scs generalizing ps with
  | nil => exact h
  | cons sc rest ih =>
    unfold applyScorings at ih ⊢
    rw [List.foldl_cons]
    exact ih _ (setScoreById_pinv uv ps sc.playerId sc.totalScore h)

theorem prepareNextRound_inv (rng : Nat → Nat) (s : GameState)
    (hemp : allFactoriesEmpty s.factories = true)
    (hpinv : ∀ p ∈ s.players, PlayerInv s.useVariantWall p) :
    (∀ c, stateTileCount c (prepareNextRound rng s) = stateTileCount c s)
    ∧ (∀ p ∈ (prepareNextRound rng s).players, PlayerInv s.useVariantWall p)
    ∧ (prepareNextRound rng s).useVariantWall = s.useVariantWall := by
  unfold prepareNextRound
  refine ⟨?_, ?_, rfl⟩
  · intro c
    unfold stateTileCount
    dsimp only
    have href := refillFactories_count rng s.factories s.bag s.discardLid c
    have hfe := allFactoriesEmpty_sum s.factories c hemp
    have hmap := sum_map_map_eq (fun p => { p with hasStartingMarker := false })
      (playerTilesCount c) s.players (fun x hx => rfl)
    rw [hmap]
    omega
  · intro p hp
    dsimp only at hp
    obtain ⟨q, hq, hq2⟩ := List.mem_map.mp hp
    rw [← hq2]
    exact hpinv q hq

theorem decideWinner_fields (s1 : GameState) (sorted : List EndgameScoring) :
    (decideWinner s1 sorted).players = s1.players
    ∧ (decideWinner s1 sorted).bag = s1.bag
    ∧ (decideWinner s1 sorted).discardLid = s1.discardLid
    ∧ (decideWinner s1 sorted).factories = s1.factories
    ∧ (decideWinner s1 sorted).centerPool = s1.centerPool
    ∧ (decideWinner s1 sorted).useVariantWall = s1.useVariantWall := by
  unfold decideWinner
  split
  · exact ⟨rfl, rfl, rfl, rfl, rfl, rfl⟩
  · split
    · exact ⟨rfl, rfl, rfl, rfl, rfl, rfl⟩
    · split
      · split
        · exact ⟨rfl, rfl, rfl, rfl, rfl, rfl⟩
        · exact ⟨rfl, rfl, rfl, rfl, rfl, rfl⟩
      · exact ⟨rfl, rfl, rfl, rfl, rfl, rfl⟩

theorem executeEndgame_inv (s : GameState)
    (hpinv : ∀ p ∈ s.players, PlayerInv s.useVariantWall p) :
    (∀ c, stateTileCount c (executeEndgame s) = stateTileCount c s)
    ∧ (∀ p ∈ (executeEndgame s).players, PlayerInv s.useVariantWall p)
    ∧ (executeEndgame s).useVariantWall = s.useVariantWall := by
  unfold executeEndgame
  obtain ⟨hp1, hp2, hp3, hp4, hp5, hp6⟩ := decideWinner_fields
    { s with
      phase := .gameOver
      players := applyScorings (s.players.map calculateEndgameScoring) s.players }
    (List.insertionSort scoreDescOrder (s.players.map calculateEndgameScoring))
  refine ⟨?_, ?_, hp6⟩
  · intro c
    unfold stateTileCount
    rw [hp1, hp2, hp3, hp4, hp5]
    dsimp only
    rw [applyScorings_countsum]
  · intro p hp
    rw [hp1] at hp
    dsimp only at hp
    exact applyScorings_pinv s.useVariantWall _ s.players hpinv p hp

theorem executeWallTiling_inv (rng : Nat → Nat) (s : GameState)
    (hemp : allFactoriesEmpty s.factories = true)
    (hpinv : ∀ p ∈ s.players, PlayerInv s.useVariantWall p) :
    (∀ c, stateTileCount c (executeWallTiling rng s) = stateTileCount c s)
    ∧ (∀ p ∈ (executeWallTiling rng s).players, PlayerInv s.useVariantWall p)
    ∧ (executeWallTiling rng s).useVariantWall = s.useVariantWall := by
  unfold executeWallTiling
  dsimp only
  have htile := tileAllPlayers_inv s.useVariantWall s.players s.discardLid hpinv
  have hmid : ∀ c, stateTileCount c
      { s with
        players := (tileAllPlayers s.useVariantWall s.players s.discardLid).1
        discardLid := (tileAllPlayers s.useVariantWall s.players s.discardLid).2 }
      = stateTileCount c s := by
    intro c
    unfold stateTileCount
    dsimp only
    have h1 := htile.1 c
    omega
  by_cases hend : ({ s with
      players := (tileAllPlayers s.useVariantWall s.players s.discardLid).1
      discardLid := (tileAllPlayers s.useVariantWall s.players s.discardLid).2
      : GameState }).players.any (fun p => hasCompletedHorizontalRow p.wall)
  · rw [if_pos hend]
    have hsub := executeEndgame_inv
      { s with
        players := (tileAllPlayers s.useVariantWall s.players s.discardLid).1
        discardLid := (tileAllPlayers s.useVariantWall s.players s.discardLid).2 }
      htile.2
    refine ⟨fun c => by rw [hsub.1 c, hmid c], hsub.2.1, hsub.2.2⟩
  · rw [if_neg hend]
    have hsub := prepareNextRound_inv rng
      { s with
        players := (tileAllPlayers s.useVariantWall s.players s.discardLid).1
        discardLid := (tileAllPlayers s.useVariantWall s.players s.discardLid).2 }
      hemp htile.2
    refine ⟨fun c => by rw [hsub.1 c, hmid c], hsub.2.1, hsub.2.2⟩

theorem validateMove_canPlace (s : GameState) (m : GameMove) (r : ValidationResult)
    (h : validateMove s m = some r) (hv : r.valid = true) :
    ∀ player, s.players.get? s.currentPlayerIndex = some player →
      0 ≤ m.targetLine ∧ m.targetLine < 5 →
      canPlaceOnPatternLine player m.targetLine.toNat m.color s.useVariantWall = true := by
  intro player hplayer htl
  unfold validateMove at h
  by_cases hph : s.phase ≠ GamePhase.factoryOffer
  · rw [if_pos hph] at h
    injection h with he
    rw [← he] at hv
    simp at hv
  · rw [if_neg hph] at h
    dsimp only at h
    cases m with
    | factoryPick fid color target =>
      simp only [GameMove.targetLine, GameMove.color] at h htl ⊢
      cases hf : s.factories.find? (fun f => f.id = fid) with
      | none =>
        rw [hf] at h
        dsimp only at h
        injection h with he
        rw [← he] at hv
        simp at hv
      | some f =>
        rw [hf] at h
        dsimp only at h
        by_cases hz : f.tiles.length = 0
        · rw [if_pos hz] at h
          dsimp only at h
          injection h with he
          rw [← he] at hv
          simp at hv
        · rw [if_neg hz] at h
          by_cases hcont : f.tiles.contains color = true
          · rw [if_neg (not_not_intro hcont)] at h
            dsimp only at h
            rw [if_pos htl, hplayer] at h
            dsimp only at h
            by_cases hcp : canPlaceOnPatternLine player target.toNat color
                s.useVariantWall = true
            · exact hcp
            · rw [if_pos hcp] at h
              injection h with he
              rw [← he] at hv
              simp at hv
          · rw [if_pos hcont] at h
            dsimp only at h
            injection h with he
            rw [← he] at hv
            simp at hv
    | centerPick color target =>
      simp only [GameMove.targetLine, GameMove.color] at h htl ⊢
      by_cases hz : s.centerPool.length = 0
      · rw [if_pos hz] at h
        dsimp only at h
        injection h with he
        rw [← he] at hv
        simp at hv
      · rw [if_neg hz] at h
        by_cases hcont : s.centerPool.contains color = true
        · rw [if_neg (not_not_intro hcont)] at h
          dsimp only at h
          rw [if_pos htl, hplayer] at h
          dsimp only at h
          by_cases hcp : canPlaceOnPatternLine player target.toNat color
              s.useVariantWall = true
          · exact hcp
          · rw [if_pos hcp] at h
            injection h with he
            rw [← he] at hv
            simp at hv
        · rw [if_pos hcont] at h
          dsimp only at h
          injection h with he
          rw [← he] at hv
          simp at hv

theorem executeMove_inv (rng : Nat → Nat) (s : GameState) (m : GameMove)
    (s2 : GameState) (hInv : InvL s) (h : executeMove rng s m = some s2) :
    InvL s2 := by
  obtain ⟨hcount, hpinv⟩ := hInv
  unfold executeMove at h
  cases hv : validateMove s m with
  | none =>
    rw [hv] at h
    cases h
  | some r =>
    rw [hv] at h
    dsimp only at h
    by_cases hval : r.valid = true
    · rw [if_pos hval] at h
      cases hpp : pickPlaceState s m with
      | none =>
        rw [hpp] at h
        cases h
      | some t =>
        rw [hpp] at h
        dsimp only at h
        have hcan := validateMove_canPlace s m r hv hval
        have hppi := pickPlaceState_inv s m t hpp hpinv
          (fun player hp htl => hcan player hp htl)
        by_cases hend : allFactoriesEmpty t.factories = true ∧ t.centerPool.length = 0
        · rw [if_pos hend] at h
          injection h with he
          rw [← he]
          have hwt := executeWallTiling_inv rng { t with phase := GamePhase.wallTiling }
            hend.1
            (by
              rw [show ({ t with phase := GamePhase.wallTiling : GameState }).useVariantWall
                = s.useVariantWall from hppi.2.2]
              exact hppi.2.1)
          refine ⟨?_, ?_⟩
          · intro c
            rw [hwt.1 c]
            rw [show stateTileCount c ({ t with phase := GamePhase.wallTiling : GameState })
              = stateTileCount c t from rfl]
            rw [hppi.1 c]
            exact hcount c
          · intro p hp
            rw [show (executeWallTiling rng
                ({ t with phase := GamePhase.wallTiling : GameState })).useVariantWall
              = s.useVariantWall from hwt.2.2.trans hppi.2.2]
            have hq := hwt.2.1 p hp
            rw [show ({ t with phase := GamePhase.wallTiling : GameState }).useVariantWall
              = s.useVariantWall from hppi.2.2] at hq
            exact hq
        · rw [if_neg hend] at h
          injection h with he
          rw [← he]
          refine ⟨?_, ?_⟩
          · intro c
            rw [show stateTileCount c ({ t with
                currentPlayerIndex := (t.currentPlayerIndex + 1) % t.players.length
                : GameState }) = stateTileCount c t from rfl]
            rw [hppi.1 c]
            exact hcount c
          · intro p hp
            rw [show ({ t with
                currentPlayerIndex := (t.currentPlayerIndex + 1) % t.players.length
                : GameState }).useVariantWall = s.useVariantWall from hppi.2.2]
            exact hppi.2.1 p hp
    · rw [if_neg hval] at h
      cases h

theorem localReach_inv (s : GameState) (h : ReachableLocal s) : InvL s := by
  induction h with
  | init s h0 =>
    obtain ⟨names, uv, rng, hc⟩ := h0
    exact createGame_inv names uv rng s hc
  | step s s2 hs h0 ih =>
    obtain ⟨m, rng, hm⟩ := h0
    exact executeMove_inv rng s m s2 ih hm

/-! ## Claim C1: the networked room -/

theorem executePickup_inv (s : RoomState) (pid : String) (src : PickSource)
    (c0 : TileColor) (s2 : RoomState) (hInv : InvR s)
    (h : Room.executePickup s pid src c0 = some s2) : InvR s2 := by
  obtain ⟨hcount, hpinv, hpend⟩ := hInv
  unfold Room.executePickup at h
  cases hidx : s.players.findIdx? (fun p => p.id = pid) with
  | none =>
    rw [hidx] at h
    cases h
  | some playerIndex =>
    rw [hidx] at h
    dsimp only at h
    by_cases h1 : playerIndex ≠ s.currentPlayerIndex
    · rw [if_pos h1] at h
      cases h
    · rw [if_neg h1] at h
      by_cases h2 : s.pendingTiles.length > 0
      · rw [if_pos h2] at h
        cases h
      · rw [if_neg h2] at h
        have hpe : s.pendingTiles = [] := List.length_eq_zero.mp (by omega)
        cases src with
        | factory fid =>
          dsimp only at h
          cases hpf : pickFactory s.factories fid c0 with
          | none =>
            rw [hpf] at h
            cases h
          | some r =>
            rw [hpf] at h
            injection h with he
            rw [← he]
            refine ⟨?_, hpinv, ?_⟩
            · intro c
              have hc20 := hcount c
              have hpk := pickFactory_count s.factories fid c0 c r.1 r.2.1 r.2.2
                (by rw [hpf])
              unfold roomTileCountPending roomTileCount at hc20 ⊢
              dsimp only
              rw [List.count_append]
              rw [hpe] at hc20
              simp only [List.count_nil] at hc20
              omega
            · intro t ht
              dsimp only at ht ⊢
              exact congrArg some
                (pickFactory_picked s.factories fid c0 r.1 r.2.1 r.2.2
                  (by rw [hpf]) t ht)
        | center =>
          dsimp only at h
          by_cases hz : s.centerPool.length = 0
          · rw [if_pos hz] at h
            cases h
          · rw [if_neg hz] at h
            by_cases hcont : s.centerPool.contains c0 = true
            · rw [if_neg (not_not_intro hcont)] at h
              try dsimp only at h
              have hsplit := fun c => count_filter_eq_split s.centerPool c0 c
              by_cases hm : s.centerHasStartingMarker = true
              · rw [if_pos hm] at h
                cases hp : s.players.get? playerIndex with
                | none =>
                  rw [hp] at h
                  injection h with he
                  rw [← he]
                  refine ⟨?_, hpinv, ?_⟩
                  · intro c
                    have hc20 := hcount c
                    unfold roomTileCountPending roomTileCount at hc20 ⊢
                    dsimp only
                    rw [hpe] at hc20
                    simp only [List.count_nil] at hc20
                    have := hsplit c
                    omega
                  · intro t ht
                    dsimp only at ht ⊢
                    exact congrArg some (count_mem_filter_all s.centerPool c0 t ht)
                | some p =>
                  rw [hp] at h
                  dsimp only at h
                  injection h with he
                  rw [← he]
                  constructor
                  · intro c
                    have hc20 := hcount c
                    have hsum := sum_map_set (playerTilesCount c) s.players playerIndex p
                      { p with
                        hasStartingMarker := true
                        floorLine :=
                          if p.floorLine.length < FLOOR_LINE_SIZE then
                            p.floorLine ++ [.starter]
                          else p.floorLine } hp
                    have hp2 : playerTilesCount c { p with
                        hasStartingMarker := true
                        floorLine :=
                          if p.floorLine.length < FLOOR_LINE_SIZE then
                            p.floorLine ++ [.starter]
                          else p.floorLine } = playerTilesCount c p := by
                      unfold playerTilesCount
                      dsimp only
                      by_cases hlen : p.floorLine.length < FLOOR_LINE_SIZE
                      · rw [if_pos hlen, count_starter_append]
                      · rw [if_neg hlen]
                    rw [hp2] at hsum
                    unfold roomTileCountPending roomTileCount at hc20 ⊢
                    dsimp only
                    rw [hpe] at hc20
                    simp only [List.count_nil] at hc20
                    have := hsplit c
                    omega
                  · constructor
                    · intro q hq
                      dsimp only at hq
                      rcases List.mem_or_eq_of_mem_set hq with hmem | heq
                      · exact hpinv q hmem
                      · rw [heq]
                        obtain ⟨hqa, hqb, hqc⟩ := hpinv p (List.get?_mem hp)
                        exact ⟨hqa, hqb, fun huv => hqc huv⟩
                    · intro t ht
                      dsimp only at ht ⊢
                      exact congrArg some (count_mem_filter_all s.centerPool c0 t ht)
              · rw [if_neg hm] at h
                injection h with he
                rw [← he]
                refine ⟨?_, hpinv, ?_⟩
                · intro c
                  have hc20 := hcount c
                  unfold roomTileCountPending roomTileCount at hc20 ⊢
                  dsimp only
                  rw [hpe] at hc20
                  simp only [List.count_nil] at hc20
                  have := hsplit c
                  omega
                · intro t ht
                  dsimp only at ht ⊢
                  exact congrArg some (count_mem_filter_all s.centerPool c0 t ht)
            · rw [if_pos hcont] at h
              cases h

theorem clearIncomplete_inv (row : Nat) (p : PlayerState) (dl : List TileColor)
    (hpinv : PlayerInv false p) :
    (∀ c, playerTilesCount c (Room.clearIncomplete row p dl).1
        + (Room.clearIncomplete row p dl).2.count c
      = playerTilesCount c p + dl.count c)
    ∧ PlayerInv false (Room.clearIncomplete row p dl).1 := by
  obtain ⟨⟨hlen5, hlok⟩, hwok, hcompat⟩ := hpinv
  unfold Room.clearIncomplete
  cases hln : p.patternLines.get? row with
  | none => exact ⟨fun c => rfl, ⟨hlen5, hlok⟩, hwok, hcompat⟩
  | some ln =>
    dsimp only
    by_cases hpos : ln.tiles.length > 0
    · rw [if_pos hpos]
      constructor
      · intro c
        unfold playerTilesCount
        dsimp only
        have hsum := sum_map_set (fun l2 => l2.tiles.count c) p.patternLines
          row ln { ln with tiles := [], color := none } hln
        simp only [List.count_nil] at hsum
        rw [List.count_append]
        omega
      · refine ⟨⟨by rw [List.length_set]; exact hlen5, ?_⟩, hwok, ?_⟩
        · intro i ln2 h2
          dsimp only at h2
          by_cases hi : row = i
          · subst hi
            rw [get?_set_same _ _ _ (get?_some_lt hln)] at h2
            cases h2
            exact ⟨(hlok row ln hln).1, by simp, by simp⟩
          · rw [get?_set_other _ _ _ _ hi] at h2
            exact hlok i ln2 h2
        · intro huv i ln2 lc2 h2 hc2 hne2
          dsimp only at h2 ⊢
          by_cases hi : row = i
          · subst hi
            rw [get?_set_same _ _ _ (get?_some_lt hln)] at h2
            cases h2
            simp at hne2
          · rw [get?_set_other _ _ _ _ hi] at h2
            exact hcompat huv i ln2 lc2 h2 hc2 hne2
    · rw [if_neg hpos]
      exact ⟨fun c => rfl, ⟨hlen5, hlok⟩, hwok, hcompat⟩

theorem tileRowRoom_inv (row : Nat) (p : PlayerState) (dl : List TileColor)
    (hrow : row < 5) (hpinv : PlayerInv false p) :
    (∀ c, playerTilesCount c (Room.tileRowRoom row p dl).1
        + (Room.tileRowRoom row p dl).2.count c
      = playerTilesCount c p + dl.count c)
    ∧ PlayerInv false (Room.tileRowRoom row p dl).1 := by
  unfold Room.tileRowRoom Room.tileRowStd
  dsimp only
  have h1 := tileRow_inv false row p dl hrow hpinv
  have h2 := clearIncomplete_inv row (tileRow false row p dl).1
    (tileRow false row p dl).2 h1.2
  refine ⟨fun c => ?_, h2.2⟩
  have ha := h1.1 c
  have hb := h2.1 c
  omega

theorem foldRoomRows_inv (rows : List Nat) (hrows : ∀ r ∈ rows, r < 5) :
    ∀ pr : PlayerState × List TileColor, PlayerInv false pr.1 →
      (∀ c, playerTilesCount c
          ((rows.foldl (fun pr row => Room.tileRowRoom row pr.1 pr.2) pr)).1
        + ((rows.foldl (fun pr row => Room.tileRowRoom row pr.1 pr.2) pr)).2.count c
        = playerTilesCount c pr.1 + pr.2.count c)
      ∧ PlayerInv false
          ((rows.foldl (fun pr row => Room.tileRowRoom row pr.1 pr.2) pr)).1 := by
  induction rows with
  | nil => exact fun pr h => ⟨fun c => rfl, h⟩
  | cons a rest ih =>
    intro pr hpr
    have hstep := tileRowRoom_inv a pr.1 pr.2 (hrows a (by simp)) hpr
    have hrest := ih (fun r hr => hrows r (by simp [hr]))
      (Room.tileRowRoom a pr.1 pr.2) hstep.2
    rw [List.foldl_cons]
    refine ⟨fun c => ?_, hrest.2⟩
    have h1 := hstep.1 c
    have h2 := hrest.1 c
    omega

theorem tilePlayerRoom_inv (p : PlayerState) (dl : List TileColor)
    (hpinv : PlayerInv false p) :
    (∀ c, playerTilesCount c (Room.tilePlayerRoom p dl).1
        + (Room.tilePlayerRoom p dl).2.count c
      = playerTilesCount c p + dl.count c)
    ∧ PlayerInv false (Room.tilePlayerRoom p dl).1 := by
  unfold Room.tilePlayerRoom
  dsimp only
  have hfold := foldRoomRows_inv [0, 1, 2, 3, 4] (by decide) (p, dl) hpinv
  have hfp := applyFloorPenalty_inv false
    ([0, 1, 2, 3, 4].foldl (fun pr row => Room.tileRowRoom row pr.1 pr.2) (p, dl)).1
    ([0, 1, 2, 3, 4].foldl (fun pr row => Room.tileRowRoom row pr.1 pr.2) (p, dl)).2
    hfold.2
  refine ⟨fun c => ?_, hfp.2⟩
  have h1 := hfold.1 c
  have h2 := hfp.1 c
  dsimp only at h1
  omega

theorem tileAllPlayersRoom_inv :
    ∀ (ps : List PlayerState) (dl : List TileColor),
      (∀ p ∈ ps, PlayerInv false p) →
      (∀ c, ((Room.tileAllPlayersRoom ps dl).1.map (playerTilesCount c)).sum
          + (Room.tileAllPlayersRoom ps dl).2.count c
        = (ps.map (playerTilesCount c)).sum + dl.count c)
      ∧ ∀ p2 ∈ (Room.tileAllPlayersRoom ps dl).1, PlayerInv false p2 := by
  intro ps
  induction ps with
  | nil =>
    intro dl hps
    refine ⟨fun c => rfl, ?_⟩
    intro p2 hp2
    simp [Room.tileAllPlayersRoom] at hp2
  | cons p rest ih =>
    intro dl hps
    unfold Room.tileAllPlayersRoom
    dsimp only
    have hhead := tilePlayerRoom_inv p dl (hps p (by simp))
    have htail := ih (Room.tilePlayerRoom p dl).2 (fun q hq => hps q (by simp [hq]))
    constructor
    · intro c
      rw [List.map_cons, List.sum_cons, List.map_cons, List.sum_cons]
      have h1 := hhead.1 c
      have h2 := htail.1 c
      omega
    · intro p2 hp2
      rcases List.mem_cons.mp hp2 with he | hm
      · rw [he]
        exact hhead.2
      · exact htail.2 p2 hm

theorem room_prepareNextRound_inv (rng : Nat → Nat) (s : RoomState)
    (hemp : allFactoriesEmpty s.factories = true)
    (hpinv : ∀ p ∈ s.players, PlayerInv false p) :
    (∀ c, roomTileCount c (Room.prepareNextRound rng s) = roomTileCount c s)
    ∧ (∀ p ∈ (Room.prepareNextRound rng s).players, PlayerInv false p)
    ∧ (Room.prepareNextRound rng s).pendingTiles = s.pendingTiles
    ∧ (Room.prepareNextRound rng s).pendingColor = s.pendingColor := by
  unfold Room.prepareNextRound
  refine ⟨?_, ?_, rfl, rfl⟩
  · intro c
    unfold roomTileCount
    dsimp only
    have href := refillFactories_count rng s.factories s.bag s.discardLid c
    have hfe := allFactoriesEmpty_sum s.factories c hemp
    have hmap := sum_map_map_eq (fun p => { p with hasStartingMarker := false })
      (playerTilesCount c) s.players (fun x hx => rfl)
    rw [hmap]
    omega
  · intro p hp
    dsimp only at hp
    obtain ⟨q, hq, hq2⟩ := List.mem_map.mp hp
    rw [← hq2]
    exact hpinv q hq

theorem room_executeEndgame_inv (s : RoomState)
    (hpinv : ∀ p ∈ s.players, PlayerInv false p) :
    (∀ c, roomTileCount c (Room.executeEndgame s) = roomTileCount c s)
    ∧ (∀ p ∈ (Room.executeEndgame s).players, PlayerInv false p)
    ∧ (Room.executeEndgame s).pendingTiles = s.pendingTiles
    ∧ (Room.executeEndgame s).pendingColor = s.pendingColor := by
  unfold Room.executeEndgame
  refine ⟨?_, ?_, rfl, rfl⟩
  · intro c
    unfold roomTileCount
    dsimp only
    rw [sum_map_map_eq
      (fun p => { p with
        score := p.score + (calculateEndgameScoring p).horizontalBonus
          + (calculateEndgameScoring p).verticalBonus
          + (calculateEndgameScoring p).colorBonus })
      (playerTilesCount c) s.players (fun x hx => rfl)]
  · intro p hp
    dsimp only at hp
    obtain ⟨q, hq, hq2⟩ := List.mem_map.mp hp
    rw [← hq2]
    obtain ⟨ha, hb, hc⟩ := hpinv q hq
    exact ⟨ha, hb, fun huv => hc huv⟩

theorem room_executeWallTiling_inv (rng : Nat → Nat) (s : RoomState)
    (hemp : allFactoriesEmpty s.factories = true)
    (hpinv : ∀ p ∈ s.players, PlayerInv false p) :
    (∀ c, roomTileCount c (Room.executeWallTiling rng s) = roomTileCount c s)
    ∧ (∀ p ∈ (Room.executeWallTiling rng s).players, PlayerInv false p)
    ∧ (Room.executeWallTiling rng s).pendingTiles = s.pendingTiles
    ∧ (Room.executeWallTiling rng s).pendingColor = s.pendingColor := by
  unfold Room.executeWallTiling
  dsimp only
  have htile := tileAllPlayersRoom_inv s.players s.discardLid hpinv
  have hmid : ∀ c, roomTileCount c
      { s with
        players := (Room.tileAllPlayersRoom s.players s.discardLid).1
        discardLid := (Room.tileAllPlayersRoom s.players s.discardLid).2 }
      = roomTileCount c s := by
    intro c
    unfold roomTileCount
    dsimp only
    have h1 := htile.1 c
    omega
  by_cases hend : ({ s with
      players := (Room.tileAllPlayersRoom s.players s.discardLid).1
      discardLid := (Room.tileAllPlayersRoom s.players s.discardLid).2
      : RoomState }).players.any (fun p => hasCompletedHorizontalRow p.wall)
  · rw [if_pos hend]
    have hsub := room_executeEndgame_inv
      { s with
        players := (Room.tileAllPlayersRoom s.players s.discardLid).1
        discardLid := (Room.tileAllPlayersRoom s.players s.discardLid).2 }
      htile.2
    exact ⟨fun c => by rw [hsub.1 c, hmid c], hsub.2.1, hsub.2.2.1, hsub.2.2.2⟩
  · rw [if_neg hend]
    have hsub := room_prepareNextRound_inv rng
      { s with
        players := (Room.tileAllPlayersRoom s.players s.discardLid).1
        discardLid := (Room.tileAllPlayersRoom s.players s.discardLid).2 }
      hemp htile.2
    exact ⟨fun c => by rw [hsub.1 c, hmid c], hsub.2.1, hsub.2.2.1, hsub.2.2.2⟩

theorem placeResolve_inv (rng : Nat → Nat) (s1 : RoomState)
    (remaining : List TileColor) (s2 : RoomState)
    (h : Room.placeResolve rng s1 remaining = some s2)
    (hcnt : ∀ c, roomTileCount c s1 + remaining.count c = TILES_PER_COLOR)
    (hpinv : ∀ p ∈ s1.players, PlayerInv false p)
    (hpur : ∀ t ∈ remaining, s1.pendingColor = some t) :
    InvR s2 := by
  unfold Room.placeResolve at h
  by_cases hr : remaining.length > 0
  · rw [if_pos hr] at h
    injection h with he
    rw [← he]
    refine ⟨?_, hpinv, hpur⟩
    intro c
    unfold roomTileCountPending
    rw [show roomTileCount c { s1 with pendingTiles := remaining }
      = roomTileCount c s1 from rfl]
    dsimp only
    exact hcnt c
  · rw [if_neg hr] at h
    dsimp only at h
    have hre : remaining = [] := List.length_eq_zero.mp (by omega)
    by_cases hend : allFactoriesEmpty s1.factories = true ∧ s1.centerPool.length = 0
    · rw [if_pos hend] at h
      injection h with he
      rw [← he]
      have hwt := room_executeWallTiling_inv rng
        { s1 with pendingTiles := [], pendingColor := none, pendingPlayerId := none }
        hend.1 hpinv
      refine ⟨?_, hwt.2.1, ?_⟩
      · intro c
        unfold roomTileCountPending
        rw [hwt.2.2.1]
        dsimp only
        simp only [List.count_nil]
        rw [hwt.1 c]
        rw [show roomTileCount c
          { s1 with pendingTiles := [], pendingColor := none, pendingPlayerId := none }
          = roomTileCount c s1 from rfl]
        have := hcnt c
        rw [hre] at this
        simp only [List.count_nil] at this
        omega
      · intro t ht
        rw [hwt.2.2.1] at ht
        dsimp only at ht
        cases ht
    · rw [if_neg hend] at h
      injection h with he
      rw [← he]
      refine ⟨?_, hpinv, ?_⟩
      · intro c
        unfold roomTileCountPending
        rw [show roomTileCount c { s1 with
            pendingTiles := [], pendingColor := none, pendingPlayerId := none,
            currentPlayerIndex := (s1.currentPlayerIndex + 1) % s1.players.length }
          = roomTileCount c s1 from rfl]
        dsimp only
        simp only [List.count_nil]
        have := hcnt c
        rw [hre] at this
        simp only [List.count_nil] at this
        omega
      · intro t ht
        dsimp only at ht
        cases ht

theorem canPlaceRoom_facts (player : PlayerState) (i : Nat) (c : TileColor)
    (h : Room.canPlaceOnPatternLine player i c = true) :
    ∃ line, player.patternLines.get? i = some line ∧
      line.tiles.length < line.size ∧
      (line.color = none ∨ line.color = some c) ∧
      wallCell player.wall i (getWallColumnForColor i c) = none := by
  unfold Room.canPlaceOnPatternLine at h
  cases hget : player.patternLines.get? i with
  | none =>
    rw [hget] at h
    cases h
  | some line =>
    rw [hget] at h
    dsimp only at h
    by_cases h1 : line.size ≤ line.tiles.length
    · rw [if_pos h1] at h
      cases h
    · rw [if_neg h1] at h
      by_cases h2 : line.color.isSome ∧ line.color ≠ some c
      · rw [if_pos h2] at h
        cases h
      · rw [if_neg h2] at h
        refine ⟨line, rfl, by omega, ?_, ?_⟩
        · cases hcol : line.color with
          | none => exact Or.inl rfl
          | some c2 =>
            exact Or.inr (not_not.mp
              (fun hne => h2 ⟨by rw [hcol]; rfl, by rw [hcol]; exact hne⟩))
        · unfold isColorOnWallRow at h
          cases hw : wallCell player.wall i (getWallColumnForColor i c) with
          | none => rfl
          | some x =>
            rw [hw] at h
            simp at h

theorem fill_line_player (p : PlayerState) (picked : List TileColor)
    (tgt : Nat) (mc : TileColor) (line : PatternLine)
    (hline : p.patternLines.get? tgt = some line)
    (hpinv : PlayerInv false p)
    (hpure : ∀ t ∈ picked, mc = t)
    (hcolor : line.color = none ∨ line.color = some mc)
    (hwall : wallCell p.wall tgt (getWallColumnForColor tgt mc) = none) :
    (∀ c, playerTilesCount c
        { p with
          patternLines := p.patternLines.set tgt
            (Room.fillLine picked { line with color := some mc }).1 }
      = playerTilesCount c p
        + (picked.take (line.size - line.tiles.length)).count c)
    ∧ PlayerInv false
        { p with
          patternLines := p.patternLines.set tgt
            (Room.fillLine picked { line with color := some mc }).1 } := by
  obtain ⟨⟨hlen5, hlok⟩, hwok, hcompat⟩ := hpinv
  have hsize := (hlok tgt line hline).1
  have hlelen := (hlok tgt line hline).2.1
  have hlpure := (hlok tgt line hline).2.2
  constructor
  · intro c
    rw [fillLine_eq]
    unfold playerTilesCount
    dsimp only
    have hsum := sum_map_set (fun ln => ln.tiles.count c) p.patternLines tgt line
      { line with
        color := some mc
        tiles := line.tiles ++ picked.take (line.size - line.tiles.length) } hline
    dsimp only at hsum
    rw [List.count_append] at hsum
    omega
  · rw [fillLine_eq]
    dsimp only
    refine ⟨⟨by rw [List.length_set]; exact hlen5, ?_⟩, hwok, ?_⟩
    · intro i ln2 h2
      by_cases hi : tgt = i
      · subst hi
        rw [get?_set_same _ _ _ (get?_some_lt hline)] at h2
        cases h2
        refine ⟨hsize, ?_, ?_⟩
        · dsimp only
          rw [List.length_append, List.length_take]
          omega
        · intro t ht
          dsimp only at ht ⊢
          rcases List.mem_append.mp ht with hold | hnew
          · have := hlpure t hold
            rcases hcolor with hc0 | hc0 <;> rw [hc0] at this
            · cases this
            · injection this with he
              rw [he]
          · rw [hpure t (List.mem_of_mem_take hnew)]
      · rw [get?_set_other _ _ _ _ hi] at h2
        exact hlok i ln2 h2
    · intro huv i ln2 lc h2 hc2 hne
      dsimp only
      by_cases hi : tgt = i
      · subst hi
        rw [get?_set_same _ _ _ (get?_some_lt hline)] at h2
        cases h2
        injection hc2 with he
        rw [← he]
        exact hwall
      · rw [get?_set_other _ _ _ _ hi] at h2
        exact hcompat huv i ln2 lc h2 hc2 hne

theorem executePlacement_inv (rng : Nat → Nat) (s : RoomState) (pid : String)
    (tl : Int) (s2 : RoomState) (hInv : InvR s)
    (h : Room.executePlacement rng s pid tl = some s2) : InvR s2 := by
  obtain ⟨hcount, hpinv, hpend⟩ := hInv
  unfold Room.executePlacement at h
  by_cases h1 : s.pendingPlayerId ≠ some pid
  · rw [if_pos h1] at h
    cases h
  · rw [if_neg h1] at h
    by_cases h2 : s.pendingTiles.length = 0
    · rw [if_pos h2] at h
      cases h
    · rw [if_neg h2] at h
      cases hpc : s.pendingColor with
      | none =>
        rw [hpc] at h
        cases h
      | some pc =>
        rw [hpc] at h
        dsimp only at h
        cases hidx : s.players.findIdx? (fun p => p.id = pid) with
        | none =>
          rw [hidx] at h
          cases h
        | some playerIndex =>
          rw [hidx] at h
          dsimp only at h
          cases hp : s.players.get? playerIndex with
          | none =>
            rw [hp] at h
            cases h
          | some p =>
            rw [hp] at h
            dsimp only at h
            have hpinvp := hpinv p (List.get?_mem hp)
            have hpure : ∀ t ∈ s.pendingTiles, pc = t := by
              intro t ht
              have := hpend t ht
              rw [hpc] at this
              exact Option.some.inj this
            by_cases htl : 0 ≤ tl ∧ tl < 5
            · rw [if_pos htl] at h
              by_cases hcp : Room.canPlaceOnPatternLine p tl.toNat pc = true
              · rw [if_neg (not_not_intro hcp)] at h
                obtain ⟨line, hline, hlt2, hcolor, hwall⟩ :=
                  canPlaceRoom_facts p tl.toNat pc hcp
                rw [hline] at h
                dsimp only at h
                have hfill := fill_line_player p s.pendingTiles tl.toNat pc line
                  hline hpinvp hpure hcolor hwall
                refine placeResolve_inv rng _ _ s2 h ?_ ?_ ?_
                · intro c
                  have hc20 := hcount c
                  have hfc := hfill.1 c
                  have hsum := sum_map_set (playerTilesCount c) s.players playerIndex p
                    { p with
                      patternLines := p.patternLines.set tl.toNat
                        (Room.fillLine s.pendingTiles
                          { line with color := some pc }).1 } hp
                  rw [show (Room.fillLine s.pendingTiles
                      { line with color := some pc }).2
                    = s.pendingTiles.drop (line.size - line.tiles.length) from
                    by rw [fillLine_eq]]
                  have hsplit := count_take_drop s.pendingTiles
                    (line.size - line.tiles.length) c
                  unfold roomTileCountPending roomTileCount at hc20
                  unfold roomTileCount
                  dsimp only
                  omega
                · intro q hq
                  dsimp only at hq
                  rcases List.mem_or_eq_of_mem_set hq with hmem | heq
                  · exact hpinv q hmem
                  · rw [heq]
                    exact hfill.2
                · intro t ht
                  rw [show (Room.fillLine s.pendingTiles
                      { line with color := some pc }).2
                    = s.pendingTiles.drop (line.size - line.tiles.length) from
                    by rw [fillLine_eq]] at ht
                  dsimp only
                  exact congrArg some (hpure t (List.drop_subset _ _ ht))
              · rw [if_pos hcp] at h
                cases h
            · rw [if_neg htl] at h
              by_cases hm1 : tl = -1
              · rw [if_pos hm1] at h
                try dsimp only at h
                have hfl := place_floor_player p s.pendingTiles s.discardLid false hpinvp
                refine placeResolve_inv rng _ _ s2 h ?_ ?_ ?_
                · intro c
                  have hc20 := hcount c
                  have hfc := hfl.1 c
                  have hsum := sum_map_set (playerTilesCount c) s.players playerIndex p
                    { p with
                      floorLine := (placeOnFloor s.pendingTiles p.floorLine
                        s.discardLid).1 } hp
                  unfold roomTileCountPending roomTileCount at hc20
                  unfold roomTileCount
                  dsimp only
                  simp only [List.count_nil]
                  omega
                · intro q hq
                  dsimp only at hq
                  rcases List.mem_or_eq_of_mem_set hq with hmem | heq
                  · exact hpinv q hmem
                  · rw [heq]
                    exact hfl.2
                · intro t ht
                  cases ht
              · rw [if_neg hm1] at h
                cases h

theorem roomReach_inv (s : RoomState) (h : ReachableRoom s) : InvR s := by
  induction h with
  | init s h0 =>
    obtain ⟨s0, rng, he⟩ := h0
    rw [he]
    exact initializeGame_inv rng s0
  | step s s2 hs h0 ih =>
    rcases h0 with ⟨pid, src, c, hm⟩ | ⟨pid, t, rng, hm⟩
    · exact executePickup_inv s pid src c s2 ih hm
    · exact executePlacement_inv rng s pid t s2 ih hm

/-- C1: tile conservation.  In every reachable state of the local engine
the spec's sum (bag, discard lid, factories, center pool, all boards) is
20 for every color.  In the networked room the conserved quantity is that
sum PLUS the tiles of the pending pick (`roomTileCountPending`); the sum
as stated by the spec (`roomTileCount`) drops below 20 while a pick is
pending, so it is 20 exactly when no pick is outstanding. -/
theorem claim_C1 :
    (∀ s, ReachableLocal s → ∀ c, stateTileCount c s = TILES_PER_COLOR)
    ∧ (∀ s, ReachableRoom s → ∀ c, roomTileCountPending c s = TILES_PER_COLOR) :=
  ⟨fun s h c => (localReach_inv s h).1 c,
   fun s h c => (roomReach_inv s h).1 c⟩

/-- C1 counterexample to the literal claim: the reachable room state
`rPicked` (initial game, then a factory pickup) has a pending pick, and
the spec's stated sum for the picked color is below 20 there. -/
theorem claim_C1_counterexample :
    ReachableRoom rPicked ∧ roomTileCount rInitColor rPicked ≠ TILES_PER_COLOR := by
  constructor
  · exact ReachableRoom.step rInit rPicked
      (ReachableRoom.init rInit ⟨lobbyR, rngZero, rfl⟩)
      (Or.inl ⟨"p0", .factory 0, rInitColor, by decide⟩)
  · decide

/-- C1 witness: the conserved quantities evaluate to 20 on the concrete
initial states of both engines. -/
theorem claim_C1_witness :
    stateTileCount TileColor.blue gInit = TILES_PER_COLOR
    ∧ roomTileCountPending TileColor.blue rInit = TILES_PER_COLOR := by
  have h1 : ReachableLocal gInit :=
    ReachableLocal.init gInit ⟨["alice", "bob"], false, rngZero, by decide⟩
  have h2 : ReachableRoom rInit := ReachableRoom.init rInit ⟨lobbyR, rngZero, rfl⟩
  exact ⟨claim_C1.1 gInit h1 .blue, claim_C1.2 rInit h2 .blue⟩
